import Mathlib

/-!
# Adventure Machine (`src/Adventure Machine/app.js`): the cycle scheduler

A shallow embedding of the pad scheduler of `app.js`: the module-level variables
(`playing`, `pending`, `disabledAtNext`, `cycleDuration`, `lastCycleStart`, `cycleTimer`,
`activeSources`, `buffers`, `effectParams`) together with the two CSS classes of the pads
(`playing`, `queued`), which the source reads back as state, form one `State` record, and every
function of the source that mutates them is a function `State → … → State`.

Conventions of the embedding:
* audio times and durations are rationals (`audioCtx.currentTime` is an argument `now`); every
  double is a rational, and where a result depends on the rounding of the doubles (the poll tick
  `launchCycleLoopTick`) the rounding is an argument `fl`, with `roundDouble` the one of the
  source;
* an `AudioBufferSourceNode` is the number under which it was created; the calls `src.start(t)`
  and `src.stop()` are recorded in the logs `started` and `stopped`;
* the audio graph, the visualisers and the pad rotation are not part of the state.
-/

namespace AdventureMachine

/-! ## The embedding of `app.js` -/

/-- The pad categories, in the key order of the objects `playing` and `pending`. -/
inductive Cat where
  | drum
  | bass
  | sound
  deriving DecidableEq, Repr

/-- The value of `Object.keys(playing)` and of `['drum', 'bass', 'sound']`. -/
def cats : List Cat := [Cat.drum, Cat.bass, Cat.sound]

/-- A pad key is the file name of its sample. -/
abbrev Key := String

/-- The table `sampleNames` (line 13). -/
def sampleNames : Cat → List Key
  | Cat.drum => (List.range 10).map fun i => "drum.1." ++ toString (i + 1) ++ ".wav"
  | Cat.bass => (List.range 10).map fun i => "bass.1." ++ toString (i + 1) ++ ".wav"
  | Cat.sound => (List.range 16).map fun i => "sounds.1." ++ toString (i + 1) ++ ".wav"

/-- The table `limits` (line 19). -/
def limits : Cat → Nat
  | Cat.drum => 1
  | Cat.bass => 1
  | Cat.sound => 3

/-- A pad button: `pad.dataset.key` and `pad.dataset.category` (`createPad`). -/
structure Pad where
  key : Key
  category : Cat
  deriving DecidableEq, Repr

/-- The pads that `buildGrid` appends to `gridEl`: bass, then drum, then sound. -/
def grid : List Pad :=
  (sampleNames Cat.bass).map (fun n => Pad.mk n Cat.bass) ++
  (sampleNames Cat.drum).map (fun n => Pad.mk n Cat.drum) ++
  (sampleNames Cat.sound).map (fun n => Pad.mk n Cat.sound)

/-- The lookup `gridEl.querySelector('[data-key="' + key + '"]')`: the first pad with that key. -/
def querySelector (key : Key) : Option Pad :=
  grid.find? (fun p => p.key == key)

/-- Whether `querySelector` finds a pad (the tests `if (pad)`, `if (oldPad)`, `if (droppedPad)`). -/
def hasPad (key : Key) : Bool :=
  (querySelector key).isSome

/-- An element of a `playing` list: `{ key, startedCycle }`. -/
structure PlayingEntry where
  key : Key
  startedCycle : Nat
  deriving DecidableEq, Repr

/-- The object `info = { key, cat, addedAt }` of `onPadClick`; `applyPreset` builds `{ key, cat }`,
which has no `addedAt`. -/
structure Info where
  key : Key
  cat : Cat
  addedAt : Option ℚ
  deriving DecidableEq

/-- The names of the entries of `effectParams` (line 72). -/
inductive Param where
  | masterVolume
  | reverbMix
  | delayMix
  | delayTime
  | filterFreq
  | filterQ
  | pitchShift
  | playbackRate
  deriving DecidableEq, Repr

/-- The initial value of `effectParams` (line 72). -/
def defaultEffectParams : Param → ℚ
  | Param.masterVolume => 1
  | Param.reverbMix => 0
  | Param.delayMix => 0
  | Param.delayTime => 0.3
  | Param.filterFreq => 20000
  | Param.filterQ => 1
  | Param.pitchShift => 0
  | Param.playbackRate => 1

/-- A recorded call `src.start(startTime)` of `scheduleCycle`, with the playback rate given to the
source. -/
structure StartCommand where
  source : Nat
  key : Key
  cat : Cat
  startTime : ℚ
  rate : ℚ
  deriving DecidableEq

/-- The mutable state of the page. -/
structure State where
  /-- The map `buffers`: the duration of the decoded buffer of a key, if it was loaded. -/
  buffers : Key → Option ℚ
  playing : Cat → List PlayingEntry
  pending : Cat → List Info
  disabledAtNext : List Key
  cycleDuration : Option ℚ
  lastCycleStart : Option ℚ
  /-- Whether the interval of `launchCycleLoop` is set (`cycleTimer` is not null). -/
  cycleTimer : Bool
  /-- The object `activeSources`, in the order of `Object.keys`. -/
  activeSources : List (Key × Nat)
  /-- The number of the next source that `createBufferSource` returns. -/
  nextSource : Nat
  started : List StartCommand
  stopped : List Nat
  /-- Whether the pad of a key has the class `playing`. -/
  playingClass : Key → Bool
  /-- Whether the pad of a key has the class `queued`. -/
  queuedClass : Key → Bool
  effectParams : Param → ℚ

/-- The state when the script has run: every set empty, no class on any pad; `buffers` and
`cycleDuration` are what `loadAllBuffers` has stored so far. -/
def initialState (buffers : Key → Option ℚ) (cycleDuration : Option ℚ) : State where
  buffers := buffers
  playing := fun _ => []
  pending := fun _ => []
  disabledAtNext := []
  cycleDuration := cycleDuration
  lastCycleStart := none
  cycleTimer := false
  activeSources := []
  nextSource := 0
  started := []
  stopped := []
  playingClass := fun _ => false
  queuedClass := fun _ => false
  effectParams := defaultEffectParams

/-- The keys of a list of entries of `playing`. -/
def playingKeys (s : State) (cat : Cat) : List Key :=
  (s.playing cat).map PlayingEntry.key

/-- The keys of a list of entries of `pending`. -/
def pendingKeys (s : State) (cat : Cat) : List Key :=
  (s.pending cat).map Info.key

/-- The test `!cycleDuration` on a value that is null or a number. -/
def falsy : Option ℚ → Bool
  | none => true
  | some d => decide (d = 0)

/-- The block `if (activeSources[key]) { activeSources[key].stop(); delete activeSources[key]; }`. -/
def stopSource (s : State) (key : Key) : State :=
  match s.activeSources.lookup key with
  | some src =>
    { s with
      stopped := s.stopped ++ [src]
      activeSources := s.activeSources.filter (fun e => e.1 != key) }
  | none => s

/-- The assignment `activeSources[key] = src`: an existing property keeps its place. -/
def setSource (l : List (Key × Nat)) (key : Key) (src : Nat) : List (Key × Nat) :=
  if l.any (fun e => e.1 == key) then l.map (fun e => if e.1 == key then (key, src) else e)
  else l ++ [(key, src)]

/-- The function `anyPlaying` (line 501). -/
def anyPlaying (s : State) : Bool :=
  (s.playing Cat.drum).length != 0 || (s.playing Cat.bass).length != 0 ||
    (s.playing Cat.sound).length != 0

/-- The function `inferDuration` (line 520). -/
def inferDuration (buffers : Key → Option ℚ) : List Info → Option ℚ
  | [] => none
  | it :: rest =>
    match buffers it.key with
    | some d => some d
    | none => inferDuration buffers rest

/-- The function `replaceCycleSets` (line 527). -/
def replaceCycleSets (s : State) (initial : List Info) : State :=
  { s with
    playing := initial.foldl
      (fun pl it => Function.update pl it.cat (pl it.cat ++ [PlayingEntry.mk it.key 0]))
      (fun _ => []) }

/-- The function `updatePadClasses` (line 573). -/
def updatePadClasses (s : State) : State :=
  let activeKeys : List Key :=
    cats.foldl (fun acc cat =>
      acc ++ ((s.playing cat).filter (fun o => !decide (o.key ∈ s.disabledAtNext))).map
        PlayingEntry.key) []
  { s with
    playingClass := fun k => if hasPad k then decide (k ∈ activeKeys) else s.playingClass k }

/-- One turn of the inner loop of `scheduleCycle` (lines 535 to 568) on the entry `obj`. -/
def scheduleEntry (startTime : ℚ) (cat : Cat) (s : State) (obj : PlayingEntry) :
    State × PlayingEntry :=
  if obj.key ∈ s.disabledAtNext then (s, obj)
  else
    match s.buffers obj.key with
    | none => (s, obj)
    | some _ =>
      ({ s with
         started := s.started ++
           [StartCommand.mk s.nextSource obj.key cat startTime (s.effectParams Param.playbackRate)]
         activeSources := setSource s.activeSources obj.key s.nextSource
         nextSource := s.nextSource + 1 },
       { obj with startedCycle := obj.startedCycle + 1 })

/-- The inner loop of `scheduleCycle` over the entries of one category. -/
def scheduleList (startTime : ℚ) (cat : Cat) : State → List PlayingEntry →
    State × List PlayingEntry
  | s, [] => (s, [])
  | s, obj :: rest =>
    let r := scheduleEntry startTime cat s obj
    let r2 := scheduleList startTime cat r.1 rest
    (r2.1, r.2 :: r2.2)

/-- One turn of the outer loop of `scheduleCycle`. -/
def scheduleCat (startTime : ℚ) (s : State) (cat : Cat) : State :=
  let r := scheduleList startTime cat s (s.playing cat)
  { r.1 with playing := Function.update r.1.playing cat r.2 }

/-- The function `scheduleCycle` (line 532). -/
def scheduleCycle (s : State) (startTime : ℚ) : State :=
  updatePadClasses (cats.foldl (scheduleCat startTime) s)

/-- The function `launchCycleLoop` (line 613): it sets the interval. -/
def launchCycleLoop (s : State) : State :=
  { s with cycleTimer := true }

/-- The function `startNewCycle` (line 512), called at audio time `now`. -/
def startNewCycle (s : State) (initial : List Info) (now : ℚ) : State :=
  let cycleDuration : Option ℚ :=
    if falsy s.cycleDuration then
      (if falsy (inferDuration s.buffers initial) then some 4
       else inferDuration s.buffers initial)
    else s.cycleDuration
  let s1 := { s with cycleDuration := cycleDuration, lastCycleStart := some (now + 0.05) }
  let s2 := replaceCycleSets s1 initial
  launchCycleLoop (scheduleCycle s2 (now + 0.05))

/-- The statement `if (droppedPad) droppedPad.classList.remove('queued')` for the pad found under
`key`. -/
def removeQueuedClass (queued : Key → Bool) (key : Key) : Key → Bool :=
  if hasPad key then Function.update queued key false else queued

/-- The two `while` loops of `onPadClick` (lines 475 and 491): while `cond` holds of the length of
the queue, shift its first entry and remove the class `queued` from its pad. The result is the
queue that is left and the classes. On an empty queue `shift` returns `undefined` and
`dropped.key` throws; with the conditions of the source (`limits[cat]` is at least 1) the
condition is false there. -/
def evictLoop (cond : Nat → Bool) (queued : Key → Bool) : List Info → List Info × (Key → Bool)
  | [] => ([], queued)
  | dropped :: rest =>
    if cond (rest.length + 1) then evictLoop cond (removeQueuedClass queued dropped.key) rest
    else (dropped :: rest, queued)

/-- The function `onPadClick` (line 436), called at audio time `now`. -/
def onPadClick (s : State) (pad : Pad) (now : ℚ) : State :=
  let key := pad.key
  let cat := pad.category
  if s.playingClass key then
    let s1 := stopSource s key
    { s1 with
      playing := Function.update s1.playing cat ((s1.playing cat).filter (fun o => o.key != key))
      disabledAtNext := s1.disabledAtNext.filter (fun k => k != key)
      playingClass := Function.update s1.playingClass key false }
  else if s.queuedClass key then
    { s with
      pending := Function.update s.pending cat ((s.pending cat).filter (fun o => o.key != key))
      queuedClass := Function.update s.queuedClass key false }
  else
    let info : Info := Info.mk key cat (some now)
    if !anyPlaying s then startNewCycle s [info] now
    else if (s.playing cat).length ≥ limits cat then
      let r := evictLoop (fun n => decide (n ≥ limits cat)) s.queuedClass (s.pending cat)
      { s with
        pending := Function.update s.pending cat (r.1 ++ [info])
        queuedClass := Function.update r.2 key true }
    else
      let totalPending := (s.playing cat).length + (s.pending cat).length
      let r :=
        if totalPending ≥ limits cat then
          evictLoop (fun n => decide (n > 0) && decide ((s.playing cat).length + n ≥ limits cat))
            s.queuedClass (s.pending cat)
        else (s.pending cat, s.queuedClass)
      { s with
        pending := Function.update s.pending cat (r.1 ++ [info])
        queuedClass := Function.update r.2 key true }

/-- One turn of the loop `for (const add of pending[cat])` of `advanceCycle` (lines 644 to 663).
With an empty `playing[cat]` at the limit `shift` returns `undefined` and `removed.key` throws;
that needs `limits[cat] = 0`, which the table excludes. -/
def commitEntry (cat : Cat) (s : State) (add : Info) : State :=
  let s1 : State :=
    if (s.playing cat).length ≥ limits cat then
      match s.playing cat with
      | [] => s
      | removed :: rest =>
        let s2 := stopSource { s with playing := Function.update s.playing cat rest } removed.key
        if hasPad removed.key then
          { s2 with
            playingClass := Function.update s2.playingClass removed.key false
            queuedClass := Function.update s2.queuedClass removed.key false }
        else s2
    else s
  let s3 : State :=
    { s1 with
      playing := Function.update s1.playing cat (s1.playing cat ++ [PlayingEntry.mk add.key 0]) }
  { s3 with queuedClass := removeQueuedClass s3.queuedClass add.key }

/-- One turn of the loop `for (const cat of Object.keys(pending))` of `advanceCycle`. -/
def commitCat (s : State) (cat : Cat) : State :=
  if (s.pending cat).length = 0 then s
  else
    let s1 := (s.pending cat).foldl (commitEntry cat) s
    { s1 with pending := Function.update s1.pending cat [] }

/-- The function `advanceCycle` (line 632). -/
def advanceCycle (s : State) (nextStart : ℚ) : State :=
  let s1 : State :=
    { s with
      playing := cats.foldl
        (fun pl cat =>
          Function.update pl cat ((pl cat).filter (fun o => !decide (o.key ∈ s.disabledAtNext))))
        s.playing
      disabledAtNext := [] }
  let s2 := cats.foldl commitCat s1
  scheduleCycle { s2 with lastCycleStart := some nextStart } nextStart

/-- The function `stopAll` (line 671). -/
def stopAll (s : State) : State :=
  { s with
    playing := fun _ => []
    pending := fun _ => []
    disabledAtNext := []
    stopped := s.stopped ++ s.activeSources.map Prod.snd
    activeSources := []
    lastCycleStart := none
    cycleTimer := false
    playingClass := fun k => if hasPad k then false else s.playingClass k
    queuedClass := fun k => if hasPad k then false else s.queuedClass k }

/-- The store of `updateEffectParam` (line 1114): `effectParams[param] = value`. The rest of the
function drives the audio graph and the sliders. -/
def updateEffectParam (s : State) (param : Param) (value : ℚ) : State :=
  { s with effectParams := Function.update s.effectParams param value }

/-- A preset as `applyPreset` reads it: `preset.effects` (its entries in the order of
`Object.entries`) and `preset.activePads`, either of which may be absent. -/
structure Preset where
  effects : Option (List (Param × ℚ))
  activePads : Option (Cat → List Key)

/-- The list `initial` that `applyPreset` builds (lines 1368 to 1374). -/
def presetInitial (activePads : Cat → List Key) : List Info :=
  cats.foldl
    (fun initial cat =>
      initial ++ ((activePads cat).take (limits cat)).map (fun key => Info.mk key cat none))
    []

/-- The function `applyPreset` (line 1351), called at audio time `now`. -/
def applyPreset (s : State) (preset : Preset) (now : ℚ) : State :=
  let s1 : State :=
    match preset.effects with
    | some effects => effects.foldl (fun st e => updateEffectParam st e.1 e.2) s
    | none => s
  let s2 := stopAll s1
  match preset.activePads with
  | some activePads =>
    let initial := presetInitial activePads
    if initial.length > 0 then startNewCycle s2 initial now else s2
  | none => s2

/-- The function `getCurrentState` (line 1338). -/
def getCurrentState (s : State) : Preset where
  effects := some
    ([Param.masterVolume, Param.reverbMix, Param.delayMix, Param.delayTime, Param.filterFreq,
      Param.filterQ, Param.pitchShift, Param.playbackRate].map fun p => (p, s.effectParams p))
  activePads := some fun cat => (s.playing cat).map PlayingEntry.key

/-- The states that the page reaches from the initial state by clicks on pads of the grid, cycle
commits, `stopAll` and `applyPreset`. -/
inductive Reachable : State → Prop where
  | init (buffers : Key → Option ℚ) (cycleDuration : Option ℚ) :
      Reachable (initialState buffers cycleDuration)
  | click {s : State} (pad : Pad) (now : ℚ) :
      Reachable s → pad ∈ grid → Reachable (onPadClick s pad now)
  | advance {s : State} (nextStart : ℚ) : Reachable s → Reachable (advanceCycle s nextStart)
  | stop {s : State} : Reachable s → Reachable (stopAll s)
  | preset {s : State} (p : Preset) (now : ℚ) : Reachable s → Reachable (applyPreset s p now)

/-- The function `getEffectiveCycleDuration` (line 505). The quotient is the one of the rationals:
it stands for the quotient of the source when `playbackRate` is not 0 (with a rate of 0 the
source gets an infinite value, which the rationals do not have). -/
def getEffectiveCycleDuration (s : State) : ℚ :=
  if falsy s.cycleDuration then 4
  else
    match s.cycleDuration with
    | some d => d / s.effectParams Param.playbackRate
    | none => 4

/-- The function `applyCompensatedPitchShift` (line 1164): the value `totalPitch` that it passes
to `updatePitchShifter`. `log2` stands for `Math.log2`. -/
def applyCompensatedPitchShift (log2 : ℚ → ℚ) (effectParams : Param → ℚ) : ℚ :=
  let rate := effectParams Param.playbackRate
  let userPitch := effectParams Param.pitchShift
  let rateCompensation := -12 * log2 rate
  userPitch + rateCompensation

/-- The call of `updatePitchShifter` that `updateEffectParam(param, value)` makes through
`applyCompensatedPitchShift` (lines 1143 to 1159): its argument, computed after the store of line
1114, for the parameters `pitchShift` and `playbackRate`; the other cases make no such call. -/
def updateEffectParamPitch (log2 : ℚ → ℚ) (s : State) (param : Param) (value : ℚ) : Option ℚ :=
  match param with
  | Param.pitchShift =>
    some (applyCompensatedPitchShift log2 (updateEffectParam s param value).effectParams)
  | Param.playbackRate =>
    some (applyCompensatedPitchShift log2 (updateEffectParam s param value).effectParams)
  | _ => none

/-- An element of the stored list of presets: `{ name, ...state, savedAt }`. -/
structure StoredPreset where
  name : String
  state : Preset
  savedAt : Nat

/-- The function `saveCurrentPreset` (line 1425) on the list that `getPresets` returns; the result
is the list that `savePresets` stores, or the list as it was when the name is empty. `input` is
the value of the name field (none when there is no field), `trim` stands for
`String.prototype.trim`, and `dateNow` is the value of `Date.now()`. -/
def saveCurrentPreset (trim : String → String) (input : Option String)
    (presets : List StoredPreset) (s : State) (dateNow : Nat) : List StoredPreset :=
  match input.map trim with
  | none => presets
  | some name =>
    if name = "" then presets
    else
      presets.filter (fun p => p.name != name) ++
        [StoredPreset.mk name (getCurrentState s) dateNow]

/-- The power `2 ^ k` of an integer exponent, as a rational. -/
def pow2 (k : Int) : ℚ :=
  if 0 ≤ k then ((2 ^ k.toNat : Nat) : ℚ) else 1 / ((2 ^ (-k).toNat : Nat) : ℚ)

/-- The number of binary digits of `n`, by halving at most `fuel` times. -/
def bitLength : Nat → Nat → Nat
  | 0, _ => 0
  | fuel + 1, n => if n = 0 then 0 else bitLength fuel (n / 2) + 1

/-- The rounding of the arithmetic of the source. The numbers of JavaScript are IEEE 754 doubles,
and the result of a sum, a difference or a quotient of two doubles, and the value of a decimal
literal, is the double nearest to the exact value, the one with an even mantissa when two are
equally near. Every double is a rational; `roundDouble x` is the double nearest to the rational
`x`: with `2 ^ e ≤ |x| < 2 ^ (e + 1)` it is `|x| / 2 ^ (e - 52)` rounded to an integer, times
`2 ^ (e - 52)`, with the sign of `x`. This is the rounding in the normal range of the doubles
(magnitudes from `2 ^ (-1022)` up to `2 ^ 1024`), where the audio times of the page are. -/
def roundDouble (x : ℚ) : ℚ :=
  if x = 0 then 0
  else
    let a : ℚ := |x|
    let l : Int := (bitLength a.num.toNat a.num.toNat : Int) - (bitLength a.den a.den : Int)
    let e : Int := if a < pow2 l then l - 1 else l
    let m : ℚ := a / pow2 (e - 52)
    let f : Nat := m.num.toNat / m.den
    let r : ℚ := m - f
    let n : Nat :=
      if r < 1 / 2 then f else if 1 / 2 < r then f + 1 else if f % 2 = 0 then f else f + 1
    let y : ℚ := n * pow2 (e - 52)
    if 0 < x then y else -y

/-- The callback of the interval of `launchCycleLoop` (lines 615 to 624), run at audio time
`now`. Its numbers are doubles: `fl` is the rounding of their arithmetic (`roundDouble` for the
source), applied to the quotient of `getEffectiveCycleDuration`, to the sum `nextStart`, to the
literal `0.12` and to the difference `nextStart - 0.12`. -/
def launchCycleLoopTick (fl : ℚ → ℚ) (s : State) (now : ℚ) : State :=
  if falsy s.lastCycleStart || falsy s.cycleDuration then s
  else
    match s.lastCycleStart with
    | none => s
    | some lastCycleStart =>
      let effectiveDuration := fl (getEffectiveCycleDuration s)
      let nextStart := fl (lastCycleStart + effectiveDuration)
      if now ≥ fl (nextStart - fl 0.12) then advanceCycle s nextStart else s

/-! ## Predicates on states -/

/-- The fields that the loops of `scheduleCycle` leave alone, and the keys of `playing`. -/
def SchedFrame (s t : State) : Prop :=
  t.buffers = s.buffers ∧ t.pending = s.pending ∧ t.disabledAtNext = s.disabledAtNext ∧
  t.cycleDuration = s.cycleDuration ∧ t.lastCycleStart = s.lastCycleStart ∧
  t.cycleTimer = s.cycleTimer ∧ t.stopped = s.stopped ∧ t.playingClass = s.playingClass ∧
  t.queuedClass = s.queuedClass ∧ t.effectParams = s.effectParams ∧
  ∀ c, playingKeys t c = playingKeys s c

/-- From `s` to `t` sources were only stopped: the stop log grows, and a source that `s` tracks
under a key is still tracked under it in `t` or has been stopped. -/
def StopsOnly (s t : State) : Prop :=
  (∀ src, src ∈ s.stopped → src ∈ t.stopped) ∧
  ∀ k src, s.activeSources.lookup k = some src →
    t.activeSources.lookup k = some src ∨ src ∈ t.stopped

/-- Whether `onPadClick` reaches the call `startNewCycle([info])` of line 465: the pad has neither
the class `playing` nor the class `queued`, and `anyPlaying()` is false. -/
def takesDirectStart (s : State) (pad : Pad) : Bool :=
  !s.playingClass pad.key && !s.queuedClass pad.key && !anyPlaying s

/-- The agreement of the classes of the buttons with the lists, which holds in the reachable
states: nothing is in `disabledAtNext`; only buttons of the grid carry a class; a key with the
class `playing` is in a `playing` list, and a pad whose key is in `playing` of its category has
the class; a pad has the class `queued` exactly when its key is in `pending` of its category;
the keys of `pending[c]` are pads of category `c`, each at most once; and no button has both
classes. -/
structure Coherent (s : State) : Prop where
  disabled : s.disabledAtNext = []
  offGrid : ∀ k, hasPad k = false → s.playingClass k = false ∧ s.queuedClass k = false
  playingClass_mem : ∀ k, s.playingClass k = true → ∃ c, k ∈ playingKeys s c
  mem_playingClass : ∀ pad, pad ∈ grid → pad.key ∈ playingKeys s pad.category →
    s.playingClass pad.key = true
  queued_iff : ∀ pad, pad ∈ grid →
    (s.queuedClass pad.key = true ↔ pad.key ∈ pendingKeys s pad.category)
  pending_grid : ∀ c k, k ∈ pendingKeys s c → Pad.mk k c ∈ grid
  pending_nodup : ∀ c, (pendingKeys s c).Nodup
  exclusive : ∀ k, s.playingClass k = true → s.queuedClass k = false

/-- The pad is Active: its button has the class `playing`, which is the test of `onPadClick`
(line 443); or the classes agree with the lists, as in every reachable state, and the key of the
pad is in `playing` of its category. -/
def Active (s : State) (pad : Pad) : Prop :=
  s.playingClass pad.key = true ∨
    (Coherent s ∧ pad ∈ grid ∧ pad.key ∈ playingKeys s pad.category)

/-- The pad is Queued: its button has the class `queued` and not the class `playing`, which are
the tests of `onPadClick` (lines 443 and 455); or the classes agree with the lists, as in every
reachable state, and the key of the pad is in `pending` of its category. -/
def Queued (s : State) (pad : Pad) : Prop :=
  (s.playingClass pad.key = false ∧ s.queuedClass pad.key = true) ∨
    (Coherent s ∧ pad ∈ grid ∧ pad.key ∈ pendingKeys s pad.category)

/-- The pad is Idle: neither Active nor Queued. -/
def Idle (s : State) (pad : Pad) : Prop :=
  ¬ Active s pad ∧ ¬ Queued s pad

/-- Something is Active: `anyPlaying()` is true, that is, some `playing` list is not empty; or the
classes agree with the lists and some pad is Active. -/
def SomethingActive (s : State) : Prop :=
  anyPlaying s = true ∨ (Coherent s ∧ ∃ pad, Active s pad)

/-- Whether the tick at audio time `now` reaches the call `advanceCycle(nextStart)` of line
622, with the rounding `fl` of the arithmetic. -/
def tickCommits (fl : ℚ → ℚ) (s : State) (now : ℚ) : Bool :=
  match s.lastCycleStart with
  | none => false
  | some lastCycleStart =>
    !(falsy s.lastCycleStart || falsy s.cycleDuration) &&
      decide (now ≥ fl (fl (lastCycleStart + fl (getEffectiveCycleDuration s)) - fl 0.12))

/-- The number of ticks that commit when the ticks at the audio times `times` run one after the
other from `s`. -/
def commitCount (fl : ℚ → ℚ) : State → List ℚ → Nat
  | _, [] => 0
  | s, now :: rest =>
    (if tickCommits fl s now then 1 else 0) + commitCount fl (launchCycleLoopTick fl s now) rest

/-- The entry `a` was requested no later than the entry `b`: both have an `addedAt`, in that
order. -/
def addedAtLe (a b : Info) : Prop :=
  ∃ x y, a.addedAt = some x ∧ b.addedAt = some y ∧ x ≤ y

/-- The states that the page reaches when the audio clock does not go back from one click to the
next; the first argument is the audio time of the last click (any time before the first
click). -/
inductive ReachableAt : ℚ → State → Prop where
  | init (buffers : Key → Option ℚ) (cycleDuration : Option ℚ) (t : ℚ) :
      ReachableAt t (initialState buffers cycleDuration)
  | click {t : ℚ} {s : State} (pad : Pad) (now : ℚ) :
      ReachableAt t s → t ≤ now → pad ∈ grid → ReachableAt now (onPadClick s pad now)
  | advance {t : ℚ} {s : State} (nextStart : ℚ) :
      ReachableAt t s → ReachableAt t (advanceCycle s nextStart)
  | stop {t : ℚ} {s : State} : ReachableAt t s → ReachableAt t (stopAll s)
  | preset {t : ℚ} {s : State} (p : Preset) (now : ℚ) :
      ReachableAt t s → ReachableAt t (applyPreset s p now)

/-- Every queue is ordered by `addedAt`, and no entry was added after the time `t`. -/
def QueueOrdered (t : ℚ) (s : State) : Prop :=
  ∀ c, (s.pending c).Pairwise addedAtLe ∧
    ∀ e ∈ s.pending c, ∃ x, e.addedAt = some x ∧ x ≤ t

/-- An event of the page: a click on a pad at an audio time, a cycle commit, or `stopAll`. -/
inductive Event where
  | click (pad : Pad) (now : ℚ)
  | advance (nextStart : ℚ)
  | stopAll

/-- The effect of one event. -/
def step (s : State) : Event → State
  | Event.click pad now => onPadClick s pad now
  | Event.advance nextStart => advanceCycle s nextStart
  | Event.stopAll => stopAll s

/-- The effect of a sequence of events. -/
def run (s : State) (events : List Event) : State :=
  events.foldl step s

/-- The slot bookkeeping of two states is the same: the keys of the `playing` lists, the
`pending` queues, `disabledAtNext`, the classes of the buttons, the cycle start, the timer and
the effect parameters. The buffers, the sources, the logs, the counters `startedCycle` and
`cycleDuration` are left out. -/
structure SlotsAgree (s t : State) : Prop where
  keys : ∀ c, playingKeys t c = playingKeys s c
  pending : t.pending = s.pending
  disabled : t.disabledAtNext = s.disabledAtNext
  playingClass : t.playingClass = s.playingClass
  queuedClass : t.queuedClass = s.queuedClass
  lastCycleStart : t.lastCycleStart = s.lastCycleStart
  cycleTimer : t.cycleTimer = s.cycleTimer
  effectParams : t.effectParams = s.effectParams

/-- The keys of the object `activeSources` (`Object.keys(activeSources)`): the keys that have a
tracked playback. -/
def trackedKeys (s : State) : List Key :=
  s.activeSources.map Prod.fst

/-- The states that the page reaches from the initial state by clicks on pads of the grid, cycle
commits, `stopAll`, and `applyPreset` of a preset that `getCurrentState` produced in such a
state. -/
inductive ReachableOwnPresets : State → Prop where
  | init (buffers : Key → Option ℚ) (cycleDuration : Option ℚ) :
      ReachableOwnPresets (initialState buffers cycleDuration)
  | click {s : State} (pad : Pad) (now : ℚ) :
      ReachableOwnPresets s → pad ∈ grid → ReachableOwnPresets (onPadClick s pad now)
  | advance {s : State} (nextStart : ℚ) :
      ReachableOwnPresets s → ReachableOwnPresets (advanceCycle s nextStart)
  | stop {s : State} : ReachableOwnPresets s → ReachableOwnPresets (stopAll s)
  | preset {s t : State} (now : ℚ) :
      ReachableOwnPresets s → ReachableOwnPresets t →
        ReachableOwnPresets (applyPreset s (getCurrentState t) now)

/-- The keys of every `playing` list are keys of pads of that category, each at most once. -/
structure PlayingDistinct (s : State) : Prop where
  onGrid : ∀ c k, k ∈ playingKeys s c → Pad.mk k c ∈ grid
  nodup : ∀ c, (playingKeys s c).Nodup

/-- Every key that has a tracked playback is in a `playing` list and has a decoded buffer. -/
def SourcesActive (s : State) : Prop :=
  ∀ k, k ∈ trackedKeys s → (∃ c, k ∈ playingKeys s c) ∧ s.buffers k ≠ none

/-- The array `all` of `loadAllBuffers` (line 415): the samples in the order of loading. -/
def allSampleNames : List Key :=
  sampleNames Cat.drum ++ sampleNames Cat.bass ++ sampleNames Cat.sound

/-- One turn of the loop of `loadAllBuffers` (lines 417 to 425), from the point where its awaits
are over: `outcome` is the duration of the decoded buffer, or none when the fetch or the decoding
failed (then `markMissing` only marks the pad). -/
def loadBuffer (s : State) (name : Key) (outcome : Option ℚ) : State :=
  match outcome with
  | none => s
  | some duration =>
    let s1 : State := { s with buffers := Function.update s.buffers name (some duration) }
    if falsy s1.cycleDuration then { s1 with cycleDuration := some duration } else s1

/-- The function `loadAllBuffers` (line 413). `outcome name` is the outcome of the load of a
sample, and `during name` are the events of the page that run while the loop awaits that
sample. -/
def loadAllBuffers (outcome : Key → Option ℚ) (during : Key → List Event) (s : State) : State :=
  let s1 := allSampleNames.foldl
    (fun (st : State) (name : Key) => loadBuffer (run st (during name)) name (outcome name)) s
  if falsy s1.cycleDuration then { s1 with cycleDuration := some 4 } else s1

/-- The duration of the first sample of the list that loaded. -/
def firstLoaded (outcome : Key → Option ℚ) : List Key → Option ℚ
  | [] => none
  | name :: rest =>
    match outcome name with
    | some d => some d
    | none => firstLoaded outcome rest

/-- Whether the event is a click on a pad. -/
def Event.isClick : Event → Bool
  | Event.click _ _ => true
  | _ => false

/-- No pad is clicked before the first sample of the list that loads is stored. -/
def quietUntilLoaded (outcome : Key → Option ℚ) (during : Key → List Event) : List Key → Bool
  | [] => true
  | name :: rest =>
    (during name).all (fun e => !e.isClick) &&
      (match outcome name with
        | some _ => true
        | none => quietUntilLoaded outcome during rest)

/-- The states of the page while no sample is stored yet: no buffer; `cycleDuration` is null or
the fallback 4 of `startNewCycle`; and while it is null nothing is Active or queued. -/
structure BeforeFirstLoad (s : State) : Prop where
  reachable : Reachable s
  buffers : ∀ k, s.buffers k = none
  silent : s.cycleDuration = none → (∀ c, s.playing c = []) ∧ (∀ c, s.pending c = [])
  duration : s.cycleDuration = none ∨ s.cycleDuration = some 4

/-! ## States of the worked examples -/

/-- The page with every sample loaded (each buffer lasts 4 seconds) and nothing clicked yet. -/
def loaded : State := initialState (fun _ => some 4) (some 4)

/-- The pad of the sample `sounds.1.n.wav`. -/
def soundPad (n : Nat) : Pad := Pad.mk ("sounds.1." ++ toString n ++ ".wav") Cat.sound

/-- The pad of the sample `drum.1.n.wav`. -/
def drumPad (n : Nat) : Pad := Pad.mk ("drum.1." ++ toString n ++ ".wav") Cat.drum

/-- Sounds 1, 2 and 3 Active: sound 1 started directly, 2 and 3 queued, then one commit. -/
def threeSounds : State :=
  advanceCycle (onPadClick (onPadClick (onPadClick loaded (soundPad 1) 0) (soundPad 2) 1)
    (soundPad 3) 2) 4

/-- Sounds 1, 2 and 3 Active and sound 4 queued. -/
def threeSoundsOneQueued : State := onPadClick threeSounds (soundPad 4) 5

/-- Sounds 1, 2 and 3 Active and sounds 4 and 5 queued. -/
def threeSoundsTwoQueued : State := onPadClick threeSoundsOneQueued (soundPad 5) 6

/-- Sounds 1, 2 and 3 Active and sounds 4, 5 and 6 queued. -/
def threeSoundsThreeQueued : State := onPadClick threeSoundsTwoQueued (soundPad 6) 7

/-- Drum 1 was started directly, drum 2 was queued behind it, then drum 1 was stopped by a second
click: nothing is Active and drum 2 is still queued. -/
def drumStoppedOneQueued : State :=
  onPadClick (onPadClick (onPadClick loaded (drumPad 1) 0) (drumPad 2) 1) (drumPad 1) 2

/-- The page after `loadAllBuffers` has decoded `drum.1.1.wav` (8 seconds, which made
`cycleDuration` 8) and `drum.1.2.wav` (2 seconds); nothing was clicked yet. -/
def twoDurations : State :=
  initialState
    (fun k => if k = "drum.1.1.wav" then some 8 else if k = "drum.1.2.wav" then some 2 else none)
    (some 8)

/-- A state with the buffers of `twoDurations` in which `cycleDuration` is still null. -/
def noDuration : State :=
  initialState
    (fun k => if k = "drum.1.1.wav" then some 8 else if k = "drum.1.2.wav" then some 2 else none)
    none

/-- The page before `loadAllBuffers` has stored anything: no buffer, `cycleDuration` null. -/
def fresh : State := initialState (fun _ => none) none

/-- A function that agrees with `Math.log2` at 1, 2 and 4, for the worked example of the
compensated pitch. -/
def log2OnPowers (x : ℚ) : ℚ :=
  if x = 1 then 0 else if x = 2 then 1 else if x = 4 then 2 else 0

/-- Sound 1 was started at audio time 0 on the loaded page: the cycle starts at 0.05 and lasts 4
seconds. -/
def oneSound : State := onPadClick loaded (soundPad 1) 0

/-- The page on which every sample lasts 8.727272727272727 seconds (four bars at 110 beats per
minute), after a click on sound 1 at the audio time 7: the cycle starts at 7.05. -/
def longCycle : State :=
  onPadClick
    (initialState (fun _ => some (roundDouble 8.727272727272727))
      (some (roundDouble 8.727272727272727)))
    (soundPad 1) 7

/-- Sound 1 was started at the audio time 0.45 on the loaded page: the cycle starts at 0.5 and
lasts 4 seconds, and the sums 4.5, 8.5, 12.5 are doubles. -/
def halfStart : State := onPadClick loaded (soundPad 1) 0.45

/-- A trim on the characters of a string, taken for `String.prototype.trim` in the examples: the
white space at both ends is dropped. -/
def trimSpaces (x : String) : String :=
  String.mk ((x.data.dropWhile Char.isWhitespace).reverse.dropWhile Char.isWhitespace).reverse

/-- A stored list of three presets, two of them named `live`. -/
def storedPresets : List StoredPreset :=
  [StoredPreset.mk "live" (getCurrentState loaded) 1,
    StoredPreset.mk "intro" (getCurrentState threeSounds) 2,
    StoredPreset.mk "live" (getCurrentState threeSounds) 3]

/-- Sounds 1, 2, 3 were Active with 4 and 5 queued, then the preset captured when sounds 1, 2, 3
had just become Active was applied at the time 9. -/
def presetApplied : State :=
  applyPreset threeSoundsTwoQueued (getCurrentState threeSounds) 9

/-- Sounds 1, 2 and 3 were Active, then sound 2 was stopped by a click. -/
def soundTwoStopped : State := onPadClick threeSounds (soundPad 2) 5

/-- Every sample loads, and each buffer lasts 8 seconds. -/
def allLoaded : Key → Option ℚ := fun _ => some 8

/-- The pad of drum 1 is clicked at the time 0, while the first sample is awaited. -/
def clickBeforeLoad : Key → List Event :=
  fun name => if name = "drum.1.1.wav" then [Event.click (drumPad 1) 0] else []

/-- The load of `drum.1.1.wav` fails; every other sample loads, and each buffer lasts 8
seconds. -/
def firstFails : Key → Option ℚ :=
  fun name => if name = "drum.1.1.wav" then none else some 8

/-- The pad of sound 1 is clicked at the time 0, while `bass.1.1.wav` is awaited. -/
def clickAfterLoad : Key → List Event :=
  fun name => if name = "bass.1.1.wav" then [Event.click (soundPad 1) 0] else []

/-! ## Lemmas on `scheduleCycle` and `startNewCycle` -/

theorem schedFrame_refl (s : State) : SchedFrame s s := by
  simp [SchedFrame]

theorem schedFrame_trans {s t u : State} (h1 : SchedFrame s t) (h2 : SchedFrame t u) :
    SchedFrame s u := by
  obtain ⟨a1, a2, a3, a4, a5, a6, a7, a8, a9, a10, a11⟩ := h1
  obtain ⟨b1, b2, b3, b4, b5, b6, b7, b8, b9, b10, b11⟩ := h2
  refine ⟨b1.trans a1, b2.trans a2, b3.trans a3, b4.trans a4, b5.trans a5, b6.trans a6,
    b7.trans a7, b8.trans a8, b9.trans a9, b10.trans a10, fun c => (b11 c).trans (a11 c)⟩

theorem scheduleEntry_frame (startTime : ℚ) (cat : Cat) (s : State) (obj : PlayingEntry) :
    SchedFrame s (scheduleEntry startTime cat s obj).1 ∧
      (scheduleEntry startTime cat s obj).1.playing = s.playing ∧
      (scheduleEntry startTime cat s obj).2.key = obj.key := by
  unfold scheduleEntry
  split
  · exact ⟨schedFrame_refl s, rfl, rfl⟩
  · split
    · exact ⟨schedFrame_refl s, rfl, rfl⟩
    · refine ⟨?_, rfl, rfl⟩
      simp [SchedFrame, playingKeys]

theorem scheduleList_frame (startTime : ℚ) (cat : Cat) (l : List PlayingEntry) (s : State) :
    SchedFrame s (scheduleList startTime cat s l).1 ∧
      (scheduleList startTime cat s l).1.playing = s.playing ∧
      (scheduleList startTime cat s l).2.map PlayingEntry.key = l.map PlayingEntry.key := by
  induction l generalizing s with
  | nil => exact ⟨schedFrame_refl s, rfl, rfl⟩
  | cons obj rest ih =>
    obtain ⟨e1, e2, e3⟩ := scheduleEntry_frame startTime cat s obj
    obtain ⟨r1, r2, r3⟩ := ih (scheduleEntry startTime cat s obj).1
    refine ⟨schedFrame_trans e1 r1, ?_, ?_⟩
    · simp only [scheduleList]; rw [r2, e2]
    · simp only [scheduleList, List.map_cons, e3, r3]

theorem scheduleCat_frame (startTime : ℚ) (s : State) (cat : Cat) :
    SchedFrame s (scheduleCat startTime s cat) := by
  obtain ⟨⟨a1, a2, a3, a4, a5, a6, a7, a8, a9, a10, _⟩, r2, r3⟩ :=
    scheduleList_frame startTime cat (s.playing cat) s
  refine ⟨a1, a2, a3, a4, a5, a6, a7, a8, a9, a10, ?_⟩
  intro c
  simp only [scheduleCat, playingKeys]
  by_cases hc : c = cat
  · subst hc; simp [r3]
  · simp [Function.update_noteq hc, r2]

theorem scheduleCats_frame (startTime : ℚ) (l : List Cat) (s : State) :
    SchedFrame s (l.foldl (scheduleCat startTime) s) := by
  induction l generalizing s with
  | nil => exact schedFrame_refl s
  | cons c rest ih => exact schedFrame_trans (scheduleCat_frame startTime s c) (ih _)

/-- What `scheduleCycle` leaves alone: every field but the sources, the start log and the
class `playing`; the keys of `playing` stay, in order. -/
theorem scheduleCycle_frame (s : State) (startTime : ℚ) :
    (scheduleCycle s startTime).buffers = s.buffers ∧
    (scheduleCycle s startTime).pending = s.pending ∧
    (scheduleCycle s startTime).disabledAtNext = s.disabledAtNext ∧
    (scheduleCycle s startTime).cycleDuration = s.cycleDuration ∧
    (scheduleCycle s startTime).lastCycleStart = s.lastCycleStart ∧
    (scheduleCycle s startTime).cycleTimer = s.cycleTimer ∧
    (scheduleCycle s startTime).stopped = s.stopped ∧
    (scheduleCycle s startTime).queuedClass = s.queuedClass ∧
    (scheduleCycle s startTime).effectParams = s.effectParams ∧
    ∀ c, playingKeys (scheduleCycle s startTime) c = playingKeys s c := by
  obtain ⟨a1, a2, a3, a4, a5, a6, a7, _, a9, a10, a11⟩ := scheduleCats_frame startTime cats s
  exact ⟨a1, a2, a3, a4, a5, a6, a7, a9, a10, a11⟩

theorem scheduleCycle_playingKeys (s : State) (startTime : ℚ) (c : Cat) :
    playingKeys (scheduleCycle s startTime) c = playingKeys s c :=
  (scheduleCycle_frame s startTime).2.2.2.2.2.2.2.2.2 c

theorem scheduleCycle_pending (s : State) (startTime : ℚ) :
    (scheduleCycle s startTime).pending = s.pending :=
  (scheduleCycle_frame s startTime).2.1

theorem replaceCycleSets_fold (initial : List Info) (pl : Cat → List PlayingEntry) (c : Cat) :
    initial.foldl
      (fun (f : Cat → List PlayingEntry) (it : Info) =>
        Function.update f it.cat (f it.cat ++ [PlayingEntry.mk it.key 0])) pl c =
    pl c ++ (initial.filter (fun it => decide (it.cat = c))).map
      (fun it => PlayingEntry.mk it.key 0) := by
  induction initial generalizing pl with
  | nil => simp
  | cons it rest ih =>
    rw [List.foldl_cons, ih]
    by_cases hc : it.cat = c
    · subst hc; simp
    · have hc2 : c ≠ it.cat := fun h => hc h.symm
      simp [hc, Function.update_noteq hc2]

theorem replaceCycleSets_playing (s : State) (initial : List Info) (c : Cat) :
    (replaceCycleSets s initial).playing c =
      (initial.filter (fun it => decide (it.cat = c))).map (fun it => PlayingEntry.mk it.key 0) := by
  simp [replaceCycleSets, replaceCycleSets_fold]

theorem startNewCycle_playingKeys (s : State) (initial : List Info) (now : ℚ) (c : Cat) :
    playingKeys (startNewCycle s initial now) c =
      (initial.filter (fun it => decide (it.cat = c))).map Info.key := by
  unfold startNewCycle launchCycleLoop
  show playingKeys (scheduleCycle _ _) c = _
  rw [scheduleCycle_playingKeys, playingKeys, replaceCycleSets_playing]
  simp [List.map_map, Function.comp_def]

/-! ## Lemmas on `stopSource` and the eviction loops -/

@[simp] theorem stopSource_playing (s : State) (k : Key) : (stopSource s k).playing = s.playing := by
  unfold stopSource; split <;> rfl

@[simp] theorem stopSource_pending (s : State) (k : Key) : (stopSource s k).pending = s.pending := by
  unfold stopSource; split <;> rfl

@[simp] theorem stopSource_disabledAtNext (s : State) (k : Key) :
    (stopSource s k).disabledAtNext = s.disabledAtNext := by
  unfold stopSource; split <;> rfl

@[simp] theorem stopSource_cycleDuration (s : State) (k : Key) :
    (stopSource s k).cycleDuration = s.cycleDuration := by
  unfold stopSource; split <;> rfl

@[simp] theorem stopSource_lastCycleStart (s : State) (k : Key) :
    (stopSource s k).lastCycleStart = s.lastCycleStart := by
  unfold stopSource; split <;> rfl

@[simp] theorem stopSource_playingClass (s : State) (k : Key) :
    (stopSource s k).playingClass = s.playingClass := by
  unfold stopSource; split <;> rfl

@[simp] theorem stopSource_queuedClass (s : State) (k : Key) :
    (stopSource s k).queuedClass = s.queuedClass := by
  unfold stopSource; split <;> rfl

@[simp] theorem stopSource_buffers (s : State) (k : Key) : (stopSource s k).buffers = s.buffers := by
  unfold stopSource; split <;> rfl

@[simp] theorem stopSource_effectParams (s : State) (k : Key) :
    (stopSource s k).effectParams = s.effectParams := by
  unfold stopSource; split <;> rfl

@[simp] theorem stopSource_cycleTimer (s : State) (k : Key) :
    (stopSource s k).cycleTimer = s.cycleTimer := by
  unfold stopSource; split <;> rfl

theorem stopSource_activeSources (s : State) (k : Key) :
    (stopSource s k).activeSources = s.activeSources.filter (fun e => e.1 != k) := by
  unfold stopSource
  split
  · rfl
  · rename_i h
    symm
    rw [List.filter_eq_self]
    intro e he
    rcases e with ⟨a, b⟩
    by_contra hne
    have hak : a = k := by simpa using hne
    subst hak
    have : List.lookup a s.activeSources ≠ none := by
      intro hnone
      rw [List.lookup_eq_none_iff] at hnone
      exact absurd (hnone (a, b) he) (by simp)
    exact this h

/-- The eviction loops only shift entries off the front of the queue, and stop on the empty queue
or when their condition fails. -/
theorem evictLoop_spec (cond : Nat → Bool) (l : List Info) (queued : Key → Bool) :
    ∃ k, k ≤ l.length ∧ (evictLoop cond queued l).1 = l.drop k ∧
      ((evictLoop cond queued l).1 = [] ∨ cond (evictLoop cond queued l).1.length = false) ∧
      (cond l.length = false → k = 0) ∧
      (cond l.length = true → l ≠ [] → 1 ≤ k) := by
  induction l generalizing queued with
  | nil => exact ⟨0, le_refl _, rfl, Or.inl rfl, fun _ => rfl, fun _ h => absurd rfl h⟩
  | cons x t ih =>
    by_cases hc : cond (t.length + 1) = true
    · obtain ⟨k, hk, hd, hstop, _, _⟩ := ih (removeQueuedClass queued x.key)
      refine ⟨k + 1, by simpa using hk, ?_, ?_, ?_, ?_⟩
      · simp [evictLoop, hc, hd]
      · simpa [evictLoop, hc] using hstop
      · intro h; simp [hc] at h
      · intro _ _; omega
    · have hc2 : cond (t.length + 1) = false := by simpa using hc
      refine ⟨0, Nat.zero_le _, ?_, ?_, fun _ => rfl, ?_⟩
      · simp [evictLoop, hc2]
      · right; simp [evictLoop, hc2]
      · intro h; simp [hc2] at h

theorem limits_pos (c : Cat) : 1 ≤ limits c := by
  cases c <;> decide

theorem evictLoop_full (L : Nat) (l : List Info) (queued : Key → Bool) :
    (evictLoop (fun n => decide (n ≥ L)) queued l).1 = l.drop (l.length + 1 - L) := by
  induction l generalizing queued with
  | nil => simp [evictLoop]
  | cons x t ih =>
    by_cases hc : t.length + 1 ≥ L
    · have e : (x :: t).length + 1 - L = (t.length + 1 - L) + 1 := by simp; omega
      rw [e]
      simp [evictLoop, hc, ih]
    · have e : (x :: t).length + 1 - L = 0 := by simp; omega
      rw [e]
      simp [evictLoop, hc]

theorem evictLoop_room (L p : Nat) (l : List Info) (queued : Key → Bool) :
    (evictLoop (fun n => decide (n > 0) && decide (p + n ≥ L)) queued l).1 =
      l.drop (min l.length (p + l.length + 1 - L)) := by
  induction l generalizing queued with
  | nil => simp [evictLoop]
  | cons x t ih =>
    by_cases hc : p + (t.length + 1) ≥ L
    · have e : min (x :: t).length (p + (x :: t).length + 1 - L) =
          min t.length (p + t.length + 1 - L) + 1 := by
        simp only [List.length_cons]; omega
      rw [e]
      simp [evictLoop, hc, ih]
    · have e : min (x :: t).length (p + (x :: t).length + 1 - L) = 0 := by
        simp only [List.length_cons]; omega
      rw [e]
      simp [evictLoop, hc]

/-! ## The branches of `onPadClick` -/

theorem onPadClick_stop (s : State) (pad : Pad) (now : ℚ) (h : s.playingClass pad.key = true) :
    onPadClick s pad now =
      { stopSource s pad.key with
        playing := Function.update s.playing pad.category
          ((s.playing pad.category).filter (fun o => o.key != pad.key))
        disabledAtNext := s.disabledAtNext.filter (fun k => k != pad.key)
        playingClass := Function.update s.playingClass pad.key false } := by
  simp [onPadClick, h]

theorem onPadClick_cancel (s : State) (pad : Pad) (now : ℚ) (h1 : s.playingClass pad.key = false)
    (h2 : s.queuedClass pad.key = true) :
    onPadClick s pad now =
      { s with
        pending := Function.update s.pending pad.category
          ((s.pending pad.category).filter (fun o => o.key != pad.key))
        queuedClass := Function.update s.queuedClass pad.key false } := by
  simp [onPadClick, h1, h2]

theorem onPadClick_start (s : State) (pad : Pad) (now : ℚ) (h1 : s.playingClass pad.key = false)
    (h2 : s.queuedClass pad.key = false) (h3 : anyPlaying s = false) :
    onPadClick s pad now = startNewCycle s [Info.mk pad.key pad.category (some now)] now := by
  simp [onPadClick, h1, h2, h3]

/-- The enqueue branch: `playing` stays, and `pending[cat]` loses `k` entries at the front and
gets the new entry at the end, within the limit. -/
theorem onPadClick_enqueue (s : State) (pad : Pad) (now : ℚ) (h1 : s.playingClass pad.key = false)
    (h2 : s.queuedClass pad.key = false) (h3 : anyPlaying s = true) :
    (onPadClick s pad now).playing = s.playing ∧
    (onPadClick s pad now).buffers = s.buffers ∧
    (onPadClick s pad now).disabledAtNext = s.disabledAtNext ∧
    (onPadClick s pad now).cycleDuration = s.cycleDuration ∧
    (onPadClick s pad now).lastCycleStart = s.lastCycleStart ∧
    (onPadClick s pad now).activeSources = s.activeSources ∧
    (onPadClick s pad now).stopped = s.stopped ∧
    (onPadClick s pad now).playingClass = s.playingClass ∧
    ∃ k, k ≤ (s.pending pad.category).length ∧
      (onPadClick s pad now).pending = Function.update s.pending pad.category
        ((s.pending pad.category).drop k ++ [Info.mk pad.key pad.category (some now)]) ∧
      (s.pending pad.category).length - k + 1 ≤ limits pad.category ∧
      (limits pad.category ≤ (s.playing pad.category).length →
        k = (s.pending pad.category).length + 1 - limits pad.category) ∧
      ((s.playing pad.category).length < limits pad.category →
        k = min (s.pending pad.category).length
          ((s.playing pad.category).length + (s.pending pad.category).length + 1 -
            limits pad.category)) := by
  have hL := limits_pos pad.category
  by_cases hfull : limits pad.category ≤ (s.playing pad.category).length
  · refine ⟨?_, ?_, ?_, ?_, ?_, ?_, ?_, ?_, (s.pending pad.category).length + 1 - limits pad.category,
      by omega, ?_, by omega, fun _ => rfl, fun h => by omega⟩
    all_goals simp [onPadClick, h1, h2, h3, hfull, evictLoop_full]
  · have hlt : (s.playing pad.category).length < limits pad.category := by omega
    refine ⟨?_, ?_, ?_, ?_, ?_, ?_, ?_, ?_,
      min (s.pending pad.category).length ((s.playing pad.category).length +
        (s.pending pad.category).length + 1 - limits pad.category),
      Nat.min_le_left _ _, ?_, by omega, fun h => by omega, fun _ => rfl⟩
    all_goals simp only [onPadClick, h1, h2, h3, hfull]
    all_goals try simp
    by_cases htot : limits pad.category ≤
        (s.playing pad.category).length + (s.pending pad.category).length
    · simp [htot, hlt, evictLoop_room]
    · have e : min (s.pending pad.category).length ((s.playing pad.category).length +
        (s.pending pad.category).length + 1 - limits pad.category) = 0 := by omega
      simp [htot, hlt, e]

/-! ## Lemmas on `advanceCycle` -/

theorem commitEntry_playing (cat : Cat) (s : State) (add : Info) :
    (commitEntry cat s add).playing = Function.update s.playing cat
      ((if limits cat ≤ (s.playing cat).length then (s.playing cat).tail else s.playing cat) ++
        [PlayingEntry.mk add.key 0]) := by
  unfold commitEntry
  by_cases h : limits cat ≤ (s.playing cat).length
  · cases hp : s.playing cat with
    | nil =>
      have h0 : limits cat ≤ 0 := by simpa [hp] using h
      simp [hp, h0]
    | cons r rest =>
      have h1 : limits cat ≤ rest.length + 1 := by simpa [hp] using h
      by_cases hq : hasPad r.key = true <;> simp [hp, h1, hq]
  · simp [h]

theorem commitEntry_frame (cat : Cat) (s : State) (add : Info) :
    (commitEntry cat s add).pending = s.pending ∧
    (commitEntry cat s add).buffers = s.buffers ∧
    (commitEntry cat s add).disabledAtNext = s.disabledAtNext ∧
    (commitEntry cat s add).cycleDuration = s.cycleDuration ∧
    (commitEntry cat s add).lastCycleStart = s.lastCycleStart ∧
    (commitEntry cat s add).effectParams = s.effectParams := by
  unfold commitEntry
  by_cases h : limits cat ≤ (s.playing cat).length
  · cases hp : s.playing cat with
    | nil =>
      have h0 : limits cat ≤ 0 := by simpa [hp] using h
      simp [hp, h0]
    | cons r rest =>
      have h1 : limits cat ≤ rest.length + 1 := by simpa [hp] using h
      by_cases hq : hasPad r.key = true <;> simp [hp, h1, hq]
  · simp [h]

theorem commitFold_frame (cat : Cat) (l : List Info) (s : State) :
    (l.foldl (commitEntry cat) s).pending = s.pending ∧
    (l.foldl (commitEntry cat) s).buffers = s.buffers ∧
    (l.foldl (commitEntry cat) s).disabledAtNext = s.disabledAtNext ∧
    (l.foldl (commitEntry cat) s).cycleDuration = s.cycleDuration ∧
    (l.foldl (commitEntry cat) s).lastCycleStart = s.lastCycleStart ∧
    (l.foldl (commitEntry cat) s).effectParams = s.effectParams := by
  induction l generalizing s with
  | nil => simp
  | cons x t ih =>
    obtain ⟨a1, a2, a3, a4, a5, a6⟩ := commitEntry_frame cat s x
    obtain ⟨b1, b2, b3, b4, b5, b6⟩ := ih (commitEntry cat s x)
    exact ⟨b1.trans a1, b2.trans a2, b3.trans a3, b4.trans a4, b5.trans a5, b6.trans a6⟩

theorem commitFold_playing (cat : Cat) (l : List Info) (s : State) :
    (l.foldl (commitEntry cat) s).playing = Function.update s.playing cat
      (l.foldl (fun (pl : List PlayingEntry) (add : Info) =>
        (if limits cat ≤ pl.length then pl.tail else pl) ++ [PlayingEntry.mk add.key 0])
        (s.playing cat)) := by
  induction l generalizing s with
  | nil => simp
  | cons x t ih =>
    rw [List.foldl_cons, ih, commitEntry_playing]
    simp

/-- Pushing the queue into a list that is within the limit `L` keeps the last `L` entries of the
list followed by the queue. -/
theorem pushFold_eq (L : Nat) (hL : 1 ≤ L) (adds : List Info) (pl : List PlayingEntry)
    (hp : pl.length ≤ L) :
    adds.foldl (fun (pl : List PlayingEntry) (add : Info) =>
        (if L ≤ pl.length then pl.tail else pl) ++ [PlayingEntry.mk add.key 0]) pl =
      (pl ++ adds.map (fun add => PlayingEntry.mk add.key 0)).drop
        (pl.length + adds.length - L) := by
  induction adds generalizing pl with
  | nil =>
    have e : pl.length + ([] : List Info).length - L = 0 := by simp; omega
    rw [e]; simp
  | cons x t ih =>
    by_cases h : L ≤ pl.length
    · cases pl with
      | nil => simp at h; omega
      | cons r rest =>
        have hr : rest.length + 1 = L := by simp at hp h; omega
        have step : (if L ≤ (r :: rest).length then (r :: rest).tail else r :: rest) = rest := by
          rw [if_pos h]; rfl
        simp only [List.foldl_cons, step]
        rw [ih _ (by simp; omega)]
        have e1 : (rest ++ [PlayingEntry.mk x.key 0]).length + t.length - L = t.length := by
          simp; omega
        have e2 : (r :: rest).length + (x :: t).length - L = t.length + 1 := by
          simp; omega
        rw [e1, e2]
        simp
    · have step : (if L ≤ pl.length then pl.tail else pl) = pl := if_neg h
      simp only [List.foldl_cons, step]
      rw [ih _ (by simp; omega)]
      have e1 : (pl ++ [PlayingEntry.mk x.key 0]).length + t.length - L =
          pl.length + (x :: t).length - L := by
        simp; omega
      rw [e1]
      simp

theorem pushFold_length (L : Nat) (hL : 1 ≤ L) (adds : List Info) (pl : List PlayingEntry)
    (hp : pl.length ≤ L) :
    (adds.foldl (fun (pl : List PlayingEntry) (add : Info) =>
        (if L ≤ pl.length then pl.tail else pl) ++ [PlayingEntry.mk add.key 0]) pl).length ≤ L := by
  rw [pushFold_eq L hL adds pl hp]
  simp
  omega

theorem commitCat_playing (s : State) (cat : Cat) :
    (commitCat s cat).playing = Function.update s.playing cat
      ((s.pending cat).foldl (fun (pl : List PlayingEntry) (add : Info) =>
        (if limits cat ≤ pl.length then pl.tail else pl) ++ [PlayingEntry.mk add.key 0])
        (s.playing cat)) := by
  unfold commitCat
  by_cases h : (s.pending cat).length = 0
  · have h2 : s.pending cat = [] := List.length_eq_zero.mp h
    simp [h2]
  · simp [h, commitFold_playing]

theorem commitCat_pending (s : State) (cat : Cat) :
    (commitCat s cat).pending = Function.update s.pending cat [] := by
  unfold commitCat
  by_cases h : (s.pending cat).length = 0
  · have h2 : s.pending cat = [] := List.length_eq_zero.mp h
    simp only [h, if_true]
    rw [← h2, Function.update_eq_self]
  · simp [h, (commitFold_frame cat (s.pending cat) s).1]

theorem commitCat_frame (s : State) (cat : Cat) :
    (commitCat s cat).buffers = s.buffers ∧
    (commitCat s cat).disabledAtNext = s.disabledAtNext ∧
    (commitCat s cat).cycleDuration = s.cycleDuration ∧
    (commitCat s cat).lastCycleStart = s.lastCycleStart ∧
    (commitCat s cat).effectParams = s.effectParams := by
  unfold commitCat
  by_cases h : (s.pending cat).length = 0
  · simp [h]
  · obtain ⟨_, a2, a3, a4, a5, a6⟩ := commitFold_frame cat (s.pending cat) s
    simp [h, a2, a3, a4, a5, a6]

theorem commitCats_playing (s : State) (c : Cat) :
    (cats.foldl commitCat s).playing c =
      (s.pending c).foldl (fun (pl : List PlayingEntry) (add : Info) =>
        (if limits c ≤ pl.length then pl.tail else pl) ++ [PlayingEntry.mk add.key 0])
        (s.playing c) := by
  cases c <;>
    simp [cats, commitCat_playing, commitCat_pending, Function.update]

theorem commitCats_pending (s : State) (c : Cat) :
    (cats.foldl commitCat s).pending c = [] := by
  cases c <;>
    simp [cats, commitCat_pending, Function.update]

theorem commitCats_frame (s : State) :
    (cats.foldl commitCat s).buffers = s.buffers ∧
    (cats.foldl commitCat s).disabledAtNext = s.disabledAtNext ∧
    (cats.foldl commitCat s).cycleDuration = s.cycleDuration ∧
    (cats.foldl commitCat s).lastCycleStart = s.lastCycleStart ∧
    (cats.foldl commitCat s).effectParams = s.effectParams := by
  simp only [cats, List.foldl_cons, List.foldl_nil]
  obtain ⟨a1, a2, a3, a4, a5⟩ := commitCat_frame s Cat.drum
  obtain ⟨b1, b2, b3, b4, b5⟩ := commitCat_frame (commitCat s Cat.drum) Cat.bass
  obtain ⟨c1, c2, c3, c4, c5⟩ := commitCat_frame (commitCat (commitCat s Cat.drum) Cat.bass) Cat.sound
  exact ⟨c1.trans (b1.trans a1), c2.trans (b2.trans a2), c3.trans (b3.trans a3),
    c4.trans (b4.trans a4), c5.trans (b5.trans a5)⟩

theorem filterCats_playing (f : PlayingEntry → Bool) (pl : Cat → List PlayingEntry) (c : Cat) :
    cats.foldl (fun (pl : Cat → List PlayingEntry) (cat : Cat) =>
      Function.update pl cat ((pl cat).filter f)) pl c = (pl c).filter f := by
  cases c <;> simp [cats, Function.update]

/-- The `playing` list of a category after `advanceCycle`, as the result of the pushes. -/
theorem advanceCycle_playing_keys (s : State) (nextStart : ℚ) (c : Cat) :
    playingKeys (advanceCycle s nextStart) c =
      ((s.pending c).foldl (fun (pl : List PlayingEntry) (add : Info) =>
        (if limits c ≤ pl.length then pl.tail else pl) ++ [PlayingEntry.mk add.key 0])
        ((s.playing c).filter (fun o => !decide (o.key ∈ s.disabledAtNext)))).map
          PlayingEntry.key := by
  unfold advanceCycle
  rw [scheduleCycle_playingKeys]
  simp only [playingKeys]
  rw [commitCats_playing]
  simp only [filterCats_playing]

theorem advanceCycle_pending (s : State) (nextStart : ℚ) (c : Cat) :
    (advanceCycle s nextStart).pending c = [] := by
  unfold advanceCycle
  rw [scheduleCycle_pending]
  exact commitCats_pending _ c

/-! ## Lemmas on `startNewCycle`, `stopAll` and `applyPreset` -/

theorem startNewCycle_pending (s : State) (initial : List Info) (now : ℚ) :
    (startNewCycle s initial now).pending = s.pending := by
  unfold startNewCycle launchCycleLoop
  show (scheduleCycle _ _).pending = _
  rw [scheduleCycle_pending]
  rfl

theorem startNewCycle_lastCycleStart (s : State) (initial : List Info) (now : ℚ) :
    (startNewCycle s initial now).lastCycleStart = some (now + 0.05) := by
  unfold startNewCycle launchCycleLoop
  show (scheduleCycle _ _).lastCycleStart = _
  rw [(scheduleCycle_frame _ _).2.2.2.2.1]
  rfl

theorem startNewCycle_cycleDuration (s : State) (initial : List Info) (now : ℚ) :
    (startNewCycle s initial now).cycleDuration =
      if falsy s.cycleDuration then
        (if falsy (inferDuration s.buffers initial) then some 4
         else inferDuration s.buffers initial)
      else s.cycleDuration := by
  unfold startNewCycle launchCycleLoop
  show (scheduleCycle _ _).cycleDuration = _
  rw [(scheduleCycle_frame _ _).2.2.2.1]
  rfl

theorem startNewCycle_disabledAtNext (s : State) (initial : List Info) (now : ℚ) :
    (startNewCycle s initial now).disabledAtNext = s.disabledAtNext := by
  unfold startNewCycle launchCycleLoop
  show (scheduleCycle _ _).disabledAtNext = _
  rw [(scheduleCycle_frame _ _).2.2.1]
  rfl

theorem playing_length (s : State) (c : Cat) : (s.playing c).length = (playingKeys s c).length := by
  simp [playingKeys]

theorem effectsFold_frame (effects : List (Param × ℚ)) (s : State) :
    (effects.foldl (fun st e => updateEffectParam st e.1 e.2) s).playing = s.playing ∧
    (effects.foldl (fun st e => updateEffectParam st e.1 e.2) s).pending = s.pending ∧
    (effects.foldl (fun st e => updateEffectParam st e.1 e.2) s).disabledAtNext =
      s.disabledAtNext ∧
    (effects.foldl (fun st e => updateEffectParam st e.1 e.2) s).buffers = s.buffers ∧
    (effects.foldl (fun st e => updateEffectParam st e.1 e.2) s).cycleDuration =
      s.cycleDuration := by
  induction effects generalizing s with
  | nil => simp
  | cons e rest ih =>
    obtain ⟨a1, a2, a3, a4, a5⟩ := ih (updateEffectParam s e.1 e.2)
    exact ⟨a1, a2, a3, a4, a5⟩

theorem filter_mk_same (c : Cat) (l : List Key) :
    (l.map (fun key => Info.mk key c none)).filter (fun it => decide (it.cat = c)) =
      l.map (fun key => Info.mk key c none) := by
  rw [List.filter_eq_self]
  intro a ha
  obtain ⟨k, _, rfl⟩ := List.mem_map.mp ha
  simp

theorem filter_mk_other (c d : Cat) (l : List Key) (h : d ≠ c) :
    (l.map (fun key => Info.mk key d none)).filter (fun it => decide (it.cat = c)) = [] := by
  rw [List.filter_eq_nil_iff]
  intro a ha
  obtain ⟨k, _, rfl⟩ := List.mem_map.mp ha
  simpa using h

theorem presetInitial_filter (activePads : Cat → List Key) (c : Cat) :
    (presetInitial activePads).filter (fun it => decide (it.cat = c)) =
      ((activePads c).take (limits c)).map (fun key => Info.mk key c none) := by
  simp only [presetInitial, cats, List.foldl_cons, List.foldl_nil, List.nil_append,
    List.filter_append]
  cases c
  · rw [filter_mk_same, filter_mk_other _ _ _ (by decide), filter_mk_other _ _ _ (by decide)]
    simp
  · rw [filter_mk_same, filter_mk_other _ _ _ (by decide), filter_mk_other _ _ _ (by decide)]
    simp
  · rw [filter_mk_same, filter_mk_other _ _ _ (by decide), filter_mk_other _ _ _ (by decide)]
    simp

/-- The `playing` keys after `applyPreset`: the first `limits[c]` keys of the preset. -/
theorem applyPreset_playingKeys (s : State) (p : Preset) (now : ℚ) (c : Cat) :
    playingKeys (applyPreset s p now) c =
      match p.activePads with
      | some activePads => (activePads c).take (limits c)
      | none => [] := by
  unfold applyPreset
  cases hp : p.activePads with
  | none => simp [playingKeys, stopAll]
  | some activePads =>
    simp only []
    by_cases hl : (presetInitial activePads).length > 0
    · rw [if_pos hl, startNewCycle_playingKeys, presetInitial_filter]
      simp [List.map_map, Function.comp_def]
    · rw [if_neg hl]
      have hnil : presetInitial activePads = [] := by
        apply List.eq_nil_of_length_eq_zero; omega
      have h2 := presetInitial_filter activePads c
      rw [hnil] at h2
      have h3 : (activePads c).take (limits c) = [] := by
        simpa using h2.symm
      simp [playingKeys, stopAll, h3]

theorem applyPreset_pending (s : State) (p : Preset) (now : ℚ) (c : Cat) :
    (applyPreset s p now).pending c = [] := by
  unfold applyPreset
  cases hp : p.activePads with
  | none => simp [stopAll]
  | some activePads =>
    simp only []
    split
    · rw [startNewCycle_pending]; simp [stopAll]
    · simp [stopAll]

/-! ## The slot limits in reachable states -/

theorem onPadClick_playing_length (s : State) (pad : Pad) (now : ℚ) (c : Cat)
    (h : (s.playing c).length ≤ limits c) :
    ((onPadClick s pad now).playing c).length ≤ limits c := by
  by_cases h1 : s.playingClass pad.key = true
  · rw [onPadClick_stop s pad now h1]
    by_cases hc : c = pad.category
    · subst hc
      simp only [Function.update_same]
      exact le_trans (List.length_filter_le _ _) h
    · simpa [Function.update_noteq hc] using h
  · have h1 : s.playingClass pad.key = false := by simpa using h1
    by_cases h2 : s.queuedClass pad.key = true
    · rw [onPadClick_cancel s pad now h1 h2]; exact h
    · have h2 : s.queuedClass pad.key = false := by simpa using h2
      by_cases h3 : anyPlaying s = true
      · rw [(onPadClick_enqueue s pad now h1 h2 h3).1]; exact h
      · have h3 : anyPlaying s = false := by simpa using h3
        rw [onPadClick_start s pad now h1 h2 h3, playing_length, startNewCycle_playingKeys]
        have hL := limits_pos c
        by_cases hc : pad.category = c <;> simp [hc]
        omega

theorem advanceCycle_playing_length (s : State) (nextStart : ℚ) (c : Cat)
    (h : (s.playing c).length ≤ limits c) :
    ((advanceCycle s nextStart).playing c).length ≤ limits c := by
  rw [playing_length, advanceCycle_playing_keys, List.length_map]
  exact pushFold_length (limits c) (limits_pos c) _ _
    (le_trans (List.length_filter_le _ _) h)

theorem reachable_playing_length {s : State} (h : Reachable s) (c : Cat) :
    (s.playing c).length ≤ limits c := by
  induction h with
  | init buffers cycleDuration => simp [initialState]
  | click pad now _ _ ih => exact onPadClick_playing_length _ pad now c ih
  | advance nextStart _ ih => exact advanceCycle_playing_length _ nextStart c ih
  | stop _ _ => simp [stopAll]
  | preset p now _ _ =>
    rw [playing_length, applyPreset_playingKeys]
    cases p.activePads with
    | none => simp
    | some activePads => simp

theorem onPadClick_pending_length (s : State) (pad : Pad) (now : ℚ) (c : Cat)
    (h : (s.pending c).length ≤ limits c) :
    ((onPadClick s pad now).pending c).length ≤ limits c := by
  by_cases h1 : s.playingClass pad.key = true
  · rw [onPadClick_stop s pad now h1]; simpa using h
  · have h1 : s.playingClass pad.key = false := by simpa using h1
    by_cases h2 : s.queuedClass pad.key = true
    · rw [onPadClick_cancel s pad now h1 h2]
      by_cases hc : c = pad.category
      · subst hc
        simp only [Function.update_same]
        exact le_trans (List.length_filter_le _ _) h
      · simpa [Function.update_noteq hc] using h
    · have h2 : s.queuedClass pad.key = false := by simpa using h2
      by_cases h3 : anyPlaying s = true
      · obtain ⟨_, _, _, _, _, _, _, _, k, hk, hpend, hlen, _, _⟩ :=
          onPadClick_enqueue s pad now h1 h2 h3
        rw [hpend]
        by_cases hc : c = pad.category
        · subst hc
          simp only [Function.update_same, List.length_append, List.length_drop,
            List.length_singleton]
          exact hlen
        · simpa [Function.update_noteq hc] using h
      · have h3 : anyPlaying s = false := by simpa using h3
        rw [onPadClick_start s pad now h1 h2 h3, startNewCycle_pending]
        exact h

theorem reachable_pending_length {s : State} (h : Reachable s) (c : Cat) :
    (s.pending c).length ≤ limits c := by
  induction h with
  | init buffers cycleDuration => simp [initialState]
  | click pad now _ _ ih => exact onPadClick_pending_length _ pad now c ih
  | advance nextStart _ _ => simp [advanceCycle_pending]
  | stop _ _ => simp [stopAll]
  | preset p now _ _ => simp [applyPreset_pending]

/-! ## Stopped sources -/

theorem stopsOnly_refl (s : State) : StopsOnly s s :=
  ⟨fun _ h => h, fun _ _ h => Or.inl h⟩

theorem stopsOnly_trans {s t u : State} (h1 : StopsOnly s t) (h2 : StopsOnly t u) :
    StopsOnly s u := by
  refine ⟨fun src h => h2.1 src (h1.1 src h), fun k src h => ?_⟩
  rcases h1.2 k src h with h3 | h3
  · exact h2.2 k src h3
  · exact Or.inr (h2.1 src h3)

theorem lookup_filter_ne (l : List (Key × Nat)) (k k0 : Key) (h : k ≠ k0) :
    (l.filter (fun e => e.1 != k0)).lookup k = l.lookup k := by
  induction l with
  | nil => rfl
  | cons e rest ih =>
    rcases e with ⟨a, b⟩
    by_cases ha : a = k0
    · subst ha
      have hka : (k == a) = false := by simpa using h
      simp [List.filter_cons, List.lookup_cons, hka, ih]
    · by_cases hk : k = a
      · subst hk
        simp [List.filter_cons, List.lookup_cons, ha]
      · have hka : (k == a) = false := by simpa using hk
        simp [List.filter_cons, List.lookup_cons, ha, hka, ih]

theorem stopSource_stopsOnly (s : State) (k0 : Key) : StopsOnly s (stopSource s k0) := by
  refine ⟨fun src h => ?_, fun k src h => ?_⟩
  · unfold stopSource
    split
    · simp [h]
    · exact h
  · by_cases hk : k = k0
    · subst hk
      right
      unfold stopSource
      rw [h]
      simp
    · left
      rw [stopSource_activeSources, lookup_filter_ne _ _ _ hk]
      exact h

theorem stopSource_stopped (s : State) (k : Key) (src : Nat)
    (h : s.activeSources.lookup k = some src) : src ∈ (stopSource s k).stopped := by
  unfold stopSource
  rw [h]
  simp

theorem commitEntry_stopsOnly (cat : Cat) (s : State) (add : Info) :
    StopsOnly s (commitEntry cat s add) := by
  unfold commitEntry
  by_cases h : limits cat ≤ (s.playing cat).length
  · cases hp : s.playing cat with
    | nil =>
      have h0 : limits cat ≤ 0 := by simpa [hp] using h
      simp only [ge_iff_le, List.length_nil, h0, if_true]
      exact stopsOnly_refl s
    | cons r rest =>
      have h1 : limits cat ≤ rest.length + 1 := by simpa [hp] using h
      have hs := stopSource_stopsOnly { s with playing := Function.update s.playing cat rest } r.key
      simp only [ge_iff_le, List.length_cons, h1, if_true]
      by_cases hq : hasPad r.key = true
      · simp only [hq, if_true]
        exact hs
      · simp only [hq]
        exact hs
  · simp only [ge_iff_le, h, if_false]
    exact stopsOnly_refl s

/-- The entry that `commitEntry` shifts off a full `playing[cat]` has its tracked source
stopped. -/
theorem commitEntry_stops_head (cat : Cat) (s : State) (add : Info) (r : PlayingEntry)
    (rest : List PlayingEntry) (hp : s.playing cat = r :: rest)
    (h : limits cat ≤ (s.playing cat).length) (src : Nat)
    (hsrc : s.activeSources.lookup r.key = some src) :
    src ∈ (commitEntry cat s add).stopped := by
  have h1 : limits cat ≤ rest.length + 1 := by simpa [hp] using h
  have hs := stopSource_stopped { s with playing := Function.update s.playing cat rest } r.key
    src hsrc
  unfold commitEntry
  simp only [ge_iff_le, hp, List.length_cons, h1, if_true]
  by_cases hq : hasPad r.key = true
  · simp only [hq, if_true]
    exact hs
  · simp only [hq]
    exact hs

theorem commitFold_stopsOnly (cat : Cat) (l : List Info) (s : State) :
    StopsOnly s (l.foldl (commitEntry cat) s) := by
  induction l generalizing s with
  | nil => exact stopsOnly_refl s
  | cons x t ih => exact stopsOnly_trans (commitEntry_stopsOnly cat s x) (ih _)

/-- The entries that the commit of a queue evicts from `playing[cat]` have their tracked sources
stopped. -/
theorem commitFold_stops (cat : Cat) (l : List Info) (s : State)
    (hp : (s.playing cat).length ≤ limits cat) (k : Key)
    (hk : k ∈ ((s.playing cat ++ l.map (fun add => PlayingEntry.mk add.key 0)).take
      ((s.playing cat).length + l.length - limits cat)).map PlayingEntry.key)
    (src : Nat) (hsrc : s.activeSources.lookup k = some src) :
    src ∈ (l.foldl (commitEntry cat) s).stopped := by
  induction l generalizing s with
  | nil =>
    have e : (s.playing cat).length + ([] : List Info).length - limits cat = 0 := by
      simp; omega
    rw [e] at hk
    simp at hk
  | cons x t ih =>
    have hL := limits_pos cat
    rw [List.foldl_cons]
    have hpl := commitEntry_playing cat s x
    by_cases h : limits cat ≤ (s.playing cat).length
    · cases hpc : s.playing cat with
      | nil => rw [hpc] at h; simp at h; omega
      | cons r rest =>
        have hr : rest.length + 1 = limits cat := by rw [hpc] at hp h; simp at hp h; omega
        have hnew : (commitEntry cat s x).playing cat = rest ++ [PlayingEntry.mk x.key 0] := by
          rw [hpl, Function.update_same, if_pos h, hpc]; rfl
        have e2 : (s.playing cat).length + (x :: t).length - limits cat = t.length + 1 := by
          rw [hpc]; simp; omega
        rw [e2, hpc] at hk
        simp only [List.cons_append, List.take_succ_cons, List.map_cons, List.mem_cons] at hk
        rcases hk with hk | hk
        · subst hk
          exact (commitFold_stopsOnly cat t _).1 src
            (commitEntry_stops_head cat s x r rest hpc h src hsrc)
        · rcases (commitEntry_stopsOnly cat s x).2 k src hsrc with h3 | h3
          · apply ih (commitEntry cat s x) (by rw [hnew]; simp; omega) _ h3
            rw [hnew]
            have e3 : (rest ++ [PlayingEntry.mk x.key 0]).length + t.length - limits cat =
                t.length := by simp; omega
            rw [e3]
            simpa using hk
          · exact (commitFold_stopsOnly cat t _).1 src h3
    · have hnew : (commitEntry cat s x).playing cat = s.playing cat ++ [PlayingEntry.mk x.key 0] := by
        rw [hpl, Function.update_same, if_neg h]
      rcases (commitEntry_stopsOnly cat s x).2 k src hsrc with h3 | h3
      · apply ih (commitEntry cat s x) (by rw [hnew]; simp; omega) _ h3
        rw [hnew]
        have e3 : (s.playing cat ++ [PlayingEntry.mk x.key 0]).length + t.length - limits cat =
            (s.playing cat).length + (x :: t).length - limits cat := by simp; omega
        rw [e3]
        simpa using hk
      · exact (commitFold_stopsOnly cat t _).1 src h3

theorem commitCat_stopsOnly (s : State) (cat : Cat) : StopsOnly s (commitCat s cat) := by
  unfold commitCat
  by_cases h : (s.pending cat).length = 0
  · simp only [h, if_true]; exact stopsOnly_refl s
  · simp only [h, if_false]
    exact commitFold_stopsOnly cat (s.pending cat) s

theorem commitCat_stops (s : State) (cat : Cat)
    (hp : (s.playing cat).length ≤ limits cat) (k : Key)
    (hk : k ∈ ((s.playing cat ++ (s.pending cat).map (fun add => PlayingEntry.mk add.key 0)).take
      ((s.playing cat).length + (s.pending cat).length - limits cat)).map PlayingEntry.key)
    (src : Nat) (hsrc : s.activeSources.lookup k = some src) :
    src ∈ (commitCat s cat).stopped := by
  unfold commitCat
  by_cases h : (s.pending cat).length = 0
  · have h2 : s.pending cat = [] := List.length_eq_zero.mp h
    rw [h2] at hk
    have e : (s.playing cat).length + ([] : List Info).length - limits cat = 0 := by
      simp; omega
    rw [e] at hk
    simp at hk
  · simp only [h, if_false]
    exact commitFold_stops cat (s.pending cat) s hp k hk src hsrc

theorem commitCat_stops_from (s0 s : State) (cat : Cat) (h0 : StopsOnly s0 s)
    (hp : (s.playing cat).length ≤ limits cat) (k : Key)
    (hk : k ∈ ((s.playing cat ++ (s.pending cat).map (fun add => PlayingEntry.mk add.key 0)).take
      ((s.playing cat).length + (s.pending cat).length - limits cat)).map PlayingEntry.key)
    (src : Nat) (hsrc : s0.activeSources.lookup k = some src) :
    src ∈ (commitCat s cat).stopped := by
  rcases h0.2 k src hsrc with h | h
  · exact commitCat_stops s cat hp k hk src h
  · exact (commitCat_stopsOnly s cat).1 src h

theorem commitCats_stops (s : State) (c : Cat)
    (hp : (s.playing c).length ≤ limits c) (k : Key)
    (hk : k ∈ ((s.playing c ++ (s.pending c).map (fun add => PlayingEntry.mk add.key 0)).take
      ((s.playing c).length + (s.pending c).length - limits c)).map PlayingEntry.key)
    (src : Nat) (hsrc : s.activeSources.lookup k = some src) :
    src ∈ (cats.foldl commitCat s).stopped := by
  simp only [cats, List.foldl_cons, List.foldl_nil]
  have hd := commitCat_stopsOnly s Cat.drum
  have hb := commitCat_stopsOnly (commitCat s Cat.drum) Cat.bass
  have hs := commitCat_stopsOnly (commitCat (commitCat s Cat.drum) Cat.bass) Cat.sound
  cases c
  · exact hs.1 src (hb.1 src (commitCat_stops s Cat.drum hp k hk src hsrc))
  · have e1 : (commitCat s Cat.drum).playing Cat.bass = s.playing Cat.bass := by
      rw [commitCat_playing]; simp [Function.update]
    have e2 : (commitCat s Cat.drum).pending Cat.bass = s.pending Cat.bass := by
      rw [commitCat_pending]; simp [Function.update]
    apply hs.1 src
    apply commitCat_stops_from s _ Cat.bass hd (by rw [e1]; exact hp) k _ src hsrc
    rw [e1, e2]; exact hk
  · have e1 : (commitCat (commitCat s Cat.drum) Cat.bass).playing Cat.sound =
        s.playing Cat.sound := by
      rw [commitCat_playing, commitCat_playing]; simp [Function.update]
    have e2 : (commitCat (commitCat s Cat.drum) Cat.bass).pending Cat.sound =
        s.pending Cat.sound := by
      rw [commitCat_pending, commitCat_pending]; simp [Function.update]
    apply commitCat_stops_from s _ Cat.sound (stopsOnly_trans hd hb) (by rw [e1]; exact hp) k _ src hsrc
    rw [e1, e2]; exact hk

theorem filter_not_disabled_nil (l : List PlayingEntry) :
    l.filter (fun o => !decide (o.key ∈ ([] : List Key))) = l := by
  simp

/-- With nothing in `disabledAtNext` and both lists within the limit, the commit keeps the newest
entries of `playing[c]` and appends the queue. -/
theorem advanceCycle_keys_of_bounded (s : State) (nextStart : ℚ) (c : Cat)
    (hd : s.disabledAtNext = []) (hp : (s.playing c).length ≤ limits c)
    (hq : (s.pending c).length ≤ limits c) :
    playingKeys (advanceCycle s nextStart) c =
      (playingKeys s c).drop ((s.playing c).length + (s.pending c).length - limits c) ++
        pendingKeys s c := by
  rw [advanceCycle_playing_keys, hd, filter_not_disabled_nil,
    pushFold_eq (limits c) (limits_pos c) _ _ hp]
  rw [List.drop_append_of_le_length (by omega)]
  simp [playingKeys, pendingKeys, List.map_drop, Function.comp_def]

theorem advanceCycle_stops_evicted (s : State) (nextStart : ℚ) (c : Cat)
    (hd : s.disabledAtNext = []) (hp : (s.playing c).length ≤ limits c)
    (hq : (s.pending c).length ≤ limits c) (k : Key)
    (hk : k ∈ (playingKeys s c).take ((s.playing c).length + (s.pending c).length - limits c))
    (src : Nat) (hsrc : s.activeSources.lookup k = some src) :
    src ∈ (advanceCycle s nextStart).stopped := by
  have key : ∀ s1 : State, s1.activeSources = s.activeSources → s1.playing c = s.playing c →
      s1.pending c = s.pending c → src ∈ (cats.foldl commitCat s1).stopped := by
    intro s1 h1 h2 h3
    apply commitCats_stops s1 c (by rw [h2]; exact hp) k _ src (by rw [h1]; exact hsrc)
    rw [h2, h3, List.take_append_of_le_length (by omega)]
    simpa [playingKeys, List.map_take] using hk
  unfold advanceCycle
  rw [(scheduleCycle_frame _ _).2.2.2.2.2.2.1]
  apply key
  · rfl
  · simp only []
    rw [filterCats_playing, hd, filter_not_disabled_nil]
  · rfl

/-! ## Classes and lists agree in the reachable states -/


/-! ## The grid -/

set_option maxRecDepth 100000 in
theorem grid_key_unique_aux : ∀ p ∈ grid, ∀ q ∈ grid, p.key = q.key → p = q := by
  decide

theorem grid_key_unique {p q : Pad} (hp : p ∈ grid) (hq : q ∈ grid) (h : p.key = q.key) :
    p = q :=
  grid_key_unique_aux p hp q hq h

theorem hasPad_iff (k : Key) : hasPad k = true ↔ ∃ pad ∈ grid, pad.key = k := by
  unfold hasPad querySelector
  rw [List.find?_isSome]
  simp

theorem hasPad_of_mem {pad : Pad} (h : pad ∈ grid) : hasPad pad.key = true :=
  (hasPad_iff pad.key).mpr ⟨pad, h, rfl⟩

/-! ## The classes after `scheduleCycle` and `startNewCycle` -/

theorem mem_allKeys (s : State) (k : Key) :
    k ∈ playingKeys s Cat.drum ++ playingKeys s Cat.bass ++ playingKeys s Cat.sound ↔
      ∃ c, k ∈ playingKeys s c := by
  constructor
  · intro h
    rcases List.mem_append.mp h with h | h
    · rcases List.mem_append.mp h with h | h
      · exact ⟨Cat.drum, h⟩
      · exact ⟨Cat.bass, h⟩
    · exact ⟨Cat.sound, h⟩
  · rintro ⟨c, h⟩
    cases c
    · exact List.mem_append_left _ (List.mem_append_left _ h)
    · exact List.mem_append_left _ (List.mem_append_right _ h)
    · exact List.mem_append_right _ h

theorem updatePadClasses_playingClass (s : State) (hd : s.disabledAtNext = []) (k : Key) :
    (updatePadClasses s).playingClass k =
      if hasPad k then
        decide (k ∈ playingKeys s Cat.drum ++ playingKeys s Cat.bass ++ playingKeys s Cat.sound)
      else s.playingClass k := by
  simp [updatePadClasses, cats, hd, playingKeys]

theorem scheduleCycle_playingClass (s : State) (startTime : ℚ) (hd : s.disabledAtNext = [])
    (k : Key) :
    (scheduleCycle s startTime).playingClass k =
      if hasPad k then
        decide (k ∈ playingKeys s Cat.drum ++ playingKeys s Cat.bass ++ playingKeys s Cat.sound)
      else s.playingClass k := by
  obtain ⟨_, _, a3, _, _, _, _, a8, _, _, a11⟩ := scheduleCats_frame startTime cats s
  unfold scheduleCycle
  rw [updatePadClasses_playingClass _ (a3.trans hd), a8, a11, a11, a11]

theorem scheduleCycle_queuedClass (s : State) (startTime : ℚ) :
    (scheduleCycle s startTime).queuedClass = s.queuedClass :=
  (scheduleCycle_frame s startTime).2.2.2.2.2.2.2.1

theorem scheduleCycle_disabledAtNext (s : State) (startTime : ℚ) :
    (scheduleCycle s startTime).disabledAtNext = s.disabledAtNext :=
  (scheduleCycle_frame s startTime).2.2.1

theorem startNewCycle_queuedClass (s : State) (initial : List Info) (now : ℚ) :
    (startNewCycle s initial now).queuedClass = s.queuedClass := by
  unfold startNewCycle launchCycleLoop
  show (scheduleCycle _ _).queuedClass = _
  rw [scheduleCycle_queuedClass]
  rfl

theorem scheduleCycle_playingClass_grid (s : State) (startTime : ℚ)
    (hd : s.disabledAtNext = []) (k : Key) (hk : hasPad k = true) :
    (scheduleCycle s startTime).playingClass k = true ↔
      ∃ c, k ∈ playingKeys (scheduleCycle s startTime) c := by
  rw [scheduleCycle_playingClass s startTime hd k, ← mem_allKeys]
  simp [hk, scheduleCycle_playingKeys]

theorem scheduleCycle_playingClass_offGrid (s : State) (startTime : ℚ)
    (hd : s.disabledAtNext = []) (k : Key) (hk : hasPad k = false) :
    (scheduleCycle s startTime).playingClass k = s.playingClass k := by
  rw [scheduleCycle_playingClass s startTime hd k]
  simp [hk]

theorem startNewCycle_playingClass_grid (s : State) (initial : List Info) (now : ℚ)
    (hd : s.disabledAtNext = []) (k : Key) (hk : hasPad k = true) :
    (startNewCycle s initial now).playingClass k = true ↔
      ∃ c, k ∈ playingKeys (startNewCycle s initial now) c := by
  unfold startNewCycle launchCycleLoop
  exact scheduleCycle_playingClass_grid _ _ (by exact hd) k hk

theorem startNewCycle_playingClass_offGrid (s : State) (initial : List Info) (now : ℚ)
    (hd : s.disabledAtNext = []) (k : Key) (hk : hasPad k = false) :
    (startNewCycle s initial now).playingClass k = s.playingClass k := by
  unfold startNewCycle launchCycleLoop
  exact scheduleCycle_playingClass_offGrid _ _ (by exact hd) k hk

theorem removeQueuedClass_self (queued : Key → Bool) (k : Key) (hk : hasPad k = true) :
    removeQueuedClass queued k k = false := by
  simp [removeQueuedClass, hk]

theorem removeQueuedClass_other (queued : Key → Bool) (x k : Key)
    (h : ¬ (hasPad k = true ∧ k = x)) : removeQueuedClass queued x k = queued k := by
  unfold removeQueuedClass
  by_cases hx : hasPad x = true
  · have hne : k ≠ x := by
      intro hkx; subst hkx; exact h ⟨hx, rfl⟩
    simp [hx, Function.update_noteq hne]
  · simp [hx]

theorem removeQueuedClass_le (queued : Key → Bool) (x k : Key)
    (h : removeQueuedClass queued x k = true) : queued k = true := by
  unfold removeQueuedClass at h
  by_cases hx : hasPad x = true
  · by_cases hkx : k = x
    · subst hkx; simp [hx] at h
    · simpa [hx, Function.update_noteq hkx] using h
  · simpa [hx] using h

theorem evictLoop_classes (cond : Nat → Bool) (l : List Info) (queued : Key → Bool) :
    ∃ n, n ≤ l.length ∧ (evictLoop cond queued l).1 = l.drop n ∧
      ∀ k, (hasPad k = true → k ∈ (l.take n).map Info.key →
          (evictLoop cond queued l).2 k = false) ∧
        (¬ (hasPad k = true ∧ k ∈ (l.take n).map Info.key) →
          (evictLoop cond queued l).2 k = queued k) := by
  induction l generalizing queued with
  | nil => exact ⟨0, le_refl _, rfl, fun k => ⟨fun _ h => by simp at h, fun _ => rfl⟩⟩
  | cons x t ih =>
    by_cases hc : cond (t.length + 1) = true
    · obtain ⟨n, hn, hd, hcl⟩ := ih (removeQueuedClass queued x.key)
      have hev : evictLoop cond queued (x :: t) =
          evictLoop cond (removeQueuedClass queued x.key) t := by
        simp [evictLoop, hc]
      refine ⟨n + 1, by simpa using hn, by rw [hev, hd]; rfl, ?_⟩
      intro k
      rw [hev]
      simp only [List.take_succ_cons, List.map_cons, List.mem_cons]
      constructor
      · intro hk hmem
        by_cases hm : k ∈ (t.take n).map Info.key
        · exact (hcl k).1 hk hm
        · have hkx : k = x.key := by
            rcases hmem with h | h
            · exact h
            · exact absurd h hm
          rw [(hcl k).2 (fun h => hm h.2)]
          subst hkx
          exact removeQueuedClass_self queued _ hk
      · intro hnot
        have hm : ¬ (hasPad k = true ∧ k ∈ (t.take n).map Info.key) :=
          fun h => hnot ⟨h.1, Or.inr h.2⟩
        rw [(hcl k).2 hm]
        exact removeQueuedClass_other queued x.key k (fun h => hnot ⟨h.1, Or.inl h.2⟩)
    · have hc2 : cond (t.length + 1) = false := by simpa using hc
      have hev : evictLoop cond queued (x :: t) = (x :: t, queued) := by
        simp [evictLoop, hc2]
      exact ⟨0, Nat.zero_le _, by rw [hev]; rfl,
        fun k => ⟨fun _ h => by simp at h, fun _ => by rw [hev]⟩⟩

/-- The enqueue branch, with the classes: the buttons of the evicted entries lose the class
`queued` and the clicked button gets it. -/
theorem onPadClick_enqueue_classes (s : State) (pad : Pad) (now : ℚ)
    (h1 : s.playingClass pad.key = false) (h2 : s.queuedClass pad.key = false)
    (h3 : anyPlaying s = true) :
    ∃ n, n ≤ (s.pending pad.category).length ∧
      (onPadClick s pad now).pending = Function.update s.pending pad.category
        ((s.pending pad.category).drop n ++ [Info.mk pad.key pad.category (some now)]) ∧
      (onPadClick s pad now).queuedClass pad.key = true ∧
      ∀ k, k ≠ pad.key →
        (hasPad k = true → k ∈ ((s.pending pad.category).take n).map Info.key →
          (onPadClick s pad now).queuedClass k = false) ∧
        (¬ (hasPad k = true ∧ k ∈ ((s.pending pad.category).take n).map Info.key) →
          (onPadClick s pad now).queuedClass k = s.queuedClass k) := by
  by_cases hfull : limits pad.category ≤ (s.playing pad.category).length
  · obtain ⟨n, hn, hd, hcl⟩ := evictLoop_classes (fun n => decide (n ≥ limits pad.category))
      (s.pending pad.category) s.queuedClass
    have hq : (onPadClick s pad now).queuedClass = Function.update
        (evictLoop (fun n => decide (n ≥ limits pad.category)) s.queuedClass
          (s.pending pad.category)).2 pad.key true := by
      simp [onPadClick, h1, h2, h3, hfull]
    refine ⟨n, hn, ?_, ?_, ?_⟩
    · simp [onPadClick, h1, h2, h3, hfull, hd]
    · rw [hq]; simp
    · intro k hk
      rw [hq, Function.update_noteq hk]
      exact hcl k
  · by_cases htot : limits pad.category ≤
        (s.playing pad.category).length + (s.pending pad.category).length
    · obtain ⟨n, hn, hd, hcl⟩ := evictLoop_classes
        (fun n => decide (n > 0) && decide ((s.playing pad.category).length + n ≥
          limits pad.category)) (s.pending pad.category) s.queuedClass
      have hq : (onPadClick s pad now).queuedClass = Function.update
          (evictLoop (fun n => decide (n > 0) && decide ((s.playing pad.category).length + n ≥
            limits pad.category)) s.queuedClass (s.pending pad.category)).2 pad.key true := by
        simp [onPadClick, h1, h2, h3, hfull, htot]
      refine ⟨n, hn, ?_, ?_, ?_⟩
      · simp [onPadClick, h1, h2, h3, hfull, htot, hd]
      · rw [hq]; simp
      · intro k hk
        rw [hq, Function.update_noteq hk]
        exact hcl k
    · have hq : (onPadClick s pad now).queuedClass =
          Function.update s.queuedClass pad.key true := by
        simp [onPadClick, h1, h2, h3, hfull, htot]
      refine ⟨0, Nat.zero_le _, ?_, ?_, ?_⟩
      · simp [onPadClick, h1, h2, h3, hfull, htot]
      · rw [hq]; simp
      · intro k hk
        rw [hq, Function.update_noteq hk]
        exact ⟨fun _ h => by simp at h, fun _ => rfl⟩

theorem onPadClick_stop_fields (s : State) (pad : Pad) (now : ℚ)
    (h : s.playingClass pad.key = true) :
    (onPadClick s pad now).playing = Function.update s.playing pad.category
      ((s.playing pad.category).filter (fun o => o.key != pad.key)) ∧
    (onPadClick s pad now).pending = s.pending ∧
    (onPadClick s pad now).disabledAtNext = s.disabledAtNext.filter (fun k => k != pad.key) ∧
    (onPadClick s pad now).playingClass = Function.update s.playingClass pad.key false ∧
    (onPadClick s pad now).queuedClass = s.queuedClass := by
  rw [onPadClick_stop s pad now h]
  simp

theorem initialState_coherent (buffers : Key → Option ℚ) (cycleDuration : Option ℚ) :
    Coherent (initialState buffers cycleDuration) where
  disabled := rfl
  offGrid := fun _ _ => ⟨rfl, rfl⟩
  playingClass_mem := fun k h => by simp [initialState] at h
  mem_playingClass := fun pad _ h => by simp [initialState, playingKeys] at h
  queued_iff := fun pad _ => by simp [initialState, pendingKeys]
  pending_grid := fun c k h => by simp [initialState, pendingKeys] at h
  pending_nodup := fun c => by simp [initialState, pendingKeys]
  exclusive := fun k h => by simp [initialState] at h

theorem coherent_stop_click {s : State} (hs : Coherent s) (pad : Pad) (now : ℚ)
    (hpad : pad ∈ grid) (h : s.playingClass pad.key = true) :
    Coherent (onPadClick s pad now) := by
  obtain ⟨e1, e2, e3, e4, e5⟩ := onPadClick_stop_fields s pad now h
  have hkeys : ∀ c k, k ≠ pad.key →
      (k ∈ playingKeys (onPadClick s pad now) c ↔ k ∈ playingKeys s c) := by
    intro c k hk
    simp only [playingKeys, e1]
    by_cases hc : c = pad.category
    · subst hc
      simp only [Function.update_same, List.mem_map, List.mem_filter]
      constructor
      · rintro ⟨o, ⟨ho, _⟩, rfl⟩; exact ⟨o, ho, rfl⟩
      · rintro ⟨o, ho, rfl⟩; exact ⟨o, ⟨ho, by simpa using hk⟩, rfl⟩
    · simp [Function.update_noteq hc]
  have hself : pad.key ∉ playingKeys (onPadClick s pad now) pad.category := by
    simp [playingKeys, e1]
  refine ⟨?_, ?_, ?_, ?_, ?_, ?_, ?_, ?_⟩
  · rw [e3, hs.disabled]; rfl
  · intro k hk
    have hne : k ≠ pad.key := by
      intro hkp; rw [hkp, hasPad_of_mem hpad] at hk; exact absurd hk (by simp)
    rw [e4, e5, Function.update_noteq hne]
    exact hs.offGrid k hk
  · intro k hk
    rw [e4] at hk
    by_cases hne : k = pad.key
    · subst hne; simp at hk
    · rw [Function.update_noteq hne] at hk
      obtain ⟨c, hc⟩ := hs.playingClass_mem k hk
      exact ⟨c, (hkeys c k hne).mpr hc⟩
  · intro q hq hmem
    by_cases hne : q.key = pad.key
    · have : q = pad := grid_key_unique hq hpad hne
      subst this
      exact absurd hmem hself
    · rw [e4, Function.update_noteq hne]
      exact hs.mem_playingClass q hq ((hkeys _ _ hne).mp hmem)
  · intro q hq
    rw [e5]
    simp only [pendingKeys, e2]
    exact hs.queued_iff q hq
  · intro c k hk
    simp only [pendingKeys, e2] at hk
    exact hs.pending_grid c k hk
  · intro c
    simp only [pendingKeys, e2]
    exact hs.pending_nodup c
  · intro k hk
    rw [e4] at hk
    rw [e5]
    by_cases hne : k = pad.key
    · subst hne; simp at hk
    · rw [Function.update_noteq hne] at hk
      exact hs.exclusive k hk

theorem coherent_cancel_click {s : State} (hs : Coherent s) (pad : Pad) (now : ℚ)
    (hpad : pad ∈ grid) (h1 : s.playingClass pad.key = false)
    (h2 : s.queuedClass pad.key = true) :
    Coherent (onPadClick s pad now) := by
  rw [onPadClick_cancel s pad now h1 h2]
  have hkeys : ∀ c k, k ≠ pad.key →
      (k ∈ ((Function.update s.pending pad.category
        ((s.pending pad.category).filter (fun o => o.key != pad.key))) c).map Info.key ↔
        k ∈ pendingKeys s c) := by
    intro c k hk
    simp only [pendingKeys]
    by_cases hc : c = pad.category
    · subst hc
      simp only [Function.update_same, List.mem_map, List.mem_filter]
      constructor
      · rintro ⟨o, ⟨ho, _⟩, rfl⟩; exact ⟨o, ho, rfl⟩
      · rintro ⟨o, ho, rfl⟩; exact ⟨o, ⟨ho, by simpa using hk⟩, rfl⟩
    · simp [Function.update_noteq hc]
  have hsub : ∀ c k, k ∈ ((Function.update s.pending pad.category
        ((s.pending pad.category).filter (fun o => o.key != pad.key))) c).map Info.key →
        k ∈ pendingKeys s c ∧ (c = pad.category → k ≠ pad.key) := by
    intro c k hk
    by_cases hc : c = pad.category
    · subst hc
      simp only [Function.update_same, List.mem_map, List.mem_filter] at hk
      obtain ⟨o, ⟨ho, hne⟩, rfl⟩ := hk
      exact ⟨List.mem_map.mpr ⟨o, ho, rfl⟩, fun _ => by simpa using hne⟩
    · rw [Function.update_noteq hc] at hk
      exact ⟨hk, fun h => absurd h hc⟩
  refine ⟨hs.disabled, ?_, hs.playingClass_mem, hs.mem_playingClass, ?_, ?_, ?_, ?_⟩
  · intro k hk
    have hne : k ≠ pad.key := by
      intro hkp; rw [hkp, hasPad_of_mem hpad] at hk; exact absurd hk (by simp)
    show s.playingClass k = false ∧ Function.update s.queuedClass pad.key false k = false
    rw [Function.update_noteq hne]
    exact hs.offGrid k hk
  · intro q hq
    show Function.update s.queuedClass pad.key false q.key = true ↔
      q.key ∈ ((Function.update s.pending pad.category _) q.category).map Info.key
    by_cases hne : q.key = pad.key
    · have : q = pad := grid_key_unique hq hpad hne
      subst this
      simp
    · rw [Function.update_noteq hne, hkeys _ _ hne]
      exact hs.queued_iff q hq
  · intro c k hk
    exact hs.pending_grid c k (hsub c k hk).1
  · intro c
    show (((Function.update s.pending pad.category _) c).map Info.key).Nodup
    by_cases hc : c = pad.category
    · subst hc
      rw [Function.update_same]
      exact (hs.pending_nodup pad.category).sublist
        ((List.filter_sublist _).map Info.key)
    · rw [Function.update_noteq hc]
      exact hs.pending_nodup c
  · intro k hk
    show Function.update s.queuedClass pad.key false k = false
    by_cases hne : k = pad.key
    · subst hne; simp
    · rw [Function.update_noteq hne]
      exact hs.exclusive k hk

/-- A fresh cycle keeps the agreement when no entry of `initial` is marked queued. -/
theorem coherent_startNewCycle {s : State} (hs : Coherent s) (initial : List Info) (now : ℚ)
    (hq : ∀ it ∈ initial, s.queuedClass it.key = false) :
    Coherent (startNewCycle s initial now) := by
  have hd : (startNewCycle s initial now).disabledAtNext = [] := by
    rw [startNewCycle_disabledAtNext]; exact hs.disabled
  have hcls : ∀ k, (startNewCycle s initial now).playingClass k = true →
      hasPad k = true ∧ ∃ c, k ∈ playingKeys (startNewCycle s initial now) c := by
    intro k hk
    by_cases hp : hasPad k = true
    · exact ⟨hp, (startNewCycle_playingClass_grid s initial now hs.disabled k hp).mp hk⟩
    · have hp2 : hasPad k = false := by simpa using hp
      rw [startNewCycle_playingClass_offGrid s initial now hs.disabled k hp2,
        (hs.offGrid k hp2).1] at hk
      exact absurd hk (by simp)
  refine ⟨hd, ?_, fun k hk => (hcls k hk).2, ?_, ?_, ?_, ?_, ?_⟩
  · intro k hk
    rw [startNewCycle_playingClass_offGrid s initial now hs.disabled k hk,
      startNewCycle_queuedClass]
    exact hs.offGrid k hk
  · intro q hq hmem
    exact (startNewCycle_playingClass_grid s initial now hs.disabled q.key
      (hasPad_of_mem hq)).mpr ⟨_, hmem⟩
  · intro q hq
    rw [startNewCycle_queuedClass]
    simp only [pendingKeys, startNewCycle_pending]
    exact hs.queued_iff q hq
  · intro c k hk
    simp only [pendingKeys, startNewCycle_pending] at hk
    exact hs.pending_grid c k hk
  · intro c
    simp only [pendingKeys, startNewCycle_pending]
    exact hs.pending_nodup c
  · intro k hk
    obtain ⟨_, c, hc⟩ := hcls k hk
    rw [startNewCycle_playingKeys] at hc
    obtain ⟨it, hit, rfl⟩ := List.mem_map.mp hc
    rw [startNewCycle_queuedClass]
    exact hq it (List.mem_filter.mp hit).1

theorem mem_drop_keys_iff (l : List Info) (n : Nat) (hnd : (l.map Info.key).Nodup) (k : Key) :
    k ∈ (l.drop n).map Info.key ↔ k ∈ l.map Info.key ∧ k ∉ (l.take n).map Info.key := by
  have hsplit : l.map Info.key = (l.take n).map Info.key ++ (l.drop n).map Info.key := by
    rw [← List.map_append, List.take_append_drop]
  rw [hsplit] at hnd
  have hdis := (List.nodup_append.mp hnd).2.2
  constructor
  · intro h
    refine ⟨by rw [hsplit]; exact List.mem_append_right _ h, fun h2 => hdis h2 h⟩
  · rintro ⟨h1, h2⟩
    rw [hsplit] at h1
    rcases List.mem_append.mp h1 with h | h
    · exact absurd h h2
    · exact h

theorem coherent_enqueue_click {s : State} (hs : Coherent s) (pad : Pad) (now : ℚ)
    (hpad : pad ∈ grid) (h1 : s.playingClass pad.key = false)
    (h2 : s.queuedClass pad.key = false) (h3 : anyPlaying s = true) :
    Coherent (onPadClick s pad now) := by
  obtain ⟨epl, _, edis, _, _, _, _, ecls, _⟩ := onPadClick_enqueue s pad now h1 h2 h3
  obtain ⟨n, _, epend, eself, eq⟩ := onPadClick_enqueue_classes s pad now h1 h2 h3
  have hpk : ∀ c, playingKeys (onPadClick s pad now) c = playingKeys s c := by
    intro c; simp only [playingKeys, epl]
  have hown : pendingKeys (onPadClick s pad now) pad.category =
      ((s.pending pad.category).drop n).map Info.key ++ [pad.key] := by
    simp [pendingKeys, epend]
  have hoth : ∀ c, c ≠ pad.category →
      pendingKeys (onPadClick s pad now) c = pendingKeys s c := by
    intro c hc; simp [pendingKeys, epend, Function.update_noteq hc]
  have hnotin : pad.key ∉ pendingKeys s pad.category := by
    intro hmem
    rw [(hs.queued_iff pad hpad).mpr hmem] at h2
    exact absurd h2 (by simp)
  have hnd := hs.pending_nodup pad.category
  have htake : ∀ k, k ∈ ((s.pending pad.category).take n).map Info.key →
      k ∈ pendingKeys s pad.category := by
    intro k hk
    obtain ⟨o, ho, rfl⟩ := List.mem_map.mp hk
    exact List.mem_map.mpr ⟨o, List.mem_of_mem_take ho, rfl⟩
  refine ⟨by rw [edis]; exact hs.disabled, ?_, ?_, ?_, ?_, ?_, ?_, ?_⟩
  · intro k hk
    have hne : k ≠ pad.key := by
      intro hkp; rw [hkp, hasPad_of_mem hpad] at hk; exact absurd hk (by simp)
    rw [ecls, (eq k hne).2 (fun h => by rw [hk] at h; exact absurd h.1 (by simp))]
    exact hs.offGrid k hk
  · intro k hk
    rw [ecls] at hk
    obtain ⟨c, hc⟩ := hs.playingClass_mem k hk
    exact ⟨c, by rw [hpk]; exact hc⟩
  · intro q hq hmem
    rw [hpk] at hmem
    rw [ecls]
    exact hs.mem_playingClass q hq hmem
  · intro q hq
    by_cases hne : q.key = pad.key
    · have : q = pad := grid_key_unique hq hpad hne
      subst this
      rw [eself, hown]
      simp
    · by_cases hc : q.category = pad.category
      · rw [hc, hown]
        have hmem : q.key ∈ ((s.pending pad.category).drop n).map Info.key ++ [pad.key] ↔
            q.key ∈ ((s.pending pad.category).drop n).map Info.key := by
          simp [hne]
        rw [hmem, mem_drop_keys_iff _ n hnd]
        by_cases ht : q.key ∈ ((s.pending pad.category).take n).map Info.key
        · rw [(eq q.key hne).1 (hasPad_of_mem hq) ht]
          constructor
          · intro h; exact absurd h (by simp)
          · rintro ⟨_, h⟩; exact absurd ht h
        · rw [(eq q.key hne).2 (fun h => ht h.2)]
          have := hs.queued_iff q hq
          rw [hc] at this
          rw [this]
          exact ⟨fun h => ⟨h, ht⟩, fun h => h.1⟩
      · rw [hoth _ hc]
        have ht : q.key ∉ ((s.pending pad.category).take n).map Info.key := by
          intro ht
          have hg := hs.pending_grid pad.category q.key (htake _ ht)
          have : Pad.mk q.key pad.category = q := grid_key_unique hg hq rfl
          exact hc (by rw [← this])
        rw [(eq q.key hne).2 (fun h => ht h.2)]
        exact hs.queued_iff q hq
  · intro c k hk
    by_cases hc : c = pad.category
    · subst hc
      rw [hown] at hk
      rcases List.mem_append.mp hk with h | h
      · exact hs.pending_grid _ k (((mem_drop_keys_iff _ n hnd k).mp h).1)
      · have : k = pad.key := by simpa using h
        subst this
        exact hpad
    · rw [hoth _ hc] at hk
      exact hs.pending_grid c k hk
  · intro c
    by_cases hc : c = pad.category
    · subst hc
      rw [hown]
      apply List.Nodup.append
      · exact hnd.sublist ((List.drop_sublist _ _).map Info.key)
      · simp
      · intro k hk1 hk2
        have : k = pad.key := by simpa using hk2
        subst this
        exact hnotin (((mem_drop_keys_iff _ n hnd _).mp hk1).1)
    · rw [hoth _ hc]
      exact hs.pending_nodup c
  · intro k hk
    rw [ecls] at hk
    have hne : k ≠ pad.key := by
      intro hkp; rw [hkp, h1] at hk; exact absurd hk (by simp)
    by_cases ht : hasPad k = true ∧ k ∈ ((s.pending pad.category).take n).map Info.key
    · exact (eq k hne).1 ht.1 ht.2
    · rw [(eq k hne).2 ht]
      exact hs.exclusive k hk

/-- A click on a pad of the grid keeps the agreement of classes and lists. -/
theorem coherent_click {s : State} (hs : Coherent s) (pad : Pad) (now : ℚ) (hpad : pad ∈ grid) :
    Coherent (onPadClick s pad now) := by
  by_cases h1 : s.playingClass pad.key = true
  · exact coherent_stop_click hs pad now hpad h1
  · have h1 : s.playingClass pad.key = false := by simpa using h1
    by_cases h2 : s.queuedClass pad.key = true
    · exact coherent_cancel_click hs pad now hpad h1 h2
    · have h2 : s.queuedClass pad.key = false := by simpa using h2
      by_cases h3 : anyPlaying s = true
      · exact coherent_enqueue_click hs pad now hpad h1 h2 h3
      · have h3 : anyPlaying s = false := by simpa using h3
        rw [onPadClick_start s pad now h1 h2 h3]
        apply coherent_startNewCycle hs
        intro it hit
        have : it = Info.mk pad.key pad.category (some now) := by simpa using hit
        subst this
        exact h2

theorem commitEntry_classes (cat : Cat) (s : State) (add : Info) :
    (∀ k, (commitEntry cat s add).playingClass k = true → s.playingClass k = true) ∧
    (∀ k, (commitEntry cat s add).queuedClass k = true → s.queuedClass k = true) ∧
    (hasPad add.key = true → (commitEntry cat s add).queuedClass add.key = false) := by
  have hupd : ∀ (f : Key → Bool) (x k : Key), Function.update f x false k = true → f k = true := by
    intro f x k h
    by_cases hkx : k = x
    · subst hkx; simp at h
    · simpa [Function.update_noteq hkx] using h
  unfold commitEntry
  by_cases h : limits cat ≤ (s.playing cat).length
  · cases hp : s.playing cat with
    | nil =>
      have h0 : limits cat ≤ 0 := by simpa [hp] using h
      simp only [ge_iff_le, List.length_nil, h0, if_true]
      exact ⟨fun k hk => hk, fun k hk => removeQueuedClass_le _ _ _ hk,
        fun hk => removeQueuedClass_self _ _ hk⟩
    | cons r rest =>
      have h1 : limits cat ≤ rest.length + 1 := by simpa [hp] using h
      simp only [ge_iff_le, List.length_cons, h1, if_true]
      by_cases hq : hasPad r.key = true
      · simp only [hq, if_true]
        refine ⟨fun k hk => ?_, fun k hk => ?_, fun hk => removeQueuedClass_self _ _ hk⟩
        · have := hupd _ _ _ hk
          simpa using this
        · have := hupd _ _ _ (removeQueuedClass_le _ _ _ hk)
          simpa using this
      · simp only [hq]
        refine ⟨fun k hk => ?_, fun k hk => ?_, fun hk => removeQueuedClass_self _ _ hk⟩
        · simpa using hk
        · have := removeQueuedClass_le _ _ _ hk
          simpa using this
  · simp only [ge_iff_le, h, if_false]
    exact ⟨fun k hk => hk, fun k hk => removeQueuedClass_le _ _ _ hk,
      fun hk => removeQueuedClass_self _ _ hk⟩

theorem commitFold_classes (cat : Cat) (l : List Info) (s : State) :
    (∀ k, (l.foldl (commitEntry cat) s).playingClass k = true → s.playingClass k = true) ∧
    (∀ k, (l.foldl (commitEntry cat) s).queuedClass k = true → s.queuedClass k = true) ∧
    (∀ add ∈ l, hasPad add.key = true →
      (l.foldl (commitEntry cat) s).queuedClass add.key = false) := by
  induction l generalizing s with
  | nil => exact ⟨fun _ h => h, fun _ h => h, fun _ h => by simp at h⟩
  | cons x t ih =>
    obtain ⟨a1, a2, a3⟩ := commitEntry_classes cat s x
    obtain ⟨b1, b2, b3⟩ := ih (commitEntry cat s x)
    refine ⟨fun k hk => a1 k (b1 k hk), fun k hk => a2 k (b2 k hk), ?_⟩
    intro add hadd hp
    rcases List.mem_cons.mp hadd with h | h
    · subst h
      by_contra hne
      have htrue : (List.foldl (commitEntry cat) s (add :: t)).queuedClass add.key = true := by
        simpa using hne
      have := b2 _ htrue
      rw [a3 hp] at this
      exact absurd this (by simp)
    · exact b3 add h hp

theorem commitCat_classes (s : State) (cat : Cat) :
    (∀ k, (commitCat s cat).playingClass k = true → s.playingClass k = true) ∧
    (∀ k, (commitCat s cat).queuedClass k = true → s.queuedClass k = true) ∧
    (∀ add ∈ s.pending cat, hasPad add.key = true →
      (commitCat s cat).queuedClass add.key = false) := by
  unfold commitCat
  by_cases h : (s.pending cat).length = 0
  · have h2 : s.pending cat = [] := List.length_eq_zero.mp h
    simp only [h, if_true]
    exact ⟨fun _ hk => hk, fun _ hk => hk, fun add hadd => by rw [h2] at hadd; simp at hadd⟩
  · simp only [h, if_false]
    exact commitFold_classes cat (s.pending cat) s

theorem commitCats_classes (s : State) :
    (∀ k, (cats.foldl commitCat s).playingClass k = true → s.playingClass k = true) ∧
    (∀ k, (cats.foldl commitCat s).queuedClass k = true → s.queuedClass k = true) ∧
    (∀ c, ∀ add ∈ s.pending c, hasPad add.key = true →
      (cats.foldl commitCat s).queuedClass add.key = false) := by
  simp only [cats, List.foldl_cons, List.foldl_nil]
  obtain ⟨a1, a2, a3⟩ := commitCat_classes s Cat.drum
  obtain ⟨b1, b2, b3⟩ := commitCat_classes (commitCat s Cat.drum) Cat.bass
  obtain ⟨c1, c2, c3⟩ := commitCat_classes (commitCat (commitCat s Cat.drum) Cat.bass) Cat.sound
  have e1 : (commitCat s Cat.drum).pending Cat.bass = s.pending Cat.bass := by
    rw [commitCat_pending]; simp [Function.update]
  have e2 : (commitCat (commitCat s Cat.drum) Cat.bass).pending Cat.sound =
      s.pending Cat.sound := by
    rw [commitCat_pending, commitCat_pending]; simp [Function.update]
  have hfalse : ∀ (b : Bool), ¬ b = true → b = false := by
    intro b hb; simpa using hb
  refine ⟨fun k hk => a1 k (b1 k (c1 k hk)), fun k hk => a2 k (b2 k (c2 k hk)), ?_⟩
  intro c add hadd hp
  cases c
  · apply hfalse
    intro ht
    have := b2 _ (c2 _ ht)
    rw [a3 add hadd hp] at this
    exact absurd this (by simp)
  · apply hfalse
    intro ht
    have := c2 _ ht
    rw [b3 add (by rw [e1]; exact hadd) hp] at this
    exact absurd this (by simp)
  · exact c3 add (by rw [e2]; exact hadd) hp

theorem coherent_commit_schedule {s : State} (hs : Coherent s) (s1 : State)
    (e1 : s1.pending = s.pending) (e2 : s1.playingClass = s.playingClass)
    (e3 : s1.queuedClass = s.queuedClass) (e4 : s1.disabledAtNext = []) (nextStart : ℚ) :
    Coherent (scheduleCycle { cats.foldl commitCat s1 with lastCycleStart := some nextStart }
      nextStart) := by
  have hfalse : ∀ (b : Bool), ¬ b = true → b = false := by
    intro b hb; simpa using hb
  obtain ⟨c1, c2, c3⟩ := commitCats_classes s1
  obtain ⟨_, f2, _, _, _⟩ := commitCats_frame s1
  have hpend : ∀ c, pendingKeys (scheduleCycle
      { cats.foldl commitCat s1 with lastCycleStart := some nextStart } nextStart) c = [] := by
    intro c
    simp only [pendingKeys, scheduleCycle_pending]
    rw [commitCats_pending]
    rfl
  have hq : ∀ k, (cats.foldl commitCat s1).queuedClass k = false := by
    intro k
    apply hfalse
    intro ht
    have hold : s.queuedClass k = true := by rw [← e3]; exact c2 k ht
    have hp : hasPad k = true := by
      by_contra hnp
      rw [(hs.offGrid k (hfalse _ hnp)).2] at hold
      exact absurd hold (by simp)
    obtain ⟨q, hqg, rfl⟩ := (hasPad_iff k).mp hp
    have hmem := (hs.queued_iff q hqg).mp hold
    obtain ⟨add, hadd, hkey⟩ := List.mem_map.mp hmem
    have := c3 q.category add (by rw [e1]; exact hadd) (by rw [hkey]; exact hp)
    rw [hkey] at this
    rw [this] at ht
    exact absurd ht (by simp)
  have hd : ({ cats.foldl commitCat s1 with lastCycleStart := some nextStart } :
      State).disabledAtNext = [] := f2.trans e4
  have hoff : ∀ k, hasPad k = false → (cats.foldl commitCat s1).playingClass k = false := by
    intro k hk
    apply hfalse
    intro ht
    have := c1 k ht
    rw [e2, (hs.offGrid k hk).1] at this
    exact absurd this (by simp)
  refine ⟨?_, ?_, ?_, ?_, ?_, ?_, ?_, ?_⟩
  · rw [scheduleCycle_disabledAtNext]; exact hd
  · intro k hk
    rw [scheduleCycle_playingClass_offGrid _ _ hd k hk, scheduleCycle_queuedClass]
    exact ⟨hoff k hk, hq k⟩
  · intro k hk
    by_cases hp : hasPad k = true
    · exact (scheduleCycle_playingClass_grid _ _ hd k hp).mp hk
    · rw [scheduleCycle_playingClass_offGrid _ _ hd k (hfalse _ hp)] at hk
      have := hoff k (hfalse _ hp)
      rw [this] at hk
      exact absurd hk (by simp)
  · intro q hqg hmem
    exact (scheduleCycle_playingClass_grid _ _ hd q.key (hasPad_of_mem hqg)).mpr ⟨_, hmem⟩
  · intro q hqg
    rw [hpend, scheduleCycle_queuedClass]
    constructor
    · intro h
      have := hq q.key
      rw [this] at h
      exact absurd h (by simp)
    · intro h; simp at h
  · intro c k hk
    rw [hpend] at hk
    simp at hk
  · intro c
    rw [hpend]
    exact List.nodup_nil
  · intro k _
    rw [scheduleCycle_queuedClass]
    exact hq k

theorem coherent_advanceCycle {s : State} (hs : Coherent s) (nextStart : ℚ) :
    Coherent (advanceCycle s nextStart) := by
  unfold advanceCycle
  exact coherent_commit_schedule hs
    { s with
      playing := cats.foldl
        (fun pl cat =>
          Function.update pl cat ((pl cat).filter (fun o => !decide (o.key ∈ s.disabledAtNext))))
        s.playing
      disabledAtNext := [] } rfl rfl rfl rfl nextStart

theorem coherent_stopAll {s : State} (hs : Coherent s) : Coherent (stopAll s) := by
  have hcls : ∀ k, (stopAll s).playingClass k = false ∧ (stopAll s).queuedClass k = false := by
    intro k
    by_cases hp : hasPad k = true
    · simp [stopAll, hp]
    · have hp2 : hasPad k = false := by simpa using hp
      simpa [stopAll, hp2] using hs.offGrid k hp2
  refine ⟨rfl, fun k _ => hcls k, ?_, ?_, ?_, ?_, ?_, ?_⟩
  · intro k hk
    rw [(hcls k).1] at hk
    exact absurd hk (by simp)
  · intro q _ hmem
    simp [stopAll, playingKeys] at hmem
  · intro q _
    rw [(hcls q.key).2]
    simp [stopAll, pendingKeys]
  · intro c k hk
    simp [stopAll, pendingKeys] at hk
  · intro c
    simp [stopAll, pendingKeys]
  · intro k _
    exact (hcls k).2

theorem effectsFold_eq (effects : List (Param × ℚ)) (s : State) :
    ∃ ep, effects.foldl (fun st e => updateEffectParam st e.1 e.2) s =
      { s with effectParams := ep } := by
  induction effects generalizing s with
  | nil => exact ⟨s.effectParams, rfl⟩
  | cons e rest ih =>
    obtain ⟨ep, h⟩ := ih (updateEffectParam s e.1 e.2)
    exact ⟨ep, by rw [List.foldl_cons, h]; rfl⟩

theorem coherent_effectParams {s : State} (hs : Coherent s) (ep : Param → ℚ) :
    Coherent { s with effectParams := ep } :=
  ⟨hs.disabled, hs.offGrid, hs.playingClass_mem, hs.mem_playingClass, hs.queued_iff,
    hs.pending_grid, hs.pending_nodup, hs.exclusive⟩

theorem coherent_applyPreset {s : State} (hs : Coherent s) (p : Preset) (now : ℚ) :
    Coherent (applyPreset s p now) := by
  have h1 : Coherent (match p.effects with
      | some effects => effects.foldl (fun st e => updateEffectParam st e.1 e.2) s
      | none => s) := by
    cases p.effects with
    | none => exact hs
    | some effects =>
      obtain ⟨ep, h⟩ := effectsFold_eq effects s
      simp only [h]
      exact coherent_effectParams hs ep
  have h2 := coherent_stopAll h1
  unfold applyPreset
  cases hp : p.activePads with
  | none => simpa [hp] using h2
  | some activePads =>
    simp only []
    split
    · apply coherent_startNewCycle h2
      intro it _
      by_cases hpad : hasPad it.key = true
      · simp [stopAll, hpad]
      · have hpad2 : hasPad it.key = false := by simpa using hpad
        exact (h2.offGrid it.key hpad2).2
    · exact h2

/-- In every reachable state the classes of the buttons agree with the lists. -/
theorem reachable_coherent {s : State} (h : Reachable s) : Coherent s := by
  induction h with
  | init buffers cycleDuration => exact initialState_coherent buffers cycleDuration
  | click pad now _ hpad ih => exact coherent_click ih pad now hpad
  | advance nextStart _ ih => exact coherent_advanceCycle ih nextStart
  | stop _ ih => exact coherent_stopAll ih
  | preset p now _ ih => exact coherent_applyPreset ih p now

/-! ## Active, Queued and Idle pads -/

theorem active_playingClass {s : State} {pad : Pad} (h : Active s pad) :
    s.playingClass pad.key = true := by
  rcases h with h | ⟨hc, hg, hm⟩
  · exact h
  · exact hc.mem_playingClass pad hg hm

theorem queued_classes {s : State} {pad : Pad} (h : Queued s pad) :
    s.playingClass pad.key = false ∧ s.queuedClass pad.key = true := by
  rcases h with h | ⟨hc, hg, hm⟩
  · exact h
  · have hq := (hc.queued_iff pad hg).mpr hm
    refine ⟨?_, hq⟩
    cases hp : s.playingClass pad.key with
    | false => rfl
    | true =>
      have := hc.exclusive pad.key hp
      rw [hq] at this
      exact absurd this (by simp)

theorem idle_classes {s : State} {pad : Pad} (h : Idle s pad) :
    s.playingClass pad.key = false ∧ s.queuedClass pad.key = false := by
  have h1 : s.playingClass pad.key = false := by
    cases hp : s.playingClass pad.key with
    | false => rfl
    | true => exact absurd (Or.inl hp) h.1
  refine ⟨h1, ?_⟩
  cases hq : s.queuedClass pad.key with
  | false => rfl
  | true => exact absurd (Or.inl ⟨h1, hq⟩) h.2

theorem idle_of_classes {s : State} {pad : Pad} (h1 : s.playingClass pad.key = false)
    (h2 : s.queuedClass pad.key = false) (h3 : pad.key ∉ playingKeys s pad.category)
    (h4 : pad.key ∉ pendingKeys s pad.category) : Idle s pad := by
  constructor
  · rintro (h | ⟨_, _, h⟩)
    · rw [h1] at h; exact absurd h (by simp)
    · exact h3 h
  · rintro (h | ⟨_, _, h⟩)
    · rw [h2] at h; exact absurd h.2 (by simp)
    · exact h4 h

theorem idle_of_silent {s : State} {pad : Pad} (hc : Coherent s) (hg : pad ∈ grid)
    (hp : ∀ c, s.playing c = []) (hq : ∀ c, s.pending c = []) : Idle s pad := by
  have h1 : s.playingClass pad.key = false := by
    cases hcl : s.playingClass pad.key with
    | false => rfl
    | true =>
      obtain ⟨c, hm⟩ := hc.playingClass_mem pad.key hcl
      simp [playingKeys, hp c] at hm
  have h2 : s.queuedClass pad.key = false := by
    cases hcl : s.queuedClass pad.key with
    | false => rfl
    | true =>
      have hm := (hc.queued_iff pad hg).mp hcl
      simp [pendingKeys, hq] at hm
  exact idle_of_classes h1 h2 (by simp [playingKeys, hp]) (by simp [pendingKeys, hq])

theorem anyPlaying_eq_false (s : State) : anyPlaying s = false ↔ ∀ c, s.playing c = [] := by
  constructor
  · intro h c
    simp [anyPlaying] at h
    cases c
    · exact h.1.1
    · exact h.1.2
    · exact h.2
  · intro h
    simp [anyPlaying, h]

theorem somethingActive_anyPlaying {s : State} (h : SomethingActive s) : anyPlaying s = true := by
  rcases h with h | ⟨hc, pad, hp⟩
  · exact h
  · obtain ⟨c, hm⟩ := hc.playingClass_mem pad.key (active_playingClass hp)
    cases hany : anyPlaying s with
    | true => rfl
    | false =>
      have := (anyPlaying_eq_false s).mp hany c
      simp [playingKeys, this] at hm

theorem onPadClick_enqueue_queued (s : State) (pad : Pad) (now : ℚ)
    (h1 : s.playingClass pad.key = false) (h2 : s.queuedClass pad.key = false)
    (h3 : anyPlaying s = true) : (onPadClick s pad now).queuedClass pad.key = true := by
  simp only [onPadClick, h1, h2, h3]
  by_cases hfull : limits pad.category ≤ (s.playing pad.category).length
  · simp [hfull]
  · simp [hfull]

/-- After a commit, the last entry of a non-empty queue is the last entry of `playing[c]`. -/
theorem advanceCycle_last_key (s : State) (nextStart : ℚ) (c : Cat) (l : List Info) (info : Info)
    (h : s.pending c = l ++ [info]) :
    (playingKeys (advanceCycle s nextStart) c).getLast? = some info.key := by
  rw [advanceCycle_playing_keys, h, List.foldl_append]
  simp

theorem inferDuration_eq_find (buffers : Key → Option ℚ) (l : List Info) :
    inferDuration buffers l =
      (l.find? (fun it => (buffers it.key).isSome)).bind (fun it => buffers it.key) := by
  induction l with
  | nil => rfl
  | cons it rest ih =>
    cases h : buffers it.key with
    | none => simp [inferDuration, h, ih, List.find?_cons]
    | some d => simp [inferDuration, h, List.find?_cons]

theorem inferDuration_eq_none (buffers : Key → Option ℚ) (l : List Info)
    (h : ∀ it ∈ l, buffers it.key = none) : inferDuration buffers l = none := by
  induction l with
  | nil => rfl
  | cons it rest ih =>
    have h1 : buffers it.key = none := h it (List.mem_cons_self _ _)
    simp only [inferDuration, h1]
    exact ih (fun x hx => h x (List.mem_cons_of_mem _ hx))

theorem falsy_some_of_ne (d : ℚ) (h : d ≠ 0) : falsy (some d) = false := by
  simp [falsy, h]

/-! ## The worked examples are reachable -/

theorem loaded_reachable : Reachable loaded := Reachable.init _ _

theorem threeSounds_reachable : Reachable threeSounds :=
  Reachable.advance 4 (Reachable.click (soundPad 3) 2 (Reachable.click (soundPad 2) 1
    (Reachable.click (soundPad 1) 0 loaded_reachable (by decide)) (by decide)) (by decide))

theorem threeSoundsOneQueued_reachable : Reachable threeSoundsOneQueued :=
  Reachable.click (soundPad 4) 5 threeSounds_reachable (by decide)

theorem threeSoundsTwoQueued_reachable : Reachable threeSoundsTwoQueued :=
  Reachable.click (soundPad 5) 6 threeSoundsOneQueued_reachable (by decide)

theorem threeSoundsThreeQueued_reachable : Reachable threeSoundsThreeQueued :=
  Reachable.click (soundPad 6) 7 threeSoundsTwoQueued_reachable (by decide)

theorem drumStoppedOneQueued_reachable : Reachable drumStoppedOneQueued :=
  Reachable.click (drumPad 1) 2 (Reachable.click (drumPad 2) 1
    (Reachable.click (drumPad 1) 0 loaded_reachable (by decide)) (by decide)) (by decide)

/-! ## Claims C1 to C3: the slot limits and the commit -/

/-- Claim C1: in every state reachable from the initial state by clicks on pads of the grid,
`advanceCycle`, `stopAll` and `applyPreset` with any preset, every category `c` has
`|playing[c]| ≤ limits[c]`, and the limits are drum 1, bass 1, sound 3. -/
theorem playing_within_limits (s : State) (hr : Reachable s) (c : Cat) :
    (s.playing c).length ≤ limits c ∧
      limits Cat.drum = 1 ∧ limits Cat.bass = 1 ∧ limits Cat.sound = 3 :=
  ⟨reachable_playing_length hr c, rfl, rfl, rfl⟩

/-- Witness of C1: three sounds Active and three queued, at the sound limit. -/
theorem playing_within_limits_witness :
    Reachable threeSoundsThreeQueued ∧
      ((threeSoundsThreeQueued.playing Cat.sound).length ≤ limits Cat.sound ∧
        limits Cat.drum = 1 ∧ limits Cat.bass = 1 ∧ limits Cat.sound = 3) :=
  ⟨threeSoundsThreeQueued_reachable,
    playing_within_limits threeSoundsThreeQueued threeSoundsThreeQueued_reachable Cat.sound⟩

/-- Claim C2: in every reachable state every category `c` has `|pending[c]| ≤ limits[c]`; and
when a click on an Idle pad would overflow the queue of its category (something is Active and
the queue is at the limit), `k ≥ 1` entries are shifted off the front of `pending[c]`, the new
entry is appended, and the queue is within the limit; exactly one entry is shifted when
`playing[c]` is full. -/
theorem pending_within_limits (s : State) (hr : Reachable s) :
    (∀ c, (s.pending c).length ≤ limits c) ∧
    ∀ (pad : Pad) (now : ℚ), Idle s pad → SomethingActive s →
      limits pad.category ≤ (s.pending pad.category).length →
      ∃ k, 1 ≤ k ∧
        (onPadClick s pad now).pending pad.category =
          (s.pending pad.category).drop k ++ [Info.mk pad.key pad.category (some now)] ∧
        ((onPadClick s pad now).pending pad.category).length ≤ limits pad.category ∧
        (limits pad.category ≤ (s.playing pad.category).length → k = 1) := by
  refine ⟨fun c => reachable_pending_length hr c, ?_⟩
  intro pad now hidle hact hfull
  obtain ⟨h1, h2⟩ := idle_classes hidle
  have h3 := somethingActive_anyPlaying hact
  have hq := reachable_pending_length hr pad.category
  have hL := limits_pos pad.category
  obtain ⟨_, _, _, _, _, _, _, _, k, hk, hpend, hlen, hk1, hk2⟩ :=
    onPadClick_enqueue s pad now h1 h2 h3
  refine ⟨k, ?_, ?_, ?_, ?_⟩
  · by_cases hp : limits pad.category ≤ (s.playing pad.category).length
    · have := hk1 hp; omega
    · have := hk2 (by omega); omega
  · rw [hpend, Function.update_same]
  · rw [hpend, Function.update_same]
    simp only [List.length_append, List.length_drop, List.length_singleton]
    exact hlen
  · intro hp
    have := hk1 hp; omega

/-- Witness of C2: with sounds 4, 5, 6 queued behind three Active sounds, the click on sound 7
evicts sound 4, the oldest queued entry. -/
theorem pending_within_limits_witness :
    Reachable threeSoundsThreeQueued ∧
      pendingKeys (onPadClick threeSoundsThreeQueued (soundPad 7) 8) Cat.sound =
        ["sounds.1.5.wav", "sounds.1.6.wav", "sounds.1.7.wav"] ∧
      ((∀ c, (threeSoundsThreeQueued.pending c).length ≤ limits c) ∧
      ∀ (pad : Pad) (now : ℚ), Idle threeSoundsThreeQueued pad →
        SomethingActive threeSoundsThreeQueued →
        limits pad.category ≤ (threeSoundsThreeQueued.pending pad.category).length →
        ∃ k, 1 ≤ k ∧
          (onPadClick threeSoundsThreeQueued pad now).pending pad.category =
            (threeSoundsThreeQueued.pending pad.category).drop k ++
              [Info.mk pad.key pad.category (some now)] ∧
          ((onPadClick threeSoundsThreeQueued pad now).pending pad.category).length ≤
            limits pad.category ∧
          (limits pad.category ≤ (threeSoundsThreeQueued.playing pad.category).length → k = 1)) :=
  ⟨threeSoundsThreeQueued_reachable, by decide,
    pending_within_limits threeSoundsThreeQueued threeSoundsThreeQueued_reachable⟩

/-- Claim C3: for a category `c` with `p = |playing[c]| ≤ limits[c]` and
`q = |pending[c]| ≤ limits[c]` (and nothing in `disabledAtNext`, as in every reachable state),
after `advanceCycle` the keys of `playing[c]` are the old keys without the first
`p + q - limits[c]` (truncated at 0), followed by the keys of `pending[c]` in queue order; the
tracked sources of the removed keys are stopped; every queued key is Active after the commit; and
with sounds A, B, C Active and D, E queued the result is C, D, E. -/
theorem advanceCycle_commit (s : State) (nextStart : ℚ) (c : Cat)
    (hd : s.disabledAtNext = []) (hp : (s.playing c).length ≤ limits c)
    (hq : (s.pending c).length ≤ limits c) :
    playingKeys (advanceCycle s nextStart) c =
      (playingKeys s c).drop ((s.playing c).length + (s.pending c).length - limits c) ++
        pendingKeys s c ∧
    (∀ k ∈ (playingKeys s c).take ((s.playing c).length + (s.pending c).length - limits c),
      ∀ src, s.activeSources.lookup k = some src → src ∈ (advanceCycle s nextStart).stopped) ∧
    (∀ k ∈ pendingKeys s c, k ∈ playingKeys (advanceCycle s nextStart) c) ∧
    (∀ A B C D E : Key, c = Cat.sound → playingKeys s Cat.sound = [A, B, C] →
      pendingKeys s Cat.sound = [D, E] →
      playingKeys (advanceCycle s nextStart) Cat.sound = [C, D, E]) := by
  have hkeys := advanceCycle_keys_of_bounded s nextStart c hd hp hq
  refine ⟨hkeys, ?_, ?_, ?_⟩
  · intro k hk src hsrc
    exact advanceCycle_stops_evicted s nextStart c hd hp hq k hk src hsrc
  · intro k hk
    rw [hkeys]
    exact List.mem_append_right _ hk
  · intro A B C D E hc hA hQ
    subst hc
    have h1 : (s.playing Cat.sound).length = 3 := by
      rw [playing_length, hA]; rfl
    have h2 : (s.pending Cat.sound).length = 2 := by
      have : (pendingKeys s Cat.sound).length = 2 := by rw [hQ]; rfl
      simpa [pendingKeys] using this
    rw [hkeys, hA, hQ, h1, h2]
    rfl

/-- Witness of C3: sounds 1, 2, 3 Active and 4, 5 queued; the commit leaves 3, 4, 5 and stops the
sources of sounds 1 and 2. -/
theorem advanceCycle_commit_witness :
    threeSoundsTwoQueued.disabledAtNext = [] ∧
    (threeSoundsTwoQueued.playing Cat.sound).length ≤ limits Cat.sound ∧
    (threeSoundsTwoQueued.pending Cat.sound).length ≤ limits Cat.sound ∧
    playingKeys (advanceCycle threeSoundsTwoQueued 8) Cat.sound =
      ["sounds.1.3.wav", "sounds.1.4.wav", "sounds.1.5.wav"] ∧
    threeSoundsTwoQueued.activeSources =
      [("sounds.1.1.wav", 1), ("sounds.1.2.wav", 2), ("sounds.1.3.wav", 3)] ∧
    (advanceCycle threeSoundsTwoQueued 8).stopped = [1, 2] ∧
    (playingKeys (advanceCycle threeSoundsTwoQueued 8) Cat.sound =
      (playingKeys threeSoundsTwoQueued Cat.sound).drop
        ((threeSoundsTwoQueued.playing Cat.sound).length +
          (threeSoundsTwoQueued.pending Cat.sound).length - limits Cat.sound) ++
        pendingKeys threeSoundsTwoQueued Cat.sound ∧
    (∀ k ∈ (playingKeys threeSoundsTwoQueued Cat.sound).take
        ((threeSoundsTwoQueued.playing Cat.sound).length +
          (threeSoundsTwoQueued.pending Cat.sound).length - limits Cat.sound),
      ∀ src, threeSoundsTwoQueued.activeSources.lookup k = some src →
        src ∈ (advanceCycle threeSoundsTwoQueued 8).stopped) ∧
    (∀ k ∈ pendingKeys threeSoundsTwoQueued Cat.sound,
      k ∈ playingKeys (advanceCycle threeSoundsTwoQueued 8) Cat.sound) ∧
    (∀ A B C D E : Key, Cat.sound = Cat.sound →
      playingKeys threeSoundsTwoQueued Cat.sound = [A, B, C] →
      pendingKeys threeSoundsTwoQueued Cat.sound = [D, E] →
      playingKeys (advanceCycle threeSoundsTwoQueued 8) Cat.sound = [C, D, E])) :=
  ⟨by decide, by decide, by decide, by decide, by decide, by decide,
    advanceCycle_commit threeSoundsTwoQueued 8 Cat.sound (by decide) (by decide) (by decide)⟩

/-! ## Claims C4 to C6: clicks on Idle pads -/

/-- Claim C4: in every state in which something is Active, a click on an Idle pad (neither Active
nor Queued) of category `c` leaves every `playing` list unchanged and makes the pad's entry the
last of `pending[c]`; the pad is then Queued (class `queued`, no class `playing`), and its key is
the newest entry of `playing[c]` after the next `advanceCycle`. -/
theorem onPadClick_idle_enqueues (s : State) (pad : Pad) (now : ℚ)
    (hactive : SomethingActive s) (hidle : Idle s pad) :
    (onPadClick s pad now).playing = s.playing ∧
    ((onPadClick s pad now).pending pad.category).getLast? =
      some (Info.mk pad.key pad.category (some now)) ∧
    (onPadClick s pad now).playingClass = s.playingClass ∧
    (onPadClick s pad now).queuedClass pad.key = true ∧
    Queued (onPadClick s pad now) pad ∧
    ∀ nextStart,
      (playingKeys (advanceCycle (onPadClick s pad now) nextStart) pad.category).getLast? =
        some pad.key := by
  obtain ⟨h1, h2⟩ := idle_classes hidle
  have h3 := somethingActive_anyPlaying hactive
  obtain ⟨hpl, _, _, _, _, _, _, hcls, k, _, hpend, _, _, _⟩ :=
    onPadClick_enqueue s pad now h1 h2 h3
  have hp : (onPadClick s pad now).pending pad.category =
      (s.pending pad.category).drop k ++ [Info.mk pad.key pad.category (some now)] := by
    rw [hpend, Function.update_same]
  have hqc := onPadClick_enqueue_queued s pad now h1 h2 h3
  refine ⟨hpl, ?_, hcls, hqc, Or.inl ⟨by rw [hcls]; exact h1, hqc⟩, ?_⟩
  · rw [hp]; simp
  · intro nextStart
    exact advanceCycle_last_key _ nextStart pad.category _ _ hp

/-- Witness of C4: with sounds 1, 2, 3 Active, the click on sound 4 queues it. -/
theorem onPadClick_idle_enqueues_witness :
    SomethingActive threeSounds ∧ Idle threeSounds (soundPad 4) ∧
    pendingKeys (onPadClick threeSounds (soundPad 4) 5) Cat.sound = ["sounds.1.4.wav"] ∧
    ((onPadClick threeSounds (soundPad 4) 5).playing = threeSounds.playing ∧
    ((onPadClick threeSounds (soundPad 4) 5).pending (soundPad 4).category).getLast? =
      some (Info.mk (soundPad 4).key (soundPad 4).category (some 5)) ∧
    (onPadClick threeSounds (soundPad 4) 5).playingClass = threeSounds.playingClass ∧
    (onPadClick threeSounds (soundPad 4) 5).queuedClass (soundPad 4).key = true ∧
    Queued (onPadClick threeSounds (soundPad 4) 5) (soundPad 4) ∧
    ∀ nextStart,
      (playingKeys (advanceCycle (onPadClick threeSounds (soundPad 4) 5) nextStart)
        (soundPad 4).category).getLast? = some (soundPad 4).key) :=
  ⟨Or.inl (by decide),
    idle_of_classes (by decide) (by decide) (by decide) (by decide), by decide,
    onPadClick_idle_enqueues threeSounds (soundPad 4) 5 (Or.inl (by decide))
      (idle_of_classes (by decide) (by decide) (by decide) (by decide))⟩

/-- Counterexample to C5: after drum 1 was started, drum 2 queued and drum 1 stopped, drum 2 is
still Queued, yet the click on the Idle pad drum 3 takes the direct-start path: drum 3 is Active
at once and drum 2 stays in the queue. -/
theorem directStart_while_queued :
    Reachable drumStoppedOneQueued ∧
    Idle drumStoppedOneQueued (drumPad 3) ∧
    Queued drumStoppedOneQueued (drumPad 2) ∧
    pendingKeys drumStoppedOneQueued Cat.drum = ["drum.1.2.wav"] ∧
    takesDirectStart drumStoppedOneQueued (drumPad 3) = true ∧
    playingKeys (onPadClick drumStoppedOneQueued (drumPad 3) 3) Cat.drum = ["drum.1.3.wav"] ∧
    pendingKeys (onPadClick drumStoppedOneQueued (drumPad 3) 3) Cat.drum = ["drum.1.2.wav"] :=
  ⟨drumStoppedOneQueued_reachable,
    idle_of_classes (by decide) (by decide) (by decide) (by decide),
    Or.inl ⟨by decide, by decide⟩, by decide, by decide, by decide, by decide⟩

/-- Claim C5, amended: a click on an Idle pad takes the direct-start path exactly when every
`playing` list is empty, whatever the `pending` queues hold; the click is then
`startNewCycle([info])`, and otherwise it leaves `playing` and `lastCycleStart` unchanged. -/
theorem directStart_iff_nothing_playing (s : State) (pad : Pad) (now : ℚ)
    (hidle : Idle s pad) :
    (takesDirectStart s pad = true ↔ ∀ c, s.playing c = []) ∧
    (takesDirectStart s pad = true →
      onPadClick s pad now = startNewCycle s [Info.mk pad.key pad.category (some now)] now) ∧
    (takesDirectStart s pad = false →
      (onPadClick s pad now).playing = s.playing ∧
      (onPadClick s pad now).lastCycleStart = s.lastCycleStart) := by
  obtain ⟨h1, h2⟩ := idle_classes hidle
  have hiff : takesDirectStart s pad = true ↔ ∀ c, s.playing c = [] := by
    rw [← anyPlaying_eq_false]
    simp [takesDirectStart, h1, h2]
  refine ⟨hiff, ?_, ?_⟩
  · intro h
    exact onPadClick_start s pad now h1 h2 ((anyPlaying_eq_false s).mpr (hiff.mp h))
  · intro h
    have h3 : anyPlaying s = true := by
      simpa [takesDirectStart, h1, h2] using h
    obtain ⟨hpl, _, _, _, hstart, _⟩ := onPadClick_enqueue s pad now h1 h2 h3
    exact ⟨hpl, hstart⟩

/-- Witness of C5 as amended: the Idle pad drum 3 with drum 2 queued and nothing Active. -/
theorem directStart_iff_nothing_playing_witness :
    Idle drumStoppedOneQueued (drumPad 3) ∧
    ((takesDirectStart drumStoppedOneQueued (drumPad 3) = true ↔
      ∀ c, drumStoppedOneQueued.playing c = []) ∧
    (takesDirectStart drumStoppedOneQueued (drumPad 3) = true →
      onPadClick drumStoppedOneQueued (drumPad 3) 3 =
        startNewCycle drumStoppedOneQueued
          [Info.mk (drumPad 3).key (drumPad 3).category (some 3)] 3) ∧
    (takesDirectStart drumStoppedOneQueued (drumPad 3) = false →
      (onPadClick drumStoppedOneQueued (drumPad 3) 3).playing = drumStoppedOneQueued.playing ∧
      (onPadClick drumStoppedOneQueued (drumPad 3) 3).lastCycleStart =
        drumStoppedOneQueued.lastCycleStart)) :=
  ⟨idle_of_classes (by decide) (by decide) (by decide) (by decide),
    directStart_iff_nothing_playing drumStoppedOneQueued (drumPad 3) 3
      (idle_of_classes (by decide) (by decide) (by decide) (by decide))⟩

/-- Claim C6: in a fully silent state (every `playing` list and every `pending` queue empty), a
click at audio time `now` on a pad `(key, cat)` that is Idle (as is every pad of the grid when the
classes agree with the lists, so in every reachable silent state) yields `playing[cat] = [key]`,
the other two `playing` lists empty, and `lastCycleStart = now + 0.05`; the queues stay empty. -/
theorem onPadClick_silent_start (s : State) (pad : Pad) (now : ℚ)
    (hp : ∀ c, s.playing c = []) (hq : ∀ c, s.pending c = [])
    (hpad : Idle s pad ∨ (Coherent s ∧ pad ∈ grid)) :
    playingKeys (onPadClick s pad now) pad.category = [pad.key] ∧
    (∀ c, c ≠ pad.category → playingKeys (onPadClick s pad now) c = []) ∧
    (onPadClick s pad now).lastCycleStart = some (now + 0.05) ∧
    (∀ c, (onPadClick s pad now).pending c = []) := by
  have hidle : Idle s pad := by
    rcases hpad with h | ⟨hc, hg⟩
    · exact h
    · exact idle_of_silent hc hg hp hq
  obtain ⟨h1, h2⟩ := idle_classes hidle
  have h3 := (anyPlaying_eq_false s).mpr hp
  rw [onPadClick_start s pad now h1 h2 h3]
  refine ⟨?_, ?_, startNewCycle_lastCycleStart _ _ _, ?_⟩
  · rw [startNewCycle_playingKeys]; simp
  · intro c hc
    rw [startNewCycle_playingKeys]
    have : ¬ pad.category = c := fun h => hc h.symm
    simp [this]
  · intro c
    rw [startNewCycle_pending]; exact hq c

/-- Witness of C6: the first click on drum 1 on the freshly loaded page. -/
theorem onPadClick_silent_start_witness :
    (∀ c, loaded.playing c = []) ∧ (∀ c, loaded.pending c = []) ∧
    (Coherent loaded ∧ drumPad 1 ∈ grid) ∧
    (playingKeys (onPadClick loaded (drumPad 1) 7) (drumPad 1).category = [(drumPad 1).key] ∧
    (∀ c, c ≠ (drumPad 1).category → playingKeys (onPadClick loaded (drumPad 1) 7) c = []) ∧
    (onPadClick loaded (drumPad 1) 7).lastCycleStart = some (7 + 0.05) ∧
    (∀ c, (onPadClick loaded (drumPad 1) 7).pending c = [])) :=
  ⟨fun _ => rfl, fun _ => rfl, ⟨reachable_coherent loaded_reachable, by decide⟩,
    onPadClick_silent_start loaded (drumPad 1) 7 (fun _ => rfl) (fun _ => rfl)
      (Or.inr ⟨reachable_coherent loaded_reachable, by decide⟩)⟩

/-! ## Claims C7 and C8: the cycle duration, and eviction from the queue -/

/-- Counterexample to C7: `cycleDuration` is 8 (set when the first sample was decoded), and the
direct start of the Idle pad `drum.1.2.wav`, whose loaded buffer lasts 2 seconds, leaves it at
8. -/
theorem directStart_keeps_cycleDuration :
    Reachable twoDurations ∧
    Idle twoDurations (drumPad 2) ∧
    twoDurations.cycleDuration = some 8 ∧
    twoDurations.buffers (drumPad 2).key = some 2 ∧
    inferDuration twoDurations.buffers [Info.mk (drumPad 2).key Cat.drum (some 0)] = some 2 ∧
    (startNewCycle twoDurations [Info.mk (drumPad 2).key Cat.drum (some 0)] 0).cycleDuration =
      some 8 ∧
    takesDirectStart twoDurations (drumPad 2) = true ∧
    playingKeys (onPadClick twoDurations (drumPad 2) 0) Cat.drum = ["drum.1.2.wav"] ∧
    (onPadClick twoDurations (drumPad 2) 0).cycleDuration = some 8 :=
  ⟨Reachable.init _ _, idle_of_classes (by decide) (by decide) (by decide) (by decide),
    by decide, by decide, by decide, by decide, by decide, by decide, by decide⟩

/-- Claim C7, amended: `startNewCycle(initial)` keeps the prior `cycleDuration` whenever there is
one (not null, not 0); only when there is none does it take the duration of the buffer of the
first entry of `initial` that has a loaded buffer (when that duration is not 0), and 4 when no
entry has a loaded buffer. In particular a direct start by a click on an Idle pad whose sample is
loaded makes `cycleDuration` that sample's duration when no `cycleDuration` was set before. -/
theorem startNewCycle_duration (s : State) (initial : List Info) (now : ℚ) :
    (∀ d, s.cycleDuration = some d → d ≠ 0 →
      (startNewCycle s initial now).cycleDuration = some d) ∧
    (falsy s.cycleDuration = true →
      ∀ it d, initial.find? (fun it => (s.buffers it.key).isSome) = some it →
        s.buffers it.key = some d → d ≠ 0 →
        (startNewCycle s initial now).cycleDuration = some d) ∧
    (falsy s.cycleDuration = true → (∀ it ∈ initial, s.buffers it.key = none) →
      (startNewCycle s initial now).cycleDuration = some 4) ∧
    (falsy s.cycleDuration = true →
      ∀ pad d, Idle s pad → (∀ c, s.playing c = []) → s.buffers pad.key = some d → d ≠ 0 →
        (onPadClick s pad now).cycleDuration = some d) := by
  have hstart : ∀ (l : List Info) it d, falsy s.cycleDuration = true →
      l.find? (fun it => (s.buffers it.key).isSome) = some it →
      s.buffers it.key = some d → d ≠ 0 →
      (startNewCycle s l now).cycleDuration = some d := by
    intro l it d hf hfind hb hd
    have hi : inferDuration s.buffers l = some d := by
      rw [inferDuration_eq_find, hfind]; simpa using hb
    rw [startNewCycle_cycleDuration, hf, hi, falsy_some_of_ne d hd]
    simp
  refine ⟨?_, ?_, ?_, ?_⟩
  · intro d hd hne
    rw [startNewCycle_cycleDuration, hd, falsy_some_of_ne d hne]
    simp
  · intro hf it d hfind hb hd
    exact hstart initial it d hf hfind hb hd
  · intro hf hnone
    rw [startNewCycle_cycleDuration, hf, inferDuration_eq_none _ _ hnone]
    simp [falsy]
  · intro hf pad d hidle hsilent hb hd
    obtain ⟨h1, h2⟩ := idle_classes hidle
    have h3 : anyPlaying s = false := (anyPlaying_eq_false s).mpr hsilent
    rw [onPadClick_start s pad now h1 h2 h3]
    apply hstart _ (Info.mk pad.key pad.category (some now)) d hf _ hb hd
    simp [List.find?_cons, hb]

/-- Witness of C7 as amended: with `cycleDuration` 8 the start of `drum.1.2.wav` keeps 8; with no
`cycleDuration` it takes the 2 seconds of the sample. -/
theorem startNewCycle_duration_witness :
    (startNewCycle twoDurations [Info.mk "drum.1.2.wav" Cat.drum none] 0).cycleDuration =
      some 8 ∧
    (startNewCycle noDuration [Info.mk "drum.1.2.wav" Cat.drum none] 0).cycleDuration = some 2 ∧
    (startNewCycle noDuration [Info.mk "drum.1.3.wav" Cat.drum none] 0).cycleDuration = some 4 ∧
    (onPadClick noDuration (drumPad 2) 0).cycleDuration = some 2 :=
  ⟨(startNewCycle_duration twoDurations [Info.mk "drum.1.2.wav" Cat.drum none] 0).1 8 rfl
      (by decide),
    (startNewCycle_duration noDuration [Info.mk "drum.1.2.wav" Cat.drum none] 0).2.1 rfl
      (Info.mk "drum.1.2.wav" Cat.drum none) 2 (by decide) (by decide) (by decide),
    (startNewCycle_duration noDuration [Info.mk "drum.1.3.wav" Cat.drum none] 0).2.2.1 rfl
      (by decide),
    (startNewCycle_duration noDuration [] 0).2.2.2 rfl (drumPad 2) 2
      (idle_of_classes (by decide) (by decide) (by decide) (by decide)) (fun _ => rfl)
      (by decide) (by decide)⟩

/-- Counterexample to C8: sounds 1, 2, 3 are Active and sound 4 is queued, so
`|playing| + |pending| = 4 ≥ 3` and the queue is not empty; the click on the Idle pad sound 5
enqueues it and removes nothing: the queue is then sounds 4, 5. -/
theorem enqueue_without_eviction :
    Reachable threeSoundsOneQueued ∧
    SomethingActive threeSoundsOneQueued ∧
    Idle threeSoundsOneQueued (soundPad 5) ∧
    limits Cat.sound ≤ (threeSoundsOneQueued.playing Cat.sound).length +
      (threeSoundsOneQueued.pending Cat.sound).length ∧
    pendingKeys threeSoundsOneQueued Cat.sound = ["sounds.1.4.wav"] ∧
    pendingKeys (onPadClick threeSoundsOneQueued (soundPad 5) 6) Cat.sound =
      ["sounds.1.4.wav", "sounds.1.5.wav"] :=
  ⟨threeSoundsOneQueued_reachable, Or.inl (by decide),
    idle_of_classes (by decide) (by decide) (by decide) (by decide), by decide, by decide,
    by decide⟩

/-- Claim C8, amended: in a state in which something is Active, a click on an Idle pad of
category `c` removes the oldest entry of `pending[c]` before it enqueues the new key when
`|playing[c]| < limits[c] ≤ |playing[c]| + |pending[c]|`, or when `playing[c]` and `pending[c]`
are both at the limit; when `playing[c]` is at the limit and `pending[c]` is below it, the click
enqueues the new key and removes nothing. -/
theorem onPadClick_evicts_oldest (s : State) (pad : Pad) (now : ℚ)
    (hactive : SomethingActive s) (hidle : Idle s pad) :
    ((((s.playing pad.category).length < limits pad.category ∧
        limits pad.category ≤ (s.playing pad.category).length + (s.pending pad.category).length) ∨
      (limits pad.category ≤ (s.playing pad.category).length ∧
        limits pad.category ≤ (s.pending pad.category).length)) →
      ∃ k, 1 ≤ k ∧ (onPadClick s pad now).pending pad.category =
        (s.pending pad.category).drop k ++ [Info.mk pad.key pad.category (some now)]) ∧
    (limits pad.category ≤ (s.playing pad.category).length →
      (s.pending pad.category).length < limits pad.category →
      (onPadClick s pad now).pending pad.category =
        s.pending pad.category ++ [Info.mk pad.key pad.category (some now)]) := by
  obtain ⟨h1, h2⟩ := idle_classes hidle
  have h3 := somethingActive_anyPlaying hactive
  obtain ⟨_, _, _, _, _, _, _, _, k, hk, hpend, hlen, hk1, hk2⟩ :=
    onPadClick_enqueue s pad now h1 h2 h3
  have hp : (onPadClick s pad now).pending pad.category =
      (s.pending pad.category).drop k ++ [Info.mk pad.key pad.category (some now)] := by
    rw [hpend, Function.update_same]
  have hL := limits_pos pad.category
  refine ⟨?_, ?_⟩
  · intro h
    refine ⟨k, ?_, hp⟩
    rcases h with ⟨ha, hb⟩ | ⟨ha, hb⟩
    · have := hk2 ha; omega
    · have := hk1 ha; omega
  · intro ha hb
    have hk0 : k = 0 := by have := hk1 ha; omega
    rw [hp, hk0]; simp

/-- Witness of C8 as amended: with three sounds Active and three queued the click on sound 7
removes the oldest queued entry; with three Active and one queued the click on sound 5 removes
nothing. -/
theorem onPadClick_evicts_oldest_witness :
    SomethingActive threeSoundsThreeQueued ∧ Idle threeSoundsThreeQueued (soundPad 7) ∧
    pendingKeys (onPadClick threeSoundsThreeQueued (soundPad 7) 8) Cat.sound =
      ["sounds.1.5.wav", "sounds.1.6.wav", "sounds.1.7.wav"] ∧
    (∃ k, 1 ≤ k ∧ (onPadClick threeSoundsThreeQueued (soundPad 7) 8).pending Cat.sound =
      (threeSoundsThreeQueued.pending Cat.sound).drop k ++
        [Info.mk (soundPad 7).key Cat.sound (some 8)]) ∧
    (onPadClick threeSoundsOneQueued (soundPad 5) 6).pending Cat.sound =
      threeSoundsOneQueued.pending Cat.sound ++ [Info.mk (soundPad 5).key Cat.sound (some 6)] :=
  ⟨Or.inl (by decide), idle_of_classes (by decide) (by decide) (by decide) (by decide),
    by decide,
    (onPadClick_evicts_oldest threeSoundsThreeQueued (soundPad 7) 8 (Or.inl (by decide))
      (idle_of_classes (by decide) (by decide) (by decide) (by decide))).1
      (Or.inr ⟨by decide, by decide⟩),
    (onPadClick_evicts_oldest threeSoundsOneQueued (soundPad 5) 6 (Or.inl (by decide))
      (idle_of_classes (by decide) (by decide) (by decide) (by decide))).2
      (by decide) (by decide)⟩

/-! ## Claims C9 and C10: manual stop and cancel -/

/-- Claim C9: a click on a pad `(key, cat)` that is Active removes `key` from `playing[cat]` at
once (no `advanceCycle`), stops its tracked source and deletes it from `activeSources`, and leaves
unchanged the order of the other entries of `playing[cat]`, the `playing` lists of the other
categories, every `pending` queue whatever it holds, `cycleDuration` and `lastCycleStart`. -/
theorem onPadClick_manual_stop (s : State) (pad : Pad) (now : ℚ) (hactive : Active s pad) :
    (onPadClick s pad now).playing pad.category =
      (s.playing pad.category).filter (fun o => o.key != pad.key) ∧
    pad.key ∉ playingKeys (onPadClick s pad now) pad.category ∧
    (∀ c, c ≠ pad.category → (onPadClick s pad now).playing c = s.playing c) ∧
    (onPadClick s pad now).pending = s.pending ∧
    (onPadClick s pad now).cycleDuration = s.cycleDuration ∧
    (onPadClick s pad now).lastCycleStart = s.lastCycleStart ∧
    (onPadClick s pad now).activeSources =
      s.activeSources.filter (fun e => e.1 != pad.key) ∧
    (∀ src, (pad.key, src) ∉ (onPadClick s pad now).activeSources) ∧
    (∀ src, s.activeSources.lookup pad.key = some src →
      src ∈ (onPadClick s pad now).stopped) ∧
    (onPadClick s pad now).playingClass pad.key = false := by
  have h := active_playingClass hactive
  rw [onPadClick_stop s pad now h]
  refine ⟨?_, ?_, ?_, ?_, ?_, ?_, ?_, ?_, ?_, ?_⟩
  · simp
  · simp [playingKeys]
  · intro c hc; simp [Function.update_noteq hc]
  · simp
  · simp
  · simp
  · exact stopSource_activeSources s pad.key
  · intro src hmem
    have hmem2 : (pad.key, src) ∈ (stopSource s pad.key).activeSources := hmem
    rw [stopSource_activeSources] at hmem2
    simp at hmem2
  · intro src hsrc
    exact stopSource_stopped s pad.key src hsrc
  · simp

/-- Witness of C9: sounds 1, 2, 3 Active and 4, 5 queued; the click on sound 2 leaves sounds 1, 3
Active and the queue as it was, and stops source 2. -/
theorem onPadClick_manual_stop_witness :
    Active threeSoundsTwoQueued (soundPad 2) ∧
    playingKeys (onPadClick threeSoundsTwoQueued (soundPad 2) 7) Cat.sound =
      ["sounds.1.1.wav", "sounds.1.3.wav"] ∧
    pendingKeys (onPadClick threeSoundsTwoQueued (soundPad 2) 7) Cat.sound =
      ["sounds.1.4.wav", "sounds.1.5.wav"] ∧
    (onPadClick threeSoundsTwoQueued (soundPad 2) 7).stopped = [2] ∧
    ((onPadClick threeSoundsTwoQueued (soundPad 2) 7).playing (soundPad 2).category =
      (threeSoundsTwoQueued.playing (soundPad 2).category).filter
        (fun o => o.key != (soundPad 2).key) ∧
    (soundPad 2).key ∉ playingKeys (onPadClick threeSoundsTwoQueued (soundPad 2) 7)
      (soundPad 2).category ∧
    (∀ c, c ≠ (soundPad 2).category →
      (onPadClick threeSoundsTwoQueued (soundPad 2) 7).playing c =
        threeSoundsTwoQueued.playing c) ∧
    (onPadClick threeSoundsTwoQueued (soundPad 2) 7).pending = threeSoundsTwoQueued.pending ∧
    (onPadClick threeSoundsTwoQueued (soundPad 2) 7).cycleDuration =
      threeSoundsTwoQueued.cycleDuration ∧
    (onPadClick threeSoundsTwoQueued (soundPad 2) 7).lastCycleStart =
      threeSoundsTwoQueued.lastCycleStart ∧
    (onPadClick threeSoundsTwoQueued (soundPad 2) 7).activeSources =
      threeSoundsTwoQueued.activeSources.filter (fun e => e.1 != (soundPad 2).key) ∧
    (∀ src, ((soundPad 2).key, src) ∉
      (onPadClick threeSoundsTwoQueued (soundPad 2) 7).activeSources) ∧
    (∀ src, threeSoundsTwoQueued.activeSources.lookup (soundPad 2).key = some src →
      src ∈ (onPadClick threeSoundsTwoQueued (soundPad 2) 7).stopped) ∧
    (onPadClick threeSoundsTwoQueued (soundPad 2) 7).playingClass (soundPad 2).key = false) :=
  ⟨Or.inr ⟨reachable_coherent threeSoundsTwoQueued_reachable, by decide, by decide⟩,
    by decide, by decide, by decide,
    onPadClick_manual_stop threeSoundsTwoQueued (soundPad 2) 7
      (Or.inr ⟨reachable_coherent threeSoundsTwoQueued_reachable, by decide, by decide⟩)⟩

/-- Claim C10: a click on a pad `(key, cat)` that is Queued removes `key` from `pending[cat]` and
changes nothing else: every `playing` list, the other entries of the queues and their order,
`activeSources`, the stop and start logs, `cycleDuration`, `lastCycleStart`, the timer,
`disabledAtNext` and the classes of the other buttons are unchanged. -/
theorem onPadClick_cancel_queued (s : State) (pad : Pad) (now : ℚ) (hqueued : Queued s pad) :
    (onPadClick s pad now).pending pad.category =
      (s.pending pad.category).filter (fun o => o.key != pad.key) ∧
    pad.key ∉ pendingKeys (onPadClick s pad now) pad.category ∧
    (∀ c, c ≠ pad.category → (onPadClick s pad now).pending c = s.pending c) ∧
    (onPadClick s pad now).playing = s.playing ∧
    (onPadClick s pad now).activeSources = s.activeSources ∧
    (onPadClick s pad now).stopped = s.stopped ∧
    (onPadClick s pad now).started = s.started ∧
    (onPadClick s pad now).cycleDuration = s.cycleDuration ∧
    (onPadClick s pad now).lastCycleStart = s.lastCycleStart ∧
    (onPadClick s pad now).cycleTimer = s.cycleTimer ∧
    (onPadClick s pad now).disabledAtNext = s.disabledAtNext ∧
    (onPadClick s pad now).playingClass = s.playingClass ∧
    (onPadClick s pad now).queuedClass pad.key = false ∧
    (∀ k, k ≠ pad.key → (onPadClick s pad now).queuedClass k = s.queuedClass k) := by
  obtain ⟨h1, h2⟩ := queued_classes hqueued
  rw [onPadClick_cancel s pad now h1 h2]
  refine ⟨?_, ?_, ?_, rfl, rfl, rfl, rfl, rfl, rfl, rfl, rfl, rfl, ?_, ?_⟩
  · simp
  · simp [pendingKeys]
  · intro c hc; simp [Function.update_noteq hc]
  · simp
  · intro k hk; simp [Function.update_noteq hk]

/-- Witness of C10: sounds 1, 2, 3 Active and 4, 5 queued; the click on sound 4 leaves sound 5
queued and the three sounds Active. -/
theorem onPadClick_cancel_queued_witness :
    Queued threeSoundsTwoQueued (soundPad 4) ∧
    pendingKeys (onPadClick threeSoundsTwoQueued (soundPad 4) 7) Cat.sound =
      ["sounds.1.5.wav"] ∧
    playingKeys (onPadClick threeSoundsTwoQueued (soundPad 4) 7) Cat.sound =
      ["sounds.1.1.wav", "sounds.1.2.wav", "sounds.1.3.wav"] ∧
    ((onPadClick threeSoundsTwoQueued (soundPad 4) 7).pending (soundPad 4).category =
      (threeSoundsTwoQueued.pending (soundPad 4).category).filter
        (fun o => o.key != (soundPad 4).key) ∧
    (soundPad 4).key ∉ pendingKeys (onPadClick threeSoundsTwoQueued (soundPad 4) 7)
      (soundPad 4).category ∧
    (∀ c, c ≠ (soundPad 4).category →
      (onPadClick threeSoundsTwoQueued (soundPad 4) 7).pending c =
        threeSoundsTwoQueued.pending c) ∧
    (onPadClick threeSoundsTwoQueued (soundPad 4) 7).playing = threeSoundsTwoQueued.playing ∧
    (onPadClick threeSoundsTwoQueued (soundPad 4) 7).activeSources =
      threeSoundsTwoQueued.activeSources ∧
    (onPadClick threeSoundsTwoQueued (soundPad 4) 7).stopped = threeSoundsTwoQueued.stopped ∧
    (onPadClick threeSoundsTwoQueued (soundPad 4) 7).started = threeSoundsTwoQueued.started ∧
    (onPadClick threeSoundsTwoQueued (soundPad 4) 7).cycleDuration =
      threeSoundsTwoQueued.cycleDuration ∧
    (onPadClick threeSoundsTwoQueued (soundPad 4) 7).lastCycleStart =
      threeSoundsTwoQueued.lastCycleStart ∧
    (onPadClick threeSoundsTwoQueued (soundPad 4) 7).cycleTimer =
      threeSoundsTwoQueued.cycleTimer ∧
    (onPadClick threeSoundsTwoQueued (soundPad 4) 7).disabledAtNext =
      threeSoundsTwoQueued.disabledAtNext ∧
    (onPadClick threeSoundsTwoQueued (soundPad 4) 7).playingClass =
      threeSoundsTwoQueued.playingClass ∧
    (onPadClick threeSoundsTwoQueued (soundPad 4) 7).queuedClass (soundPad 4).key = false ∧
    (∀ k, k ≠ (soundPad 4).key →
      (onPadClick threeSoundsTwoQueued (soundPad 4) 7).queuedClass k =
        threeSoundsTwoQueued.queuedClass k)) :=
  ⟨Or.inr ⟨reachable_coherent threeSoundsTwoQueued_reachable, by decide, by decide⟩,
    by decide, by decide,
    onPadClick_cancel_queued threeSoundsTwoQueued (soundPad 4) 7
      (Or.inr ⟨reachable_coherent threeSoundsTwoQueued_reachable, by decide, by decide⟩)⟩

/-! ## Claims C11 and C12: `stopAll` and the effective cycle duration -/

theorem stopAll_classes (s : State) (pad : Pad) (hpad : pad ∈ grid) :
    (stopAll s).playingClass pad.key = false ∧ (stopAll s).queuedClass pad.key = false := by
  simp [stopAll, hasPad_of_mem hpad]

/-- Claim C11: from every state `stopAll` yields the silent state: the three `playing` lists and
the three `pending` queues are empty, every tracked source is stopped and `activeSources` is
empty, `lastCycleStart` is null and the poll timer is cleared; every pad of the grid is then Idle
and the next click on it takes the direct-start path. -/
theorem stopAll_silent (s : State) :
    (∀ c, (stopAll s).playing c = []) ∧
    (∀ c, (stopAll s).pending c = []) ∧
    (∀ k src, (k, src) ∈ s.activeSources → src ∈ (stopAll s).stopped) ∧
    (stopAll s).activeSources = [] ∧
    (stopAll s).lastCycleStart = none ∧
    (stopAll s).cycleTimer = false ∧
    (∀ pad, pad ∈ grid → Idle (stopAll s) pad) ∧
    (∀ pad now, pad ∈ grid → takesDirectStart (stopAll s) pad = true ∧
      onPadClick (stopAll s) pad now =
        startNewCycle (stopAll s) [Info.mk pad.key pad.category (some now)] now) := by
  refine ⟨fun _ => rfl, fun _ => rfl, ?_, rfl, rfl, rfl, ?_, ?_⟩
  · intro k src h
    have : src ∈ s.activeSources.map Prod.snd := List.mem_map.mpr ⟨(k, src), h, rfl⟩
    exact List.mem_append_right _ this
  · intro pad hpad
    obtain ⟨h1, h2⟩ := stopAll_classes s pad hpad
    exact idle_of_classes h1 h2 (by simp [playingKeys, stopAll]) (by simp [pendingKeys, stopAll])
  · intro pad now hpad
    obtain ⟨h1, h2⟩ := stopAll_classes s pad hpad
    have h3 : anyPlaying (stopAll s) = false := (anyPlaying_eq_false _).mpr (fun _ => rfl)
    exact ⟨by simp [takesDirectStart, h1, h2, h3], onPadClick_start _ pad now h1 h2 h3⟩

/-- Counterexample to C12: while `cycleDuration` is null (nothing decoded yet) the function
returns 4 at the rate 2 and at the rate 1 alike, not the half. -/
theorem effectiveCycleDuration_without_duration :
    Reachable fresh ∧ fresh.cycleDuration = none ∧
    getEffectiveCycleDuration (updateEffectParam fresh Param.playbackRate 2) = 4 ∧
    getEffectiveCycleDuration (updateEffectParam fresh Param.playbackRate 1) = 4 ∧
    getEffectiveCycleDuration (updateEffectParam fresh Param.playbackRate 2) ≠
      getEffectiveCycleDuration (updateEffectParam fresh Param.playbackRate 1) / 2 := by
  refine ⟨Reachable.init _ _, rfl, rfl, rfl, ?_⟩
  have h2 : getEffectiveCycleDuration (updateEffectParam fresh Param.playbackRate 2) = 4 := rfl
  have h1 : getEffectiveCycleDuration (updateEffectParam fresh Param.playbackRate 1) = 4 := rfl
  rw [h2, h1]
  norm_num

/-- Claim C12, amended: in every state in which `cycleDuration` is set (not null, not 0),
`getEffectiveCycleDuration` returns `cycleDuration / playbackRate` (for a rate other than 0, the
arithmetic being that of the rationals), so that setting `playbackRate` to 2 makes it exactly half
of its value at rate 1; in every state, setting `pitchShift` to any value leaves it unchanged; and
while `cycleDuration` is not set it returns 4 at every rate. -/
theorem effectiveCycleDuration_rate (s : State) :
    (∀ d, s.cycleDuration = some d → d ≠ 0 →
      (s.effectParams Param.playbackRate ≠ 0 →
        getEffectiveCycleDuration s = d / s.effectParams Param.playbackRate) ∧
      getEffectiveCycleDuration (updateEffectParam s Param.playbackRate 1) = d ∧
      getEffectiveCycleDuration (updateEffectParam s Param.playbackRate 2) = d / 2 ∧
      getEffectiveCycleDuration (updateEffectParam s Param.playbackRate 2) =
        getEffectiveCycleDuration (updateEffectParam s Param.playbackRate 1) / 2) ∧
    (∀ v, getEffectiveCycleDuration (updateEffectParam s Param.pitchShift v) =
      getEffectiveCycleDuration s) ∧
    (falsy s.cycleDuration = true →
      ∀ r, getEffectiveCycleDuration (updateEffectParam s Param.playbackRate r) = 4) := by
  refine ⟨?_, ?_, ?_⟩
  · intro d hd hne
    have hf : falsy (some d) = false := falsy_some_of_ne d hne
    refine ⟨?_, ?_, ?_, ?_⟩
    · intro _
      simp [getEffectiveCycleDuration, hd, hf]
    · simp [getEffectiveCycleDuration, updateEffectParam, hd, hf]
    · simp [getEffectiveCycleDuration, updateEffectParam, hd, hf]
    · simp [getEffectiveCycleDuration, updateEffectParam, hd, hf]
  · intro v
    simp [getEffectiveCycleDuration, updateEffectParam]
  · intro hf r
    simp [getEffectiveCycleDuration, updateEffectParam, hf]

/-- Witness of C12 as amended: with `cycleDuration` 4 the value is 2 at the rate 2 and 4 at the
rate 1. -/
theorem effectiveCycleDuration_rate_witness :
    getEffectiveCycleDuration (updateEffectParam loaded Param.playbackRate 1) = 4 ∧
    getEffectiveCycleDuration (updateEffectParam loaded Param.playbackRate 2) = 4 / 2 ∧
    getEffectiveCycleDuration (updateEffectParam loaded Param.playbackRate 2) =
      getEffectiveCycleDuration (updateEffectParam loaded Param.playbackRate 1) / 2 ∧
    (∀ r, getEffectiveCycleDuration (updateEffectParam fresh Param.playbackRate r) = 4) :=
  ⟨((effectiveCycleDuration_rate loaded).1 4 rfl (by decide)).2.1,
    ((effectiveCycleDuration_rate loaded).1 4 rfl (by decide)).2.2.1,
    ((effectiveCycleDuration_rate loaded).1 4 rfl (by decide)).2.2.2,
    (effectiveCycleDuration_rate fresh).2.2 rfl⟩

/-! ## Claims C13 to C16 and C18: presets and effect parameters -/

theorem startNewCycle_effectParams (s : State) (initial : List Info) (now : ℚ) :
    (startNewCycle s initial now).effectParams = s.effectParams := by
  unfold startNewCycle launchCycleLoop
  show (scheduleCycle _ _).effectParams = _
  rw [(scheduleCycle_frame _ _).2.2.2.2.2.2.2.2.1]
  rfl

theorem applyPreset_effectParams (s : State) (p : Preset) (now : ℚ) :
    (applyPreset s p now).effectParams =
      (match p.effects with
        | some effects =>
          effects.foldl (fun (st : State) (e : Param × ℚ) => updateEffectParam st e.1 e.2) s
        | none => s).effectParams := by
  unfold applyPreset
  cases p.activePads with
  | none => rfl
  | some activePads =>
    simp only []
    split
    · rw [startNewCycle_effectParams]; rfl
    · rfl

theorem effectsFold_current (s : State) :
    ([Param.masterVolume, Param.reverbMix, Param.delayMix, Param.delayTime, Param.filterFreq,
      Param.filterQ, Param.pitchShift, Param.playbackRate].map
        fun p => (p, s.effectParams p)).foldl
      (fun (st : State) (e : Param × ℚ) => updateEffectParam st e.1 e.2) s = s := by
  simp [updateEffectParam, Function.update_eq_self]

/-- Claim C13: for every reachable state `s` (more generally, every state whose `playing` lists
are within the limits), `applyPreset(getCurrentState())` run in `s` yields a state whose
`playing` keys are, in each category, the keys of `s` in the same order, and whose `effectParams`
are those of `s`. -/
theorem preset_round_trip (s : State) (now : ℚ)
    (h : Reachable s ∨ ∀ c, (s.playing c).length ≤ limits c) :
    (∀ c, playingKeys (applyPreset s (getCurrentState s) now) c = playingKeys s c) ∧
    (applyPreset s (getCurrentState s) now).effectParams = s.effectParams := by
  have hb : ∀ c, (s.playing c).length ≤ limits c := by
    rcases h with h | h
    · exact fun c => reachable_playing_length h c
    · exact h
  constructor
  · intro c
    rw [applyPreset_playingKeys]
    show ((s.playing c).map PlayingEntry.key).take (limits c) = playingKeys s c
    rw [List.take_of_length_le (by simpa using hb c)]
    rfl
  · rw [applyPreset_effectParams]
    show ((([Param.masterVolume, Param.reverbMix, Param.delayMix, Param.delayTime,
      Param.filterFreq, Param.filterQ, Param.pitchShift, Param.playbackRate].map
        fun p => (p, s.effectParams p)).foldl
      (fun (st : State) (e : Param × ℚ) => updateEffectParam st e.1 e.2) s)).effectParams = _
    rw [effectsFold_current]

/-- Witness of C13: sounds 1, 2, 3 Active with 4 and 5 queued; the round trip keeps 1, 2, 3. -/
theorem preset_round_trip_witness :
    (Reachable threeSoundsTwoQueued ∨
      ∀ c, (threeSoundsTwoQueued.playing c).length ≤ limits c) ∧
    playingKeys (applyPreset threeSoundsTwoQueued (getCurrentState threeSoundsTwoQueued) 9)
      Cat.sound = ["sounds.1.1.wav", "sounds.1.2.wav", "sounds.1.3.wav"] ∧
    ((∀ c, playingKeys (applyPreset threeSoundsTwoQueued
        (getCurrentState threeSoundsTwoQueued) 9) c = playingKeys threeSoundsTwoQueued c) ∧
    (applyPreset threeSoundsTwoQueued (getCurrentState threeSoundsTwoQueued) 9).effectParams =
      threeSoundsTwoQueued.effectParams) :=
  ⟨Or.inl threeSoundsTwoQueued_reachable, by decide,
    preset_round_trip threeSoundsTwoQueued 9 (Or.inl threeSoundsTwoQueued_reachable)⟩

/-- Claim C14: for every preset and every starting state, after `applyPreset` the keys of
`playing[c]` are the first `limits[c]` keys of `preset.activePads[c]` in order (all of them if
there are fewer; none if the preset has no `activePads`), for each category `c`, and every
`pending` queue is empty. -/
theorem applyPreset_truncates (s : State) (p : Preset) (now : ℚ) :
    (∀ c, playingKeys (applyPreset s p now) c =
      ((p.activePads.getD (fun _ => [])) c).take (limits c)) ∧
    (∀ c activePads, p.activePads = some activePads → (activePads c).length ≤ limits c →
      playingKeys (applyPreset s p now) c = activePads c) ∧
    (∀ c, (applyPreset s p now).pending c = []) := by
  refine ⟨?_, ?_, fun c => applyPreset_pending s p now c⟩
  · intro c
    rw [applyPreset_playingKeys]
    cases p.activePads with
    | none => simp
    | some activePads => simp
  · intro c activePads hp hlen
    rw [applyPreset_playingKeys, hp]
    exact List.take_of_length_le hlen

/-- Counterexample to C15: the rate -1 is stored: `effectParams.playbackRate` was 1 and is -1
after `updateEffectParam('playbackRate', -1)`. -/
theorem updateEffectParam_stores_negative_rate :
    loaded.effectParams Param.playbackRate = 1 ∧
    (updateEffectParam loaded Param.playbackRate (-1)).effectParams Param.playbackRate = -1 ∧
    (updateEffectParam loaded Param.playbackRate (-1)).effectParams Param.playbackRate ≠
      loaded.effectParams Param.playbackRate := by
  refine ⟨rfl, by simp [updateEffectParam], ?_⟩
  simp [updateEffectParam, loaded, initialState, defaultEffectParams]
  norm_num

/-- Claim C15, amended: `updateEffectParam` validates nothing: for every state, every parameter
and every value `v` (also `v ≤ 0` for `playbackRate`), after `updateEffectParam(param, v)` the
entry `effectParams[param]` is `v`, and the other entries keep their values. -/
theorem updateEffectParam_stores (s : State) (param : Param) (v : ℚ) :
    (updateEffectParam s param v).effectParams param = v ∧
    (∀ q, q ≠ param → (updateEffectParam s param v).effectParams q = s.effectParams q) ∧
    (updateEffectParam s Param.playbackRate v).effectParams Param.playbackRate = v := by
  refine ⟨by simp [updateEffectParam], ?_, by simp [updateEffectParam]⟩
  intro q hq
  simp [updateEffectParam, Function.update_noteq hq]

/-- Claim C16: for every rate `r > 0` and every user pitch `u`, the value that
`updateEffectParam` passes to `updatePitchShifter` is `u - 12 * log2 r`, computed from the values
stored after the update, both when `playbackRate` is set to `r` (with `pitchShift` at `u`) and
when `pitchShift` is set to `u` (with `playbackRate` at `r`); so the pitch `12 * log2 r` that the
rate induces plus the value sent is `u`. The arithmetic is that of the rationals, with `log2` any
function. -/
theorem compensated_pitch (log2 : ℚ → ℚ) (s : State) (r u : ℚ) (_hr : 0 < r) :
    (s.effectParams Param.pitchShift = u →
      updateEffectParamPitch log2 s Param.playbackRate r = some (u - 12 * log2 r)) ∧
    (s.effectParams Param.playbackRate = r →
      updateEffectParamPitch log2 s Param.pitchShift u = some (u - 12 * log2 r)) ∧
    12 * log2 r + (u - 12 * log2 r) = u := by
  refine ⟨?_, ?_, by ring⟩
  · intro hu
    simp only [updateEffectParamPitch, applyCompensatedPitchShift, updateEffectParam]
    rw [Function.update_same, Function.update_noteq (by decide), hu]
    congr 1
    ring
  · intro hrate
    simp only [updateEffectParamPitch, applyCompensatedPitchShift, updateEffectParam]
    rw [Function.update_same, Function.update_noteq (by decide), hrate]
    congr 1
    ring

/-- Witness of C16: on the loaded page (pitch 0, rate 1) the rate 2 sends `0 - 12 * 1 = -12`,
and the pitch 3 sends `3 - 12 * 0 = 3`. -/
theorem compensated_pitch_witness :
    (0 : ℚ) < 2 ∧ (0 : ℚ) < 1 ∧
    updateEffectParamPitch log2OnPowers loaded Param.playbackRate 2 =
      some (0 - 12 * log2OnPowers 2) ∧
    updateEffectParamPitch log2OnPowers loaded Param.pitchShift 3 =
      some (3 - 12 * log2OnPowers 1) ∧
    log2OnPowers 2 = 1 ∧ log2OnPowers 1 = 0 :=
  ⟨by norm_num, by norm_num, (compensated_pitch log2OnPowers loaded 2 0 (by norm_num)).1 rfl,
    (compensated_pitch log2OnPowers loaded 1 3 (by norm_num)).2.1 rfl,
    by simp [log2OnPowers], by simp [log2OnPowers]⟩

/-- Claim C18: for every stored list of presets and every name that is not empty after trimming,
`saveCurrentPreset` leaves a stored list with exactly one preset of that name, the new snapshot,
in last position, and keeps every preset with another name, in the original relative order. -/
theorem saveCurrentPreset_overwrites (trim : String → String) (input : String) (name : String)
    (presets : List StoredPreset) (s : State) (dateNow : Nat)
    (hname : trim input = name) (hne : name ≠ "") :
    saveCurrentPreset trim (some input) presets s dateNow =
      presets.filter (fun p => p.name != name) ++
        [StoredPreset.mk name (getCurrentState s) dateNow] ∧
    ((saveCurrentPreset trim (some input) presets s dateNow).filter
      (fun p => p.name == name)).length = 1 ∧
    ((saveCurrentPreset trim (some input) presets s dateNow).getLast?.map
      (fun p => (p.name, p.savedAt))) = some (name, dateNow) ∧
    (saveCurrentPreset trim (some input) presets s dateNow).filter (fun p => p.name != name) =
      presets.filter (fun p => p.name != name) := by
  have heq : saveCurrentPreset trim (some input) presets s dateNow =
      presets.filter (fun p => p.name != name) ++
        [StoredPreset.mk name (getCurrentState s) dateNow] := by
    simp [saveCurrentPreset, hname, hne]
  refine ⟨heq, ?_, ?_, ?_⟩
  · rw [heq, List.filter_append, List.filter_filter]
    have : presets.filter (fun p => (p.name == name) && (p.name != name)) = [] := by
      rw [List.filter_eq_nil_iff]
      intro p _
      simp
    rw [this]
    simp
  · rw [heq]; simp
  · rw [heq, List.filter_append, List.filter_filter]
    simp

/-- Witness of C18: saving under the typed name ` live ` on the loaded page, over a stored list
with two presets of the name `live` around one named `intro`, leaves `intro` and then the new
`live`. -/
theorem saveCurrentPreset_overwrites_witness :
    trimSpaces " live " = "live" ∧ "live" ≠ "" ∧
    (saveCurrentPreset trimSpaces (some " live ") storedPresets loaded 9).map
      (fun p => (p.name, p.savedAt)) = [("intro", 2), ("live", 9)] ∧
    ((saveCurrentPreset trimSpaces (some " live ") storedPresets loaded 9).filter
      (fun p => p.name == "live")).length = 1 :=
  ⟨by decide, by decide,
    by
      rw [(saveCurrentPreset_overwrites trimSpaces " live " "live" storedPresets loaded 9
        (by decide) (by decide)).1]
      decide,
    (saveCurrentPreset_overwrites trimSpaces " live " "live" storedPresets loaded 9
      (by decide) (by decide)).2.1⟩

/-! ## Claim C20: the poll tick and the cycle clock -/

theorem stopSource_started (s : State) (k : Key) : (stopSource s k).started = s.started := by
  unfold stopSource; split <;> rfl

theorem commitEntry_started (cat : Cat) (s : State) (add : Info) :
    (commitEntry cat s add).started = s.started := by
  unfold commitEntry
  by_cases h : limits cat ≤ (s.playing cat).length
  · cases hp : s.playing cat with
    | nil =>
      have h0 : limits cat ≤ 0 := by simpa [hp] using h
      simp [hp, h0]
    | cons r rest =>
      have h1 : limits cat ≤ rest.length + 1 := by simpa [hp] using h
      by_cases hq : hasPad r.key = true <;> simp [hp, h1, hq, stopSource_started]
  · simp [h]

theorem commitFold_started (cat : Cat) (l : List Info) (s : State) :
    (l.foldl (commitEntry cat) s).started = s.started := by
  induction l generalizing s with
  | nil => rfl
  | cons x t ih => rw [List.foldl_cons, ih, commitEntry_started]

theorem commitCat_started (s : State) (cat : Cat) : (commitCat s cat).started = s.started := by
  unfold commitCat
  by_cases h : (s.pending cat).length = 0
  · simp [h]
  · simp [h, commitFold_started]

theorem commitCats_started (s : State) : (cats.foldl commitCat s).started = s.started := by
  simp [cats, commitCat_started]

theorem scheduleEntry_started (startTime : ℚ) (cat : Cat) (s : State) (obj : PlayingEntry) :
    ∃ l, (scheduleEntry startTime cat s obj).1.started = s.started ++ l ∧
      ∀ cmd ∈ l, cmd.startTime = startTime := by
  unfold scheduleEntry
  split
  · exact ⟨[], by simp, by simp⟩
  · split
    · exact ⟨[], by simp, by simp⟩
    · exact ⟨[_], rfl, by simp⟩

theorem scheduleList_started (startTime : ℚ) (cat : Cat) (l : List PlayingEntry) (s : State) :
    ∃ cmds, (scheduleList startTime cat s l).1.started = s.started ++ cmds ∧
      ∀ cmd ∈ cmds, cmd.startTime = startTime := by
  induction l generalizing s with
  | nil => exact ⟨[], by simp [scheduleList], by simp⟩
  | cons obj rest ih =>
    obtain ⟨l1, e1, h1⟩ := scheduleEntry_started startTime cat s obj
    obtain ⟨l2, e2, h2⟩ := ih (scheduleEntry startTime cat s obj).1
    refine ⟨l1 ++ l2, ?_, ?_⟩
    · simp only [scheduleList]
      rw [e2, e1, List.append_assoc]
    · intro cmd hcmd
      rcases List.mem_append.mp hcmd with h | h
      · exact h1 cmd h
      · exact h2 cmd h

theorem scheduleCat_started (startTime : ℚ) (s : State) (cat : Cat) :
    ∃ cmds, (scheduleCat startTime s cat).started = s.started ++ cmds ∧
      ∀ cmd ∈ cmds, cmd.startTime = startTime :=
  scheduleList_started startTime cat (s.playing cat) s

theorem scheduleCats_started (startTime : ℚ) (l : List Cat) (s : State) :
    ∃ cmds, (l.foldl (scheduleCat startTime) s).started = s.started ++ cmds ∧
      ∀ cmd ∈ cmds, cmd.startTime = startTime := by
  induction l generalizing s with
  | nil => exact ⟨[], by simp, by simp⟩
  | cons c rest ih =>
    obtain ⟨l1, e1, h1⟩ := scheduleCat_started startTime s c
    obtain ⟨l2, e2, h2⟩ := ih (scheduleCat startTime s c)
    refine ⟨l1 ++ l2, ?_, ?_⟩
    · rw [List.foldl_cons, e2, e1, List.append_assoc]
    · intro cmd hcmd
      rcases List.mem_append.mp hcmd with h | h
      · exact h1 cmd h
      · exact h2 cmd h

/-- Every source that `scheduleCycle(startTime)` starts is started at `startTime`. -/
theorem scheduleCycle_started (s : State) (startTime : ℚ) :
    ∃ cmds, (scheduleCycle s startTime).started = s.started ++ cmds ∧
      ∀ cmd ∈ cmds, cmd.startTime = startTime :=
  scheduleCats_started startTime cats s

theorem advanceCycle_started (s : State) (nextStart : ℚ) :
    ∃ cmds, (advanceCycle s nextStart).started = s.started ++ cmds ∧
      ∀ cmd ∈ cmds, cmd.startTime = nextStart := by
  unfold advanceCycle
  obtain ⟨cmds, e, h⟩ := scheduleCycle_started
    { cats.foldl commitCat
        { s with
          playing := cats.foldl
            (fun pl cat =>
              Function.update pl cat
                ((pl cat).filter (fun o => !decide (o.key ∈ s.disabledAtNext))))
            s.playing
          disabledAtNext := [] } with lastCycleStart := some nextStart } nextStart
  refine ⟨cmds, ?_, h⟩
  rw [e]
  show (cats.foldl commitCat _).started ++ cmds = _
  rw [commitCats_started]

theorem advanceCycle_clock (s : State) (nextStart : ℚ) :
    (advanceCycle s nextStart).lastCycleStart = some nextStart ∧
    (advanceCycle s nextStart).cycleDuration = s.cycleDuration ∧
    (advanceCycle s nextStart).effectParams = s.effectParams := by
  unfold advanceCycle
  obtain ⟨_, _, _, a4, a5, _, _, _, a9, _⟩ := scheduleCycle_frame
    { cats.foldl commitCat
        { s with
          playing := cats.foldl
            (fun pl cat =>
              Function.update pl cat
                ((pl cat).filter (fun o => !decide (o.key ∈ s.disabledAtNext))))
            s.playing
          disabledAtNext := [] } with lastCycleStart := some nextStart } nextStart
  obtain ⟨_, _, c3, _, c5⟩ := commitCats_frame
    { s with
      playing := cats.foldl
        (fun pl cat =>
          Function.update pl cat
            ((pl cat).filter (fun o => !decide (o.key ∈ s.disabledAtNext))))
        s.playing
      disabledAtNext := [] }
  exact ⟨a5, a4.trans c3, a9.trans c5⟩

theorem tick_of_commits (fl : ℚ → ℚ) (s : State) (now t0 : ℚ) (h0 : s.lastCycleStart = some t0)
    (h : tickCommits fl s now = true) :
    launchCycleLoopTick fl s now =
      advanceCycle s (fl (t0 + fl (getEffectiveCycleDuration s))) := by
  simp only [tickCommits, h0, Bool.and_eq_true, Bool.not_eq_true', decide_eq_true_eq] at h
  obtain ⟨hf, hge⟩ := h
  rw [← h0] at hf
  unfold launchCycleLoopTick
  rw [if_neg (by rw [hf]; simp)]
  simp only [h0]
  rw [if_pos hge]

theorem tick_of_not_commits (fl : ℚ → ℚ) (s : State) (now : ℚ)
    (h : tickCommits fl s now = false) : launchCycleLoopTick fl s now = s := by
  unfold launchCycleLoopTick
  by_cases hf : (falsy s.lastCycleStart || falsy s.cycleDuration) = true
  · simp [hf]
  · cases h0 : s.lastCycleStart with
    | none => simp [h0]
    | some t0 =>
      simp only [tickCommits, h0, Bool.and_eq_false_iff, Bool.not_eq_false',
        decide_eq_false_iff_not] at h
      rw [← h0] at h
      rcases h with h | h
      · exact absurd h hf
      · rw [h0] at hf
        simp [hf, h]

theorem getEffectiveCycleDuration_congr (s t : State) (h1 : t.cycleDuration = s.cycleDuration)
    (h2 : t.effectParams = s.effectParams) :
    getEffectiveCycleDuration t = getEffectiveCycleDuration s := by
  simp [getEffectiveCycleDuration, h1, h2]

/-- After the ticks at the times `times`, the cycle start is the first one with one effective
duration added, and the sum rounded, for each tick that committed. -/
theorem ticks_lastCycleStart (fl : ℚ → ℚ) (times : List ℚ) (s : State) (t0 : ℚ)
    (h0 : s.lastCycleStart = some t0) :
    (times.foldl (launchCycleLoopTick fl) s).lastCycleStart =
        some (Nat.iterate (fun t => fl (t + fl (getEffectiveCycleDuration s)))
          (commitCount fl s times) t0) ∧
      (times.foldl (launchCycleLoopTick fl) s).cycleDuration = s.cycleDuration ∧
      (times.foldl (launchCycleLoopTick fl) s).effectParams = s.effectParams := by
  induction times generalizing s t0 with
  | nil => simp [commitCount, h0]
  | cons now rest ih =>
    by_cases hc : tickCommits fl s now = true
    · have ht := tick_of_commits fl s now t0 h0 hc
      obtain ⟨c1, c2, c3⟩ := advanceCycle_clock s (fl (t0 + fl (getEffectiveCycleDuration s)))
      rw [← ht] at c1 c2 c3
      obtain ⟨i1, i2, i3⟩ := ih (launchCycleLoopTick fl s now) _ c1
      have he := getEffectiveCycleDuration_congr s (launchCycleLoopTick fl s now) c2 c3
      refine ⟨?_, i2.trans c2, i3.trans c3⟩
      rw [List.foldl_cons, i1, he]
      simp only [commitCount, hc, if_true]
      rw [Nat.add_comm, Function.iterate_succ_apply]
    · have hc2 : tickCommits fl s now = false := by simpa using hc
      have ht := tick_of_not_commits fl s now hc2
      obtain ⟨i1, i2, i3⟩ := ih (launchCycleLoopTick fl s now) t0 (by rw [ht]; exact h0)
      rw [ht] at i1 i2 i3
      refine ⟨?_, by rw [List.foldl_cons, ht]; exact i2, by rw [List.foldl_cons, ht]; exact i3⟩
      rw [List.foldl_cons, ht, i1]
      simp [commitCount, hc2, ht]

/-- Sums that are not rounded add up: `n` times `q` added to `t0` is `t0 + n * q`. -/
theorem iterate_exact (fl : ℚ → ℚ) (q t0 : ℚ) (n : Nat)
    (h : ∀ k, k < n → fl (t0 + k * q + q) = t0 + k * q + q) :
    Nat.iterate (fun t => fl (t + q)) n t0 = t0 + n * q := by
  induction n with
  | zero => simp
  | succ n ih =>
    rw [Function.iterate_succ_apply', ih (fun k hk => h k (Nat.lt_succ_of_lt hk)),
      h n (Nat.lt_succ_self n)]
    push_cast
    ring

/-- Counterexample to C20: every sample lasts 8.727272727272727 seconds and sound 1 was clicked at
the audio time 7, so that the cycle starts at 7.05; the ticks at 15.7, 24.4 and 33.2 commit, and
after these three commits at the rate 1 `lastCycleStart` is the double 33.231818181818184, which is
neither the number `7.05 + 3 * 8.727272727272727` nor the double 33.23181818181818 that the
expression `t0 + 3 * cycleDuration / r` has in the arithmetic of the source. -/
theorem commits_accumulate_rounding :
    longCycle.lastCycleStart = some 7.05 ∧
    longCycle.cycleDuration = some (roundDouble 8.727272727272727) ∧
    longCycle.effectParams Param.playbackRate = 1 ∧
    commitCount roundDouble longCycle [15.7, 24.4, 33.2] = 3 ∧
    (([15.7, 24.4, 33.2] : List ℚ).foldl (launchCycleLoopTick roundDouble)
      longCycle).lastCycleStart = some (roundDouble 33.231818181818184) ∧
    roundDouble 33.231818181818184 ≠ 7.05 + 3 * roundDouble 8.727272727272727 / 1 ∧
    roundDouble (roundDouble 7.05 +
      roundDouble (roundDouble (3 * roundDouble 8.727272727272727) / 1)) =
        roundDouble 33.23181818181818 ∧
    roundDouble 33.231818181818184 ≠ roundDouble 33.23181818181818 := by
  set_option maxRecDepth 20000 in
  exact ⟨by decide!, by decide!, by decide!, by decide!, by decide!, by decide!, by decide!,
    by decide!⟩

/-- Claim C20, amended: with the arithmetic of the source (every operation rounded by `fl`), the
poll tick at audio time `now` calls `advanceCycle` iff a cycle is running (`lastCycleStart` and
`cycleDuration` are set) and `now ≥ lastCycleStart + cycleDuration / playbackRate - 0.12`; the
commit sets `lastCycleStart` to exactly that computed `lastCycleStart + cycleDuration /
playbackRate`, whatever `now` is, and every source that it starts, of every category, is started
at that one time; after the ticks at any times `times`, of which `n` commit, at the constant rate
`r`, `lastCycleStart` is `t0` with `cycleDuration / r` added `n` times, each sum rounded; that is
`t0 + n * cycleDuration / r` when none of these sums is rounded. The rate is not 0. -/
theorem tick_commits_on_the_grid (fl : ℚ → ℚ) (s : State) (r : ℚ)
    (hr : s.effectParams Param.playbackRate = r) (_hr0 : r ≠ 0) :
    (∀ now, tickCommits fl s now = true ↔
      ∃ t0 d, s.lastCycleStart = some t0 ∧ t0 ≠ 0 ∧ s.cycleDuration = some d ∧ d ≠ 0 ∧
        now ≥ fl (fl (t0 + fl (d / r)) - fl 0.12)) ∧
    (∀ now, launchCycleLoopTick fl s now =
      if tickCommits fl s now then
        advanceCycle s (fl ((s.lastCycleStart.getD 0) + fl ((s.cycleDuration.getD 0) / r)))
      else s) ∧
    (∀ now t0 d, s.lastCycleStart = some t0 → s.cycleDuration = some d →
      tickCommits fl s now = true →
      (launchCycleLoopTick fl s now).lastCycleStart = some (fl (t0 + fl (d / r))) ∧
      ∃ cmds, (launchCycleLoopTick fl s now).started = s.started ++ cmds ∧
        ∀ cmd ∈ cmds, cmd.startTime = fl (t0 + fl (d / r))) ∧
    (∀ times t0 d, s.lastCycleStart = some t0 → s.cycleDuration = some d → d ≠ 0 →
      (times.foldl (launchCycleLoopTick fl) s).lastCycleStart =
        some (Nat.iterate (fun t => fl (t + fl (d / r))) (commitCount fl s times) t0) ∧
      (times.foldl (launchCycleLoopTick fl) s).effectParams Param.playbackRate = r ∧
      ((∀ k, k < commitCount fl s times →
          fl (t0 + k * fl (d / r) + fl (d / r)) = t0 + k * fl (d / r) + fl (d / r)) →
        (times.foldl (launchCycleLoopTick fl) s).lastCycleStart =
          some (t0 + commitCount fl s times * fl (d / r)))) := by
  have heff : ∀ d, s.cycleDuration = some d → d ≠ 0 →
      getEffectiveCycleDuration s = d / r := by
    intro d hd hd0
    simp [getEffectiveCycleDuration, hd, falsy_some_of_ne d hd0, hr]
  have hrun : ∀ now, tickCommits fl s now = true →
      ∃ t0 d, s.lastCycleStart = some t0 ∧ t0 ≠ 0 ∧ s.cycleDuration = some d ∧ d ≠ 0 ∧
        now ≥ fl (fl (t0 + fl (d / r)) - fl 0.12) := by
    intro now h
    cases h0 : s.lastCycleStart with
    | none => simp [tickCommits, h0] at h
    | some t0 =>
      cases hd : s.cycleDuration with
      | none => simp [tickCommits, h0, hd, falsy] at h
      | some d =>
        simp only [tickCommits, h0, hd, falsy, Bool.and_eq_true, Bool.not_eq_true',
          Bool.or_eq_false_iff, decide_eq_false_iff_not, decide_eq_true_eq] at h
        obtain ⟨⟨ht0, hd0⟩, hge⟩ := h
        rw [heff d hd hd0] at hge
        exact ⟨t0, d, rfl, ht0, rfl, hd0, hge⟩
  have hstep : ∀ now t0 d, s.lastCycleStart = some t0 → s.cycleDuration = some d →
      tickCommits fl s now = true →
      launchCycleLoopTick fl s now = advanceCycle s (fl (t0 + fl (d / r))) := by
    intro now t0 d h0 hd hc
    obtain ⟨t1, d1, e0, _, ed, hd0, _⟩ := hrun now hc
    have e1 : d1 = d := by rw [ed] at hd; exact Option.some.inj hd
    subst e1
    rw [tick_of_commits fl s now t0 h0 hc, heff d1 hd hd0]
  refine ⟨?_, ?_, ?_, ?_⟩
  · intro now
    refine ⟨hrun now, ?_⟩
    rintro ⟨t0, d, h0, ht0, hd, hd0, hge⟩
    have he := heff d hd hd0
    simp only [tickCommits, h0, he, Bool.and_eq_true, Bool.not_eq_true', Bool.or_eq_false_iff,
      decide_eq_true_eq]
    exact ⟨⟨falsy_some_of_ne t0 ht0, by rw [hd]; exact falsy_some_of_ne d hd0⟩, hge⟩
  · intro now
    by_cases hc : tickCommits fl s now = true
    · obtain ⟨t0, d, h0, _, hd, _, _⟩ := hrun now hc
      rw [if_pos hc, hstep now t0 d h0 hd hc, h0, hd]
      rfl
    · have hc2 : tickCommits fl s now = false := by simpa using hc
      rw [if_neg hc, tick_of_not_commits fl s now hc2]
  · intro now t0 d h0 hd hc
    rw [hstep now t0 d h0 hd hc]
    exact ⟨(advanceCycle_clock s _).1, advanceCycle_started s _⟩
  · intro times t0 d h0 hd hd0
    obtain ⟨e1, _, e3⟩ := ticks_lastCycleStart fl times s t0 h0
    rw [heff d hd hd0] at e1
    refine ⟨e1, by rw [e3]; exact hr, ?_⟩
    intro hexact
    rw [e1, iterate_exact fl (fl (d / r)) t0 (commitCount fl s times) hexact]

/-- Witness of C20 as amended, in the arithmetic of the doubles: sound 1 plays from 0.05 with a
cycle of 4 seconds at the rate 1; the tick at the double 3.9299999999999997, which is the value
of `0.05 + 4 - 0.12` in the source, commits; and from a cycle that starts at 0.5 the ticks at 4.4
and 8.4 commit and leave the cycle start at `0.5 + 2 * 4`, the sums 4.5 and 8.5 being doubles. -/
theorem tick_commits_on_the_grid_witness :
    oneSound.effectParams Param.playbackRate = 1 ∧ (1 : ℚ) ≠ 0 ∧
    oneSound.lastCycleStart = some (0 + 0.05) ∧ oneSound.cycleDuration = some 4 ∧
    tickCommits roundDouble oneSound (roundDouble 3.9299999999999997) = true ∧
    (launchCycleLoopTick roundDouble oneSound (roundDouble 3.9299999999999997)).lastCycleStart =
      some (roundDouble ((0 : ℚ) + 0.05 + roundDouble (4 / 1))) ∧
    halfStart.lastCycleStart = some (0.45 + 0.05) ∧ halfStart.cycleDuration = some 4 ∧
    commitCount roundDouble halfStart [4.4, 8.4] = 2 ∧
    (([4.4, 8.4] : List ℚ).foldl (launchCycleLoopTick roundDouble) halfStart).lastCycleStart =
      some ((0.45 : ℚ) + 0.05 + (commitCount roundDouble halfStart [4.4, 8.4] : ℚ) *
        roundDouble (4 / 1)) :=
  have h1 : oneSound.lastCycleStart = some (0 + 0.05) := startNewCycle_lastCycleStart _ _ _
  have h2 : halfStart.lastCycleStart = some (0.45 + 0.05) := startNewCycle_lastCycleStart _ _ _
  have h3 : tickCommits roundDouble oneSound (roundDouble 3.9299999999999997) = true := by
    decide!
  have h4 : commitCount roundDouble halfStart [4.4, 8.4] = 2 := by decide!
  ⟨rfl, by norm_num, h1, by decide, h3,
    ((tick_commits_on_the_grid roundDouble oneSound 1 rfl (by norm_num)).2.2.1
      (roundDouble 3.9299999999999997) (0 + 0.05) 4 h1 (by decide) h3).1,
    h2, by decide, h4,
    ((tick_commits_on_the_grid roundDouble halfStart 1 rfl (by norm_num)).2.2.2 [4.4, 8.4]
      (0.45 + 0.05) 4 h2 (by decide) (by norm_num)).2.2 (by
        rw [h4]
        intro k hk
        interval_cases k <;> decide!)⟩

/-! ## Claim C19: eviction from the queue is first in, first out -/

theorem queueOrdered_of_pending_nil (t : ℚ) (s : State) (h : ∀ c, s.pending c = []) :
    QueueOrdered t s := by
  intro c
  rw [h c]
  exact ⟨List.Pairwise.nil, fun e he => by simp at he⟩

theorem queueOrdered_mono {t u : ℚ} {s : State} (h : QueueOrdered t s) (htu : t ≤ u) :
    QueueOrdered u s := by
  intro c
  refine ⟨(h c).1, fun e he => ?_⟩
  obtain ⟨x, hx, hle⟩ := (h c).2 e he
  exact ⟨x, hx, le_trans hle htu⟩

theorem queueOrdered_of_pending_eq {t : ℚ} {s u : State} (h : QueueOrdered t s)
    (he : u.pending = s.pending) : QueueOrdered t u := by
  intro c
  rw [he]
  exact h c

theorem queueOrdered_click {t : ℚ} {s : State} (h : QueueOrdered t s) (pad : Pad) (now : ℚ)
    (hnow : t ≤ now) : QueueOrdered now (onPadClick s pad now) := by
  have hmono := queueOrdered_mono h hnow
  by_cases h1 : s.playingClass pad.key = true
  · exact queueOrdered_of_pending_eq hmono (onPadClick_stop_fields s pad now h1).2.1
  · have h1 : s.playingClass pad.key = false := by simpa using h1
    by_cases h2 : s.queuedClass pad.key = true
    · rw [onPadClick_cancel s pad now h1 h2]
      intro c
      by_cases hc : c = pad.category
      · subst hc
        simp only [Function.update_same]
        refine ⟨(hmono pad.category).1.sublist (List.filter_sublist _), fun e he => ?_⟩
        exact (hmono pad.category).2 e (List.mem_of_mem_filter he)
      · simp only [Function.update_noteq hc]
        exact hmono c
    · have h2 : s.queuedClass pad.key = false := by simpa using h2
      by_cases h3 : anyPlaying s = true
      · obtain ⟨_, _, _, _, _, _, _, _, k, _, hpend, _, _, _⟩ :=
          onPadClick_enqueue s pad now h1 h2 h3
        intro c
        rw [hpend]
        by_cases hc : c = pad.category
        · subst hc
          simp only [Function.update_same]
          have hold : ∀ e ∈ (s.pending pad.category).drop k, ∃ x, e.addedAt = some x ∧ x ≤ now :=
            fun e he => (hmono pad.category).2 e (List.mem_of_mem_drop he)
          constructor
          · rw [List.pairwise_append]
            refine ⟨(h pad.category).1.sublist (List.drop_sublist _ _),
              List.pairwise_singleton _ _, ?_⟩
            intro a ha b hb
            have hb2 : b = Info.mk pad.key pad.category (some now) := by simpa using hb
            obtain ⟨x, hx, hle⟩ := hold a ha
            exact ⟨x, now, hx, by rw [hb2], hle⟩
          · intro e he
            rcases List.mem_append.mp he with he | he
            · exact hold e he
            · have he2 : e = Info.mk pad.key pad.category (some now) := by simpa using he
              exact ⟨now, by rw [he2], le_refl _⟩
        · simp only [Function.update_noteq hc]
          exact hmono c
      · have h3 : anyPlaying s = false := by simpa using h3
        rw [onPadClick_start s pad now h1 h2 h3]
        exact queueOrdered_of_pending_eq hmono (startNewCycle_pending _ _ _)

/-- With a clock that does not go back across clicks, every queue is ordered by `addedAt`. -/
theorem reachableAt_queueOrdered {t : ℚ} {s : State} (h : ReachableAt t s) :
    QueueOrdered t s := by
  induction h with
  | init buffers cycleDuration t => exact queueOrdered_of_pending_nil _ _ (fun _ => rfl)
  | click pad now _ hnow _ ih => exact queueOrdered_click ih pad now hnow
  | advance nextStart _ _ =>
    exact queueOrdered_of_pending_nil _ _ (fun c => advanceCycle_pending _ nextStart c)
  | stop _ _ => exact queueOrdered_of_pending_nil _ _ (fun _ => rfl)
  | preset p now _ _ =>
    exact queueOrdered_of_pending_nil _ _ (fun c => applyPreset_pending _ p now c)

theorem reachableAt_reachable {t : ℚ} {s : State} (h : ReachableAt t s) : Reachable s := by
  induction h with
  | init buffers cycleDuration t => exact Reachable.init _ _
  | click pad now _ _ hpad ih => exact Reachable.click pad now ih hpad
  | advance nextStart _ ih => exact Reachable.advance nextStart ih
  | stop _ ih => exact Reachable.stop ih
  | preset p now _ ih => exact Reachable.preset p now ih

/-- In an ordered list every entry is no later than the entries from its place on. -/
theorem pairwise_head_of_drop (l : List Info) (hl : l.Pairwise addedAtLe)
    (hsome : ∀ e ∈ l, ∃ x, e.addedAt = some x) (i : Nat) (d : Info) (hd : l[i]? = some d) :
    ∀ e ∈ l.drop i, addedAtLe d e := by
  have hi : i < l.length := by
    by_contra hn
    rw [List.getElem?_eq_none (by omega)] at hd
    exact absurd hd (by simp)
  have hget : l[i] = d := by
    rw [List.getElem?_eq_getElem hi] at hd
    exact Option.some.inj hd
  have hdrop : l.drop i = d :: l.drop (i + 1) := by
    rw [← hget]
    exact List.drop_eq_getElem_cons hi
  have hp : (l.drop i).Pairwise addedAtLe := hl.sublist (List.drop_sublist _ _)
  rw [hdrop] at hp ⊢
  intro e he
  rcases List.mem_cons.mp he with h | h
  · subst h
    obtain ⟨x, hx⟩ := hsome e (by rw [← hget]; exact List.getElem_mem _)
    exact ⟨x, x, hx, hx, le_refl _⟩
  · exact (List.pairwise_cons.mp hp).1 e h

/-- Claim C19: when the audio clock does not go back across clicks, `pending[c]` is always
ordered by `addedAt`, and a click that evicts from `pending[c]` (a click on an Idle pad while
something is Active) shifts `k` entries off its front: the `i`-th of them has the least `addedAt`
among the entries of the queue at the moment it is shifted (the entries from place `i` on); and
the click leaves every `playing` list unchanged. -/
theorem eviction_is_fifo (t : ℚ) (s : State) (hs : ReachableAt t s) (pad : Pad) (now : ℚ)
    (hnow : t ≤ now) (hidle : Idle s pad) (hactive : SomethingActive s) :
    (∀ c, (s.pending c).Pairwise addedAtLe) ∧
    (∀ c, ((onPadClick s pad now).pending c).Pairwise addedAtLe) ∧
    (onPadClick s pad now).playing = s.playing ∧
    ∃ k, k ≤ (s.pending pad.category).length ∧
      (onPadClick s pad now).pending pad.category =
        (s.pending pad.category).drop k ++ [Info.mk pad.key pad.category (some now)] ∧
      ∀ i d, i < k → (s.pending pad.category)[i]? = some d →
        ∀ e ∈ (s.pending pad.category).drop i, addedAtLe d e := by
  have ho := reachableAt_queueOrdered hs
  have ho2 := queueOrdered_click ho pad now hnow
  obtain ⟨h1, h2⟩ := idle_classes hidle
  have h3 := somethingActive_anyPlaying hactive
  obtain ⟨hpl, _, _, _, _, _, _, _, k, hk, hpend, _, _, _⟩ := onPadClick_enqueue s pad now h1 h2 h3
  refine ⟨fun c => (ho c).1, fun c => (ho2 c).1, hpl, k, hk, ?_, ?_⟩
  · rw [hpend, Function.update_same]
  · intro i d _ hd
    exact pairwise_head_of_drop _ (ho pad.category).1
      (fun e he => by obtain ⟨x, hx, _⟩ := (ho pad.category).2 e he; exact ⟨x, hx⟩) i d hd

theorem threeSoundsThreeQueued_reachableAt : ReachableAt 7 threeSoundsThreeQueued :=
  ReachableAt.click (soundPad 6) 7 (ReachableAt.click (soundPad 5) 6
    (ReachableAt.click (soundPad 4) 5 (ReachableAt.advance 4
      (ReachableAt.click (soundPad 3) 2 (ReachableAt.click (soundPad 2) 1
        (ReachableAt.click (soundPad 1) 0 (ReachableAt.init _ _ 0) (le_refl _) (by decide))
        (by norm_num) (by decide)) (by norm_num) (by decide)))
      (by norm_num) (by decide)) (by norm_num) (by decide)) (by norm_num) (by decide)

/-- Witness of C19: sounds 4, 5, 6 were queued at the times 5, 6, 7 behind three Active sounds;
the click on sound 7 at the time 8 evicts sound 4, the oldest. -/
theorem eviction_is_fifo_witness :
    ReachableAt 7 threeSoundsThreeQueued ∧ (7 : ℚ) ≤ 8 ∧
    Idle threeSoundsThreeQueued (soundPad 7) ∧ SomethingActive threeSoundsThreeQueued ∧
    (threeSoundsThreeQueued.pending Cat.sound).map Info.addedAt = [some 5, some 6, some 7] ∧
    pendingKeys (onPadClick threeSoundsThreeQueued (soundPad 7) 8) Cat.sound =
      ["sounds.1.5.wav", "sounds.1.6.wav", "sounds.1.7.wav"] ∧
    ((∀ c, (threeSoundsThreeQueued.pending c).Pairwise addedAtLe) ∧
    (∀ c, ((onPadClick threeSoundsThreeQueued (soundPad 7) 8).pending c).Pairwise addedAtLe) ∧
    (onPadClick threeSoundsThreeQueued (soundPad 7) 8).playing =
      threeSoundsThreeQueued.playing ∧
    ∃ k, k ≤ (threeSoundsThreeQueued.pending (soundPad 7).category).length ∧
      (onPadClick threeSoundsThreeQueued (soundPad 7) 8).pending (soundPad 7).category =
        (threeSoundsThreeQueued.pending (soundPad 7).category).drop k ++
          [Info.mk (soundPad 7).key (soundPad 7).category (some 8)] ∧
      ∀ i d, i < k → (threeSoundsThreeQueued.pending (soundPad 7).category)[i]? = some d →
        ∀ e ∈ (threeSoundsThreeQueued.pending (soundPad 7).category).drop i, addedAtLe d e) :=
  ⟨threeSoundsThreeQueued_reachableAt, by norm_num,
    idle_of_classes (by decide) (by decide) (by decide) (by decide), Or.inl (by decide),
    by decide, by decide,
    eviction_is_fifo 7 threeSoundsThreeQueued threeSoundsThreeQueued_reachableAt (soundPad 7) 8
      (by norm_num) (idle_of_classes (by decide) (by decide) (by decide) (by decide))
      (Or.inl (by decide))⟩

/-! ## Claim C17: the slots do not depend on the buffers -/

theorem keys_filter_ne (l : List PlayingEntry) (k : Key) :
    (l.filter (fun o => o.key != k)).map PlayingEntry.key =
      (l.map PlayingEntry.key).filter (fun x => x != k) := by
  induction l with
  | nil => rfl
  | cons o rest ih =>
    by_cases h : o.key = k
    · simp [List.filter_cons, h, ih]
    · simp [List.filter_cons, h, ih]

theorem keys_filter_disabled (l : List PlayingEntry) (d : List Key) :
    (l.filter (fun o => !decide (o.key ∈ d))).map PlayingEntry.key =
      (l.map PlayingEntry.key).filter (fun x => !decide (x ∈ d)) := by
  induction l with
  | nil => rfl
  | cons o rest ih =>
    by_cases h : o.key ∈ d
    · simp [List.filter_cons, h, ih]
    · simp [List.filter_cons, h, ih]

theorem updatePadClasses_playingClass_keys (s : State) (k : Key) :
    (updatePadClasses s).playingClass k =
      if hasPad k then
        decide (k ∈
          (playingKeys s Cat.drum).filter (fun x => !decide (x ∈ s.disabledAtNext)) ++
          (playingKeys s Cat.bass).filter (fun x => !decide (x ∈ s.disabledAtNext)) ++
          (playingKeys s Cat.sound).filter (fun x => !decide (x ∈ s.disabledAtNext)))
      else s.playingClass k := by
  simp only [playingKeys, ← keys_filter_disabled]
  simp [updatePadClasses, cats]

theorem scheduleCycle_playingClass_keys (s : State) (startTime : ℚ) (k : Key) :
    (scheduleCycle s startTime).playingClass k =
      if hasPad k then
        decide (k ∈
          (playingKeys s Cat.drum).filter (fun x => !decide (x ∈ s.disabledAtNext)) ++
          (playingKeys s Cat.bass).filter (fun x => !decide (x ∈ s.disabledAtNext)) ++
          (playingKeys s Cat.sound).filter (fun x => !decide (x ∈ s.disabledAtNext)))
      else s.playingClass k := by
  obtain ⟨_, _, a3, _, _, _, _, a8, _, _, a11⟩ := scheduleCats_frame startTime cats s
  unfold scheduleCycle
  rw [updatePadClasses_playingClass_keys, a3, a8, a11, a11, a11]

theorem scheduleCycle_agree {s t : State} (h : SlotsAgree s t) (startTime : ℚ) :
    SlotsAgree (scheduleCycle s startTime) (scheduleCycle t startTime) := by
  obtain ⟨_, s2, s3, _, s5, s6, _, s8, s9, _⟩ := scheduleCycle_frame s startTime
  obtain ⟨_, t2, t3, _, t5, t6, _, t8, t9, _⟩ := scheduleCycle_frame t startTime
  refine ⟨?_, ?_, ?_, ?_, ?_, ?_, ?_, ?_⟩
  · intro c
    rw [scheduleCycle_playingKeys, scheduleCycle_playingKeys, h.keys]
  · rw [t2, s2, h.pending]
  · rw [t3, s3, h.disabled]
  · funext k
    rw [scheduleCycle_playingClass_keys, scheduleCycle_playingClass_keys, h.keys, h.keys,
      h.keys, h.disabled, h.playingClass]
  · rw [t8, s8, h.queuedClass]
  · rw [t5, s5, h.lastCycleStart]
  · rw [t6, s6, h.cycleTimer]
  · rw [t9, s9, h.effectParams]

theorem startNewCycle_agree {s t : State} (h : SlotsAgree s t) (initial : List Info) (now : ℚ) :
    SlotsAgree (startNewCycle s initial now) (startNewCycle t initial now) := by
  have key : ∀ (u v : State), SlotsAgree u v →
      SlotsAgree (launchCycleLoop (scheduleCycle (replaceCycleSets u initial) (now + 0.05)))
        (launchCycleLoop (scheduleCycle (replaceCycleSets v initial) (now + 0.05))) := by
    intro u v huv
    have h1 : SlotsAgree (replaceCycleSets u initial) (replaceCycleSets v initial) :=
      ⟨fun c => by simp only [playingKeys, replaceCycleSets_playing], huv.pending, huv.disabled,
        huv.playingClass, huv.queuedClass, huv.lastCycleStart, huv.cycleTimer, huv.effectParams⟩
    have h2 := scheduleCycle_agree h1 (now + 0.05)
    exact ⟨h2.keys, h2.pending, h2.disabled, h2.playingClass, h2.queuedClass,
      h2.lastCycleStart, rfl, h2.effectParams⟩
  unfold startNewCycle
  apply key
  exact ⟨h.keys, h.pending, h.disabled, h.playingClass, h.queuedClass, rfl, h.cycleTimer,
    h.effectParams⟩

theorem stopAll_agree {s t : State} (h : SlotsAgree s t) : SlotsAgree (stopAll s) (stopAll t) :=
  ⟨fun _ => rfl, rfl, rfl, by simp only [stopAll, h.playingClass],
    by simp only [stopAll, h.queuedClass], rfl, rfl, h.effectParams⟩

theorem agree_length {s t : State} (h : SlotsAgree s t) (c : Cat) :
    (t.playing c).length = (s.playing c).length := by
  rw [playing_length, playing_length, h.keys]

theorem anyPlaying_agree {s t : State} (h : SlotsAgree s t) : anyPlaying t = anyPlaying s := by
  simp only [anyPlaying, agree_length h]

theorem onPadClick_enqueue_congr (s t : State) (pad : Pad) (now : ℚ)
    (hp : t.pending = s.pending) (hq : t.queuedClass = s.queuedClass)
    (hl : (t.playing pad.category).length = (s.playing pad.category).length)
    (h1 : s.playingClass pad.key = false) (h2 : s.queuedClass pad.key = false)
    (h3 : anyPlaying s = true) (k1 : t.playingClass pad.key = false)
    (k3 : anyPlaying t = true) :
    (onPadClick t pad now).pending = (onPadClick s pad now).pending ∧
    (onPadClick t pad now).queuedClass = (onPadClick s pad now).queuedClass ∧
    (onPadClick t pad now).cycleTimer = t.cycleTimer ∧
    (onPadClick s pad now).cycleTimer = s.cycleTimer ∧
    (onPadClick t pad now).effectParams = t.effectParams ∧
    (onPadClick s pad now).effectParams = s.effectParams := by
  have k2 : t.queuedClass pad.key = false := by rw [hq]; exact h2
  by_cases hfull : limits pad.category ≤ (s.playing pad.category).length
  · simp [onPadClick, h1, h2, h3, k1, k2, k3, hp, hq, hl, hfull]
  · by_cases htot : limits pad.category ≤
        (s.playing pad.category).length + (s.pending pad.category).length
    · simp [onPadClick, h1, h2, h3, k1, k2, k3, hp, hq, hl, hfull, htot]
    · simp [onPadClick, h1, h2, h3, k1, k2, k3, hp, hq, hl, hfull, htot]

theorem commitEntry_keys (cat : Cat) (s : State) (add : Info) (c : Cat) :
    playingKeys (commitEntry cat s add) c =
      if c = cat then
        (if limits cat ≤ (playingKeys s cat).length then (playingKeys s cat).tail
         else playingKeys s cat) ++ [add.key]
      else playingKeys s c := by
  simp only [playingKeys, commitEntry_playing, List.length_map]
  by_cases hc : c = cat
  · subst hc
    simp only [Function.update_same, if_true]
    by_cases h : limits c ≤ (s.playing c).length
    · simp [h, List.map_tail]
    · simp [h]
  · simp [hc, Function.update_noteq hc]

theorem commitEntry_classes_keys (cat : Cat) (s : State) (add : Info) :
    (commitEntry cat s add).playingClass =
      (if limits cat ≤ (playingKeys s cat).length then
        match (playingKeys s cat).head? with
        | some rk => if hasPad rk then Function.update s.playingClass rk false else s.playingClass
        | none => s.playingClass
       else s.playingClass) ∧
    (commitEntry cat s add).queuedClass =
      removeQueuedClass
        (if limits cat ≤ (playingKeys s cat).length then
          match (playingKeys s cat).head? with
          | some rk => if hasPad rk then Function.update s.queuedClass rk false else s.queuedClass
          | none => s.queuedClass
         else s.queuedClass) add.key ∧
    (commitEntry cat s add).cycleTimer = s.cycleTimer := by
  unfold commitEntry
  simp only [playingKeys, List.length_map]
  by_cases h : limits cat ≤ (s.playing cat).length
  · cases hp : s.playing cat with
    | nil =>
      have h0 : limits cat ≤ 0 := by simpa [hp] using h
      simp [hp, h0]
    | cons r rest =>
      have h1 : limits cat ≤ rest.length + 1 := by simpa [hp] using h
      by_cases hq : hasPad r.key = true <;> simp [hp, h1, hq]
  · simp [h]

theorem commitEntry_agree {s t : State} (h : SlotsAgree s t) (cat : Cat) (add : Info) :
    SlotsAgree (commitEntry cat s add) (commitEntry cat t add) := by
  obtain ⟨s1, _, s3, _, s5, s6⟩ := commitEntry_frame cat s add
  obtain ⟨t1, _, t3, _, t5, t6⟩ := commitEntry_frame cat t add
  obtain ⟨sp, sq, st⟩ := commitEntry_classes_keys cat s add
  obtain ⟨tp, tq, tt⟩ := commitEntry_classes_keys cat t add
  refine ⟨?_, ?_, ?_, ?_, ?_, ?_, ?_, ?_⟩
  · intro c
    rw [commitEntry_keys, commitEntry_keys, h.keys, h.keys]
  · rw [t1, s1, h.pending]
  · rw [t3, s3, h.disabled]
  · rw [tp, sp, h.keys, h.playingClass]
  · rw [tq, sq, h.keys, h.queuedClass]
  · rw [t5, s5, h.lastCycleStart]
  · rw [tt, st, h.cycleTimer]
  · rw [t6, s6, h.effectParams]

theorem commitFold_agree (cat : Cat) (l : List Info) {s t : State} (h : SlotsAgree s t) :
    SlotsAgree (l.foldl (commitEntry cat) s) (l.foldl (commitEntry cat) t) := by
  induction l generalizing s t with
  | nil => exact h
  | cons x rest ih => exact ih (commitEntry_agree h cat x)

theorem commitCat_agree {s t : State} (h : SlotsAgree s t) (cat : Cat) :
    SlotsAgree (commitCat s cat) (commitCat t cat) := by
  unfold commitCat
  rw [h.pending]
  by_cases h0 : (s.pending cat).length = 0
  · simp only [h0, if_true]; exact h
  · simp only [h0, if_false]
    have h2 := commitFold_agree cat (s.pending cat) h
    exact ⟨h2.keys, by simp only [h2.pending], h2.disabled, h2.playingClass, h2.queuedClass,
      h2.lastCycleStart, h2.cycleTimer, h2.effectParams⟩

theorem commitCats_agree {s t : State} (h : SlotsAgree s t) :
    SlotsAgree (cats.foldl commitCat s) (cats.foldl commitCat t) := by
  simp only [cats, List.foldl_cons, List.foldl_nil]
  exact commitCat_agree (commitCat_agree (commitCat_agree h Cat.drum) Cat.bass) Cat.sound

theorem commit_schedule_agree {u v : State} (huv : SlotsAgree u v) (nextStart : ℚ) :
    SlotsAgree
      (scheduleCycle { cats.foldl commitCat u with lastCycleStart := some nextStart } nextStart)
      (scheduleCycle { cats.foldl commitCat v with lastCycleStart := some nextStart }
        nextStart) := by
  have h2 := commitCats_agree huv
  have h3 : SlotsAgree
      ({ cats.foldl commitCat u with lastCycleStart := some nextStart } : State)
      ({ cats.foldl commitCat v with lastCycleStart := some nextStart } : State) :=
    ⟨h2.keys, h2.pending, h2.disabled, h2.playingClass, h2.queuedClass, rfl, h2.cycleTimer,
      h2.effectParams⟩
  exact scheduleCycle_agree h3 nextStart

theorem filterDisabled_agree {s t : State} (h : SlotsAgree s t) :
    SlotsAgree
      ({ s with
        playing := cats.foldl
          (fun pl cat =>
            Function.update pl cat
              ((pl cat).filter (fun o => !decide (o.key ∈ s.disabledAtNext))))
          s.playing
        disabledAtNext := [] } : State)
      ({ t with
        playing := cats.foldl
          (fun pl cat =>
            Function.update pl cat
              ((pl cat).filter (fun o => !decide (o.key ∈ t.disabledAtNext))))
          t.playing
        disabledAtNext := [] } : State) := by
  refine ⟨?_, h.pending, rfl, h.playingClass, h.queuedClass, h.lastCycleStart, h.cycleTimer,
    h.effectParams⟩
  intro c
  simp only [playingKeys, filterCats_playing, keys_filter_disabled]
  have := h.keys c
  simp only [playingKeys] at this
  rw [this, h.disabled]

theorem advanceCycle_agree {s t : State} (h : SlotsAgree s t) (nextStart : ℚ) :
    SlotsAgree (advanceCycle s nextStart) (advanceCycle t nextStart) := by
  unfold advanceCycle
  exact commit_schedule_agree (filterDisabled_agree h) nextStart

theorem onPadClick_agree {s t : State} (h : SlotsAgree s t) (pad : Pad) (now : ℚ) :
    SlotsAgree (onPadClick s pad now) (onPadClick t pad now) := by
  by_cases h1 : s.playingClass pad.key = true
  · have k1 : t.playingClass pad.key = true := by rw [h.playingClass]; exact h1
    obtain ⟨a1, a2, a3, a4, a5⟩ := onPadClick_stop_fields s pad now h1
    obtain ⟨b1, b2, b3, b4, b5⟩ := onPadClick_stop_fields t pad now k1
    refine ⟨?_, ?_, ?_, ?_, ?_, ?_, ?_, ?_⟩
    · intro c
      simp only [playingKeys, a1, b1]
      by_cases hc : c = pad.category
      · subst hc
        simp only [Function.update_same, keys_filter_ne]
        have := h.keys pad.category
        simp only [playingKeys] at this
        rw [this]
      · simp only [Function.update_noteq hc]
        exact h.keys c
    · rw [b2, a2, h.pending]
    · rw [b3, a3, h.disabled]
    · rw [b4, a4, h.playingClass]
    · rw [b5, a5, h.queuedClass]
    · rw [onPadClick_stop s pad now h1, onPadClick_stop t pad now k1]
      simp [h.lastCycleStart]
    · rw [onPadClick_stop s pad now h1, onPadClick_stop t pad now k1]
      simp [h.cycleTimer]
    · rw [onPadClick_stop s pad now h1, onPadClick_stop t pad now k1]
      simp [h.effectParams]
  · have h1 : s.playingClass pad.key = false := by simpa using h1
    have k1 : t.playingClass pad.key = false := by rw [h.playingClass]; exact h1
    by_cases h2 : s.queuedClass pad.key = true
    · have k2 : t.queuedClass pad.key = true := by rw [h.queuedClass]; exact h2
      rw [onPadClick_cancel s pad now h1 h2, onPadClick_cancel t pad now k1 k2]
      exact ⟨h.keys, by simp only [h.pending], h.disabled, h.playingClass,
        by simp only [h.queuedClass], h.lastCycleStart, h.cycleTimer, h.effectParams⟩
    · have h2 : s.queuedClass pad.key = false := by simpa using h2
      have k2 : t.queuedClass pad.key = false := by rw [h.queuedClass]; exact h2
      by_cases h3 : anyPlaying s = true
      · have k3 : anyPlaying t = true := by rw [anyPlaying_agree h]; exact h3
        obtain ⟨a1, _, a3, _, a5, _, _, a8, _⟩ := onPadClick_enqueue s pad now h1 h2 h3
        obtain ⟨b1, _, b3, _, b5, _, _, b8, _⟩ := onPadClick_enqueue t pad now k1 k2 k3
        obtain ⟨c1, c2, c3, c4, c5, c6⟩ := onPadClick_enqueue_congr s t pad now h.pending
          h.queuedClass (agree_length h pad.category) h1 h2 h3 k1 k3
        refine ⟨?_, c1, ?_, ?_, c2, ?_, ?_, ?_⟩
        · intro c
          simp only [playingKeys, a1, b1]
          exact h.keys c
        · rw [b3, a3, h.disabled]
        · rw [b8, a8, h.playingClass]
        · rw [b5, a5, h.lastCycleStart]
        · rw [c3, c4, h.cycleTimer]
        · rw [c5, c6, h.effectParams]
      · have h3 : anyPlaying s = false := by simpa using h3
        have k3 : anyPlaying t = false := by rw [anyPlaying_agree h]; exact h3
        rw [onPadClick_start s pad now h1 h2 h3, onPadClick_start t pad now k1 k2 k3]
        exact startNewCycle_agree h _ now

theorem step_agree {s t : State} (h : SlotsAgree s t) (e : Event) :
    SlotsAgree (step s e) (step t e) := by
  cases e with
  | click pad now => exact onPadClick_agree h pad now
  | advance nextStart => exact advanceCycle_agree h nextStart
  | stopAll => exact stopAll_agree h

theorem run_agree (events : List Event) {s t : State} (h : SlotsAgree s t) :
    SlotsAgree (run s events) (run t events) := by
  induction events generalizing s t with
  | nil => exact h
  | cons e rest ih => exact ih (step_agree h e)

theorem onPadClick_cycleDuration_of_set (s : State) (pad : Pad) (now : ℚ)
    (h : falsy s.cycleDuration = false) :
    (onPadClick s pad now).cycleDuration = s.cycleDuration := by
  by_cases h1 : s.playingClass pad.key = true
  · rw [onPadClick_stop s pad now h1]
    simp
  · have h1 : s.playingClass pad.key = false := by simpa using h1
    by_cases h2 : s.queuedClass pad.key = true
    · rw [onPadClick_cancel s pad now h1 h2]
    · have h2 : s.queuedClass pad.key = false := by simpa using h2
      by_cases h3 : anyPlaying s = true
      · exact (onPadClick_enqueue s pad now h1 h2 h3).2.2.2.1
      · have h3 : anyPlaying s = false := by simpa using h3
        rw [onPadClick_start s pad now h1 h2 h3, startNewCycle_cycleDuration, h]
        simp

theorem step_cycleDuration_of_set (s : State) (e : Event) (h : falsy s.cycleDuration = false) :
    (step s e).cycleDuration = s.cycleDuration := by
  cases e with
  | click pad now => exact onPadClick_cycleDuration_of_set s pad now h
  | advance nextStart => exact (advanceCycle_clock s nextStart).2.1
  | stopAll => rfl

theorem run_cycleDuration_of_set (events : List Event) (s : State)
    (h : falsy s.cycleDuration = false) : (run s events).cycleDuration = s.cycleDuration := by
  induction events generalizing s with
  | nil => rfl
  | cons e rest ih =>
    have h1 := step_cycleDuration_of_set s e h
    show (run (step s e) rest).cycleDuration = _
    rw [ih (step s e) (by rw [h1]; exact h), h1]


/-! ## Claim C21: `scheduleCycle` twice -/

theorem setSource_keys_of_mem (l : List (Key × Nat)) (k : Key) (src : Nat)
    (h : k ∈ l.map Prod.fst) : (setSource l k src).map Prod.fst = l.map Prod.fst := by
  have hany : l.any (fun e => e.1 == k) = true := by
    obtain ⟨e, he, hk⟩ := List.mem_map.mp h
    exact List.any_eq_true.mpr ⟨e, he, by simp [hk]⟩
  simp only [setSource, hany, if_true, List.map_map]
  apply List.map_congr_left
  intro e _
  by_cases hek : e.1 = k
  · simp [hek]
  · simp [hek]

theorem setSource_mem_keys (l : List (Key × Nat)) (k : Key) (src : Nat) (x : Key) :
    x ∈ (setSource l k src).map Prod.fst ↔ x ∈ l.map Prod.fst ∨ x = k := by
  by_cases h : k ∈ l.map Prod.fst
  · rw [setSource_keys_of_mem l k src h]
    constructor
    · exact Or.inl
    · rintro (hx | hx)
      · exact hx
      · rw [hx]; exact h
  · have hany : l.any (fun e => e.1 == k) = false := by
      rw [Bool.eq_false_iff]
      intro ht
      obtain ⟨e, he, hk⟩ := List.any_eq_true.mp ht
      exact h (List.mem_map.mpr ⟨e, he, by simpa using hk⟩)
    simp [setSource, hany]

theorem scheduleEntry_trackedKeys (startTime : ℚ) (cat : Cat) (s : State) (obj : PlayingEntry) :
    trackedKeys (scheduleEntry startTime cat s obj).1 =
      if obj.key ∈ s.disabledAtNext ∨ s.buffers obj.key = none then trackedKeys s
      else (setSource s.activeSources obj.key s.nextSource).map Prod.fst := by
  unfold scheduleEntry
  by_cases hd : obj.key ∈ s.disabledAtNext
  · simp [hd]
  · cases hb : s.buffers obj.key with
    | none => simp [hd]
    | some d => simp [hd, trackedKeys]

theorem scheduleEntry_sources (startTime : ℚ) (cat : Cat) (s : State) (obj : PlayingEntry) :
    (∀ x, x ∈ trackedKeys (scheduleEntry startTime cat s obj).1 ↔
      x ∈ trackedKeys s ∨
        (x = obj.key ∧ x ∉ s.disabledAtNext ∧ s.buffers x ≠ none)) ∧
    ((obj.key ∉ s.disabledAtNext → s.buffers obj.key ≠ none → obj.key ∈ trackedKeys s) →
      trackedKeys (scheduleEntry startTime cat s obj).1 = trackedKeys s) := by
  rw [scheduleEntry_trackedKeys]
  by_cases hc : obj.key ∈ s.disabledAtNext ∨ s.buffers obj.key = none
  · rw [if_pos hc]
    refine ⟨fun x => ?_, fun _ => rfl⟩
    constructor
    · exact Or.inl
    · rintro (h | ⟨h1, h2, h3⟩)
      · exact h
      · rw [h1] at h2 h3
        rcases hc with hc | hc
        · exact absurd hc h2
        · exact absurd hc h3
  · rw [if_neg hc]
    have hd : obj.key ∉ s.disabledAtNext := fun h => hc (Or.inl h)
    have hb : s.buffers obj.key ≠ none := fun h => hc (Or.inr h)
    refine ⟨fun x => ?_, fun h => ?_⟩
    · rw [setSource_mem_keys]
      constructor
      · rintro (h | h)
        · exact Or.inl h
        · refine Or.inr ⟨h, ?_, ?_⟩
          · rw [h]; exact hd
          · rw [h]; exact hb
      · rintro (h | ⟨h, -, -⟩)
        · exact Or.inl h
        · exact Or.inr h
    · exact setSource_keys_of_mem _ _ _ (h hd hb)

theorem scheduleList_sources (startTime : ℚ) (cat : Cat) (l : List PlayingEntry) (s : State) :
    (∀ x, x ∈ trackedKeys (scheduleList startTime cat s l).1 ↔
      x ∈ trackedKeys s ∨
        (x ∈ l.map PlayingEntry.key ∧ x ∉ s.disabledAtNext ∧ s.buffers x ≠ none)) ∧
    ((∀ x ∈ l.map PlayingEntry.key, x ∉ s.disabledAtNext → s.buffers x ≠ none →
        x ∈ trackedKeys s) →
      trackedKeys (scheduleList startTime cat s l).1 = trackedKeys s) := by
  induction l generalizing s with
  | nil =>
    refine ⟨fun x => ?_, fun _ => rfl⟩
    simp [scheduleList]
  | cons obj rest ih =>
    obtain ⟨⟨b1, -, b3, -⟩, -, -⟩ := scheduleEntry_frame startTime cat s obj
    obtain ⟨e1, e2⟩ := scheduleEntry_sources startTime cat s obj
    obtain ⟨r1, r2⟩ := ih (scheduleEntry startTime cat s obj).1
    rw [b1, b3] at r1 r2
    constructor
    · intro x
      show x ∈ trackedKeys (scheduleList startTime cat (scheduleEntry startTime cat s obj).1
        rest).1 ↔ _
      rw [r1, e1]
      simp only [List.map_cons, List.mem_cons]
      tauto
    · intro h
      show trackedKeys (scheduleList startTime cat (scheduleEntry startTime cat s obj).1
        rest).1 = _
      have h1 := e2 (h obj.key (by simp))
      rw [r2, h1]
      intro x hx hxd hxb
      rw [h1]
      exact h x (by simp [hx]) hxd hxb

theorem scheduleCat_sources (startTime : ℚ) (s : State) (cat : Cat) :
    (∀ x, x ∈ trackedKeys (scheduleCat startTime s cat) ↔
      x ∈ trackedKeys s ∨
        (x ∈ playingKeys s cat ∧ x ∉ s.disabledAtNext ∧ s.buffers x ≠ none)) ∧
    ((∀ x ∈ playingKeys s cat, x ∉ s.disabledAtNext → s.buffers x ≠ none →
        x ∈ trackedKeys s) →
      trackedKeys (scheduleCat startTime s cat) = trackedKeys s) :=
  scheduleList_sources startTime cat (s.playing cat) s

theorem scheduleCats_sources (startTime : ℚ) (l : List Cat) (s : State) :
    (∀ x, x ∈ trackedKeys (l.foldl (scheduleCat startTime) s) ↔
      x ∈ trackedKeys s ∨
        ((∃ c ∈ l, x ∈ playingKeys s c) ∧ x ∉ s.disabledAtNext ∧ s.buffers x ≠ none)) ∧
    ((∀ c ∈ l, ∀ x ∈ playingKeys s c, x ∉ s.disabledAtNext → s.buffers x ≠ none →
        x ∈ trackedKeys s) →
      trackedKeys (l.foldl (scheduleCat startTime) s) = trackedKeys s) := by
  induction l generalizing s with
  | nil =>
    refine ⟨fun x => ?_, fun _ => rfl⟩
    simp
  | cons c rest ih =>
    obtain ⟨b1, -, b3, -, -, -, -, -, -, -, b11⟩ := scheduleCat_frame startTime s c
    obtain ⟨e1, e2⟩ := scheduleCat_sources startTime s c
    obtain ⟨r1, r2⟩ := ih (scheduleCat startTime s c)
    rw [b1, b3] at r1 r2
    constructor
    · intro x
      show x ∈ trackedKeys (rest.foldl (scheduleCat startTime) (scheduleCat startTime s c)) ↔ _
      rw [r1, e1]
      simp only [b11, List.mem_cons, exists_eq_or_imp]
      tauto
    · intro h
      show trackedKeys (rest.foldl (scheduleCat startTime) (scheduleCat startTime s c)) = _
      have h1 := e2 (h c (by simp))
      rw [r2, h1]
      intro c' hc' x hx hxd hxb
      rw [h1]
      rw [b11] at hx
      exact h c' (by simp [hc']) x hx hxd hxb

theorem scheduleCycle_sources (s : State) (startTime : ℚ) :
    (∀ x, x ∈ trackedKeys (scheduleCycle s startTime) ↔
      x ∈ trackedKeys s ∨
        ((∃ c, x ∈ playingKeys s c) ∧ x ∉ s.disabledAtNext ∧ s.buffers x ≠ none)) ∧
    ((∀ c, ∀ x ∈ playingKeys s c, x ∉ s.disabledAtNext → s.buffers x ≠ none →
        x ∈ trackedKeys s) →
      trackedKeys (scheduleCycle s startTime) = trackedKeys s) := by
  obtain ⟨r1, r2⟩ := scheduleCats_sources startTime cats s
  constructor
  · intro x
    show x ∈ trackedKeys (cats.foldl (scheduleCat startTime) s) ↔ _
    rw [r1]
    have : (∃ c ∈ cats, x ∈ playingKeys s c) ↔ ∃ c, x ∈ playingKeys s c := by
      constructor
      · rintro ⟨c, -, h⟩; exact ⟨c, h⟩
      · rintro ⟨c, h⟩; exact ⟨c, by cases c <;> simp [cats], h⟩
    rw [this]
  · intro h
    show trackedKeys (cats.foldl (scheduleCat startTime) s) = _
    exact r2 (fun c _ => h c)

/-- Claim C21: for every state and start time `t`, `scheduleCycle(t)` run twice in a row gives
the same keys in every `playing` list (the keys that the state had), and the same keys in
`activeSources`, as `scheduleCycle(t)` run once; the classes of the buttons and the queues are
the same too. The second run starts the playbacks again: only the start log and the tracked
sources differ. -/
theorem scheduleCycle_twice (s : State) (t : ℚ) :
    (∀ c, playingKeys (scheduleCycle (scheduleCycle s t) t) c =
      playingKeys (scheduleCycle s t) c) ∧
    (∀ c, playingKeys (scheduleCycle s t) c = playingKeys s c) ∧
    trackedKeys (scheduleCycle (scheduleCycle s t) t) = trackedKeys (scheduleCycle s t) ∧
    (scheduleCycle (scheduleCycle s t) t).playingClass = (scheduleCycle s t).playingClass ∧
    (scheduleCycle (scheduleCycle s t) t).queuedClass = (scheduleCycle s t).queuedClass ∧
    (scheduleCycle (scheduleCycle s t) t).pending = (scheduleCycle s t).pending := by
  obtain ⟨b1, b2, b3, -, -, -, -, b8, -, b10⟩ := scheduleCycle_frame s t
  obtain ⟨c1, c2, c3, -, -, -, -, c8, -, c10⟩ := scheduleCycle_frame (scheduleCycle s t) t
  refine ⟨c10, b10, ?_, ?_, c8, c2⟩
  · apply (scheduleCycle_sources (scheduleCycle s t) t).2
    intro c x hx hxd hxb
    rw [(scheduleCycle_sources s t).1]
    rw [b10] at hx
    rw [b3] at hxd
    rw [b1] at hxb
    exact Or.inr ⟨⟨c, hx⟩, hxd, hxb⟩
  · funext k
    rw [scheduleCycle_playingClass_keys (scheduleCycle s t) t k]
    by_cases hk : hasPad k = true
    · rw [if_pos hk, scheduleCycle_playingClass_keys s t k, if_pos hk, b10, b10, b10, b3]
    · rw [if_neg hk]

/-! ## Claim C23: a click leaves the other categories alone -/

theorem playing_nil_of_keys {s : State} {c : Cat} (h : playingKeys s c = []) : s.playing c = [] := by
  simpa [playingKeys] using h

/-- Claim C23: for every state and every pad of category `c`, `onPadClick` leaves `playing[c']`
and `pending[c']` as they were for both categories `c'` other than `c`; the proof goes through
the four paths (manual stop, cancel, direct start, where the other `playing` lists are empty
before and after, and enqueue). -/
theorem onPadClick_other_categories (s : State) (pad : Pad) (now : ℚ) (c' : Cat)
    (hc : c' ≠ pad.category) :
    (onPadClick s pad now).playing c' = s.playing c' ∧
    (onPadClick s pad now).pending c' = s.pending c' := by
  by_cases h1 : s.playingClass pad.key = true
  · obtain ⟨hp, hq, -⟩ := onPadClick_stop_fields s pad now h1
    rw [hp, hq, Function.update_noteq hc]
    exact ⟨rfl, rfl⟩
  · have h1 : s.playingClass pad.key = false := by simpa using h1
    by_cases h2 : s.queuedClass pad.key = true
    · rw [onPadClick_cancel s pad now h1 h2]
      exact ⟨rfl, Function.update_noteq hc _ _⟩
    · have h2 : s.queuedClass pad.key = false := by simpa using h2
      by_cases h3 : anyPlaying s = true
      · obtain ⟨hp, -, -, -, -, -, -, -, k, -, hq, -⟩ := onPadClick_enqueue s pad now h1 h2 h3
        rw [hp, hq, Function.update_noteq hc]
        exact ⟨rfl, rfl⟩
      · have h3 : anyPlaying s = false := by simpa using h3
        rw [onPadClick_start s pad now h1 h2 h3, startNewCycle_pending]
        refine ⟨?_, rfl⟩
        rw [(anyPlaying_eq_false s).mp h3 c']
        apply playing_nil_of_keys
        rw [startNewCycle_playingKeys]
        simp [Ne.symm hc]

/-- Witness of C23: drum 2 is queued and nothing is Active; the click on sound 1 starts it
directly and leaves the lists of the drums as they were. -/
theorem onPadClick_other_categories_witness :
    Cat.drum ≠ (soundPad 1).category ∧
    pendingKeys drumStoppedOneQueued Cat.drum = ["drum.1.2.wav"] ∧
    playingKeys (onPadClick drumStoppedOneQueued (soundPad 1) 3) Cat.sound = ["sounds.1.1.wav"] ∧
    ((onPadClick drumStoppedOneQueued (soundPad 1) 3).playing Cat.drum =
      drumStoppedOneQueued.playing Cat.drum ∧
    (onPadClick drumStoppedOneQueued (soundPad 1) 3).pending Cat.drum =
      drumStoppedOneQueued.pending Cat.drum) :=
  ⟨by decide, by decide, by decide,
    onPadClick_other_categories drumStoppedOneQueued (soundPad 1) 3 Cat.drum (by decide)⟩

/-! ## Claim C26: `disabledAtNext` stays empty -/

theorem onPadClick_disabledAtNext (s : State) (pad : Pad) (now : ℚ) (k : Key)
    (h : k ∈ (onPadClick s pad now).disabledAtNext) : k ∈ s.disabledAtNext := by
  by_cases h1 : s.playingClass pad.key = true
  · rw [(onPadClick_stop_fields s pad now h1).2.2.1] at h
    exact (List.mem_filter.mp h).1
  · have h1 : s.playingClass pad.key = false := by simpa using h1
    by_cases h2 : s.queuedClass pad.key = true
    · rw [onPadClick_cancel s pad now h1 h2] at h
      exact h
    · have h2 : s.queuedClass pad.key = false := by simpa using h2
      by_cases h3 : anyPlaying s = true
      · rw [(onPadClick_enqueue s pad now h1 h2 h3).2.2.1] at h
        exact h
      · have h3 : anyPlaying s = false := by simpa using h3
        rw [onPadClick_start s pad now h1 h2 h3, startNewCycle_disabledAtNext] at h
        exact h

theorem advanceCycle_disabledAtNext (s : State) (nextStart : ℚ) :
    (advanceCycle s nextStart).disabledAtNext = [] := by
  unfold advanceCycle
  rw [scheduleCycle_disabledAtNext]
  exact (commitCats_frame _).2.1

theorem applyPreset_disabledAtNext (s : State) (p : Preset) (now : ℚ) :
    (applyPreset s p now).disabledAtNext = [] := by
  unfold applyPreset
  cases p.activePads with
  | none => rfl
  | some activePads =>
    simp only []
    split
    · rw [startNewCycle_disabledAtNext]; rfl
    · rfl

/-- Claim C26: no operation adds a key to `disabledAtNext` (a click only filters it, the cycle
commit, `stopAll` and `applyPreset` empty it, the others leave it), so it is empty in every
reachable state; there `advanceCycle` takes out of `playing[c]` only the first
`|playing[c]| + |pending[c]| - limits[c]` keys, which is none unless the sum exceeds the limit,
and with every `pending` queue empty it leaves the keys of every `playing` list as they were. -/
theorem disabledAtNext_never_filled (s : State) (hs : Reachable s) :
    (∀ (u : State) (pad : Pad) (now : ℚ) (k : Key),
      k ∈ (onPadClick u pad now).disabledAtNext → k ∈ u.disabledAtNext) ∧
    (∀ (u : State) (t : ℚ), (advanceCycle u t).disabledAtNext = []) ∧
    (∀ (u : State), (stopAll u).disabledAtNext = []) ∧
    (∀ (u : State) (p : Preset) (now : ℚ), (applyPreset u p now).disabledAtNext = []) ∧
    (∀ (u : State) (initial : List Info) (now : ℚ),
      (startNewCycle u initial now).disabledAtNext = u.disabledAtNext) ∧
    (∀ (u : State) (t : ℚ), (scheduleCycle u t).disabledAtNext = u.disabledAtNext) ∧
    (∀ (u : State) (param : Param) (v : ℚ),
      (updateEffectParam u param v).disabledAtNext = u.disabledAtNext) ∧
    s.disabledAtNext = [] ∧
    (∀ c nextStart, playingKeys (advanceCycle s nextStart) c =
      (playingKeys s c).drop ((s.playing c).length + (s.pending c).length - limits c) ++
        pendingKeys s c) ∧
    (∀ c nextStart k, k ∈ playingKeys s c → k ∉ playingKeys (advanceCycle s nextStart) c →
      limits c < (s.playing c).length + (s.pending c).length ∧
      k ∈ (playingKeys s c).take ((s.playing c).length + (s.pending c).length - limits c)) ∧
    ((∀ c, s.pending c = []) →
      ∀ c nextStart, playingKeys (advanceCycle s nextStart) c = playingKeys s c) := by
  have hd : s.disabledAtNext = [] := (reachable_coherent hs).disabled
  have hkeys : ∀ c nextStart, playingKeys (advanceCycle s nextStart) c =
      (playingKeys s c).drop ((s.playing c).length + (s.pending c).length - limits c) ++
        pendingKeys s c := fun c nextStart =>
    advanceCycle_keys_of_bounded s nextStart c hd (reachable_playing_length hs c)
      (reachable_pending_length hs c)
  refine ⟨onPadClick_disabledAtNext, advanceCycle_disabledAtNext, fun _ => rfl,
    applyPreset_disabledAtNext, startNewCycle_disabledAtNext, scheduleCycle_disabledAtNext,
    fun _ _ _ => rfl, hd, hkeys, ?_, ?_⟩
  · intro c nextStart k hk hnot
    rw [hkeys c nextStart] at hnot
    have hnd : k ∉ (playingKeys s c).drop
        ((s.playing c).length + (s.pending c).length - limits c) :=
      fun h => hnot (List.mem_append_left _ h)
    have htake : k ∈ (playingKeys s c).take
        ((s.playing c).length + (s.pending c).length - limits c) := by
      rw [← List.take_append_drop
        ((s.playing c).length + (s.pending c).length - limits c) (playingKeys s c)] at hk
      rcases List.mem_append.mp hk with h | h
      · exact h
      · exact absurd h hnd
    refine ⟨?_, htake⟩
    by_contra hle
    have h0 : (s.playing c).length + (s.pending c).length - limits c = 0 := by omega
    rw [h0] at htake
    simp at htake
  · intro hq c nextStart
    rw [hkeys c nextStart]
    have hlen := reachable_playing_length hs c
    have h0 : (s.playing c).length + (s.pending c).length - limits c = 0 := by
      rw [hq c]
      simp only [List.length_nil]
      omega
    rw [h0]
    simp [pendingKeys, hq c]

/-- Witness of C26: sounds 1, 2, 3 are Active and nothing is queued; the commit keeps them. -/
theorem disabledAtNext_never_filled_witness :
    Reachable threeSounds ∧ threeSounds.disabledAtNext = [] ∧
    (∀ c, threeSounds.pending c = []) ∧
    playingKeys threeSounds Cat.sound = ["sounds.1.1.wav", "sounds.1.2.wav", "sounds.1.3.wav"] ∧
    playingKeys (advanceCycle threeSounds 8) Cat.sound = playingKeys threeSounds Cat.sound :=
  ⟨threeSounds_reachable,
    (disabledAtNext_never_filled threeSounds threeSounds_reachable).2.2.2.2.2.2.2.1,
    fun c => by cases c <;> decide, by decide,
    (disabledAtNext_never_filled threeSounds threeSounds_reachable).2.2.2.2.2.2.2.2.2.2
      (fun c => by cases c <;> decide) Cat.sound 8⟩

/-! ## Claim C24: every key is in one place -/

theorem reachableOwnPresets_reachable {s : State} (h : ReachableOwnPresets s) : Reachable s := by
  induction h with
  | init buffers cycleDuration => exact Reachable.init _ _
  | click pad now _ hpad ih => exact Reachable.click pad now ih hpad
  | advance nextStart _ ih => exact Reachable.advance nextStart ih
  | stop _ ih => exact Reachable.stop ih
  | preset now _ _ ih _ => exact Reachable.preset _ now ih

theorem playingDistinct_click {s : State} (hs : PlayingDistinct s) (pad : Pad) (now : ℚ)
    (hpad : pad ∈ grid) : PlayingDistinct (onPadClick s pad now) := by
  by_cases h1 : s.playingClass pad.key = true
  · have hp := (onPadClick_stop_fields s pad now h1).1
    have hkeys : ∀ c, playingKeys (onPadClick s pad now) c =
        if c = pad.category then (playingKeys s c).filter (fun x => x != pad.key)
        else playingKeys s c := by
      intro c
      by_cases hcc : c = pad.category
      · subst hcc
        simp only [playingKeys, hp, Function.update_same, if_true]
        exact keys_filter_ne _ _
      · simp only [playingKeys, hp, Function.update_noteq hcc, if_neg hcc]
    constructor
    · intro c k hk
      rw [hkeys] at hk
      split at hk
      · exact hs.onGrid c k (List.mem_filter.mp hk).1
      · exact hs.onGrid c k hk
    · intro c
      rw [hkeys]
      split
      · exact (hs.nodup c).filter _
      · exact hs.nodup c
  · have h1 : s.playingClass pad.key = false := by simpa using h1
    by_cases h2 : s.queuedClass pad.key = true
    · rw [onPadClick_cancel s pad now h1 h2]
      exact ⟨hs.onGrid, hs.nodup⟩
    · have h2 : s.queuedClass pad.key = false := by simpa using h2
      by_cases h3 : anyPlaying s = true
      · have hp := (onPadClick_enqueue s pad now h1 h2 h3).1
        have hkeys : ∀ c, playingKeys (onPadClick s pad now) c = playingKeys s c := by
          intro c; simp only [playingKeys, hp]
        exact ⟨fun c k hk => hs.onGrid c k (by rw [← hkeys]; exact hk),
          fun c => by rw [hkeys]; exact hs.nodup c⟩
      · have h3 : anyPlaying s = false := by simpa using h3
        rw [onPadClick_start s pad now h1 h2 h3]
        constructor
        · intro c k hk
          rw [startNewCycle_playingKeys] at hk
          by_cases hcc : pad.category = c
          · simp [hcc] at hk
            subst hcc
            rw [hk]
            exact hpad
          · simp [hcc] at hk
        · intro c
          rw [startNewCycle_playingKeys]
          by_cases hcc : pad.category = c
          · simp [hcc]
          · simp [hcc]

theorem playing_not_pending {s : State} (hc : Coherent s) (hs : PlayingDistinct s) (c : Cat)
    (k : Key) (hk : k ∈ playingKeys s c) : k ∉ pendingKeys s c := by
  have hg := hs.onGrid c k hk
  have h1 : s.playingClass k = true := hc.mem_playingClass (Pad.mk k c) hg hk
  have h2 : s.queuedClass k = false := hc.exclusive k h1
  intro hq
  have := (hc.queued_iff (Pad.mk k c) hg).mpr hq
  simp only [h2] at this
  exact absurd this (by simp)

theorem playingDistinct_advanceCycle {s : State} (hr : Reachable s) (hs : PlayingDistinct s)
    (nextStart : ℚ) : PlayingDistinct (advanceCycle s nextStart) := by
  have hc := reachable_coherent hr
  have hkeys : ∀ c, playingKeys (advanceCycle s nextStart) c =
      (playingKeys s c).drop ((s.playing c).length + (s.pending c).length - limits c) ++
        pendingKeys s c := fun c =>
    advanceCycle_keys_of_bounded s nextStart c hc.disabled (reachable_playing_length hr c)
      (reachable_pending_length hr c)
  constructor
  · intro c k hk
    rw [hkeys] at hk
    rcases List.mem_append.mp hk with h | h
    · exact hs.onGrid c k (List.mem_of_mem_drop h)
    · exact hc.pending_grid c k h
  · intro c
    rw [hkeys]
    refine List.Nodup.append ((hs.nodup c).sublist (List.drop_sublist _ _)) (hc.pending_nodup c) ?_
    intro k h1 h2
    exact playing_not_pending hc hs c k (List.mem_of_mem_drop h1) h2

theorem playingDistinct_applyPreset {t : State} (ht : PlayingDistinct t) (s : State) (now : ℚ) :
    PlayingDistinct (applyPreset s (getCurrentState t) now) := by
  have hkeys : ∀ c, playingKeys (applyPreset s (getCurrentState t) now) c =
      (playingKeys t c).take (limits c) := fun c => by
    rw [applyPreset_playingKeys]
    rfl
  constructor
  · intro c k hk
    rw [hkeys] at hk
    exact ht.onGrid c k (List.mem_of_mem_take hk)
  · intro c
    rw [hkeys]
    exact (ht.nodup c).sublist (List.take_sublist _ _)

theorem reachableOwnPresets_distinct {s : State} (h : ReachableOwnPresets s) :
    PlayingDistinct s := by
  induction h with
  | init buffers cycleDuration =>
    exact ⟨fun c k hk => by simp [playingKeys, initialState] at hk,
      fun c => by simp [playingKeys, initialState]⟩
  | click pad now hs hpad ih =>
    exact playingDistinct_click ih pad now hpad
  | advance nextStart hs ih =>
    exact playingDistinct_advanceCycle (reachableOwnPresets_reachable hs) ih nextStart
  | stop _ _ =>
    exact ⟨fun c k hk => by simp [playingKeys, stopAll] at hk,
      fun c => by simp [playingKeys, stopAll]⟩
  | preset now _ _ _ iht => exact playingDistinct_applyPreset iht _ now

theorem same_category_of_grid {k : Key} {c c' : Cat} (h : Pad.mk k c ∈ grid)
    (h' : Pad.mk k c' ∈ grid) : c = c' :=
  congrArg Pad.category (grid_key_unique h h' rfl)

/-- Claim C24: in every state reachable by clicks on pads of the grid, cycle commits, `stopAll`
and `applyPreset` of presets that `getCurrentState` produced, no key occurs twice in the
`playing` lists, none occurs twice in the `pending` queues and none is in both, and every key in a
list is the key of a pad of that category; a pad has the class `playing` exactly when its key is
in `playing` of its category, and the class `queued` exactly when its key is in `pending` of its
category; so every pad is in exactly one of Active, Queued and Idle. -/
theorem keys_in_one_place (s : State) (h : ReachableOwnPresets s) :
    (∀ c, (playingKeys s c).Nodup) ∧
    (∀ c c' k, k ∈ playingKeys s c → k ∈ playingKeys s c' → c = c') ∧
    (∀ c, (pendingKeys s c).Nodup) ∧
    (∀ c c' k, k ∈ pendingKeys s c → k ∈ pendingKeys s c' → c = c') ∧
    (∀ c c' k, k ∈ playingKeys s c → k ∉ pendingKeys s c') ∧
    (∀ c k, k ∈ playingKeys s c ∨ k ∈ pendingKeys s c → Pad.mk k c ∈ grid) ∧
    (∀ pad, pad ∈ grid →
      (s.playingClass pad.key = true ↔ pad.key ∈ playingKeys s pad.category) ∧
      (s.queuedClass pad.key = true ↔ pad.key ∈ pendingKeys s pad.category) ∧
      (Active s pad ↔ pad.key ∈ playingKeys s pad.category) ∧
      (Queued s pad ↔ pad.key ∈ pendingKeys s pad.category) ∧
      (Idle s pad ↔
        pad.key ∉ playingKeys s pad.category ∧ pad.key ∉ pendingKeys s pad.category) ∧
      ¬ (Active s pad ∧ Queued s pad)) := by
  have hc := reachable_coherent (reachableOwnPresets_reachable h)
  have hd := reachableOwnPresets_distinct h
  have hpq : ∀ c c' k, k ∈ playingKeys s c → k ∉ pendingKeys s c' := by
    intro c c' k hk hk'
    have := same_category_of_grid (hd.onGrid c k hk) (hc.pending_grid c' k hk')
    subst this
    exact playing_not_pending hc hd c k hk hk'
  have hclass : ∀ pad, pad ∈ grid →
      (s.playingClass pad.key = true ↔ pad.key ∈ playingKeys s pad.category) := by
    intro pad hpad
    constructor
    · intro hp
      obtain ⟨c, hk⟩ := hc.playingClass_mem pad.key hp
      have := same_category_of_grid (hd.onGrid c pad.key hk) (show Pad.mk pad.key pad.category ∈
        grid from hpad)
      rw [← this]
      exact hk
    · exact hc.mem_playingClass pad hpad
  have hactive : ∀ pad, pad ∈ grid →
      (Active s pad ↔ pad.key ∈ playingKeys s pad.category) := by
    intro pad hpad
    constructor
    · intro ha
      exact (hclass pad hpad).mp (active_playingClass ha)
    · intro hk
      exact Or.inr ⟨hc, hpad, hk⟩
  have hqueued : ∀ pad, pad ∈ grid →
      (Queued s pad ↔ pad.key ∈ pendingKeys s pad.category) := by
    intro pad hpad
    constructor
    · intro hq
      exact (hc.queued_iff pad hpad).mp (queued_classes hq).2
    · intro hk
      exact Or.inr ⟨hc, hpad, hk⟩
  refine ⟨hd.nodup, ?_, hc.pending_nodup, ?_, hpq, ?_, ?_⟩
  · intro c c' k hk hk'
    exact same_category_of_grid (hd.onGrid c k hk) (hd.onGrid c' k hk')
  · intro c c' k hk hk'
    exact same_category_of_grid (hc.pending_grid c k hk) (hc.pending_grid c' k hk')
  · rintro c k (hk | hk)
    · exact hd.onGrid c k hk
    · exact hc.pending_grid c k hk
  · intro pad hpad
    refine ⟨hclass pad hpad, hc.queued_iff pad hpad, hactive pad hpad, hqueued pad hpad, ?_, ?_⟩
    · unfold Idle
      rw [hactive pad hpad, hqueued pad hpad]
    · rintro ⟨ha, hq⟩
      exact hpq _ _ _ ((hactive pad hpad).mp ha) ((hqueued pad hpad).mp hq)

theorem threeSounds_reachableOwnPresets : ReachableOwnPresets threeSounds :=
  ReachableOwnPresets.advance 4 (ReachableOwnPresets.click (soundPad 3) 2
    (ReachableOwnPresets.click (soundPad 2) 1
      (ReachableOwnPresets.click (soundPad 1) 0 (ReachableOwnPresets.init _ _) (by decide))
      (by decide)) (by decide))

theorem presetApplied_reachableOwnPresets : ReachableOwnPresets presetApplied :=
  ReachableOwnPresets.preset 9
    (ReachableOwnPresets.click (soundPad 5) 6
      (ReachableOwnPresets.click (soundPad 4) 5 threeSounds_reachableOwnPresets (by decide))
      (by decide))
    threeSounds_reachableOwnPresets

/-- Witness of C24: after the preset with sounds 1, 2, 3 is applied over a state with sounds 4 and
5 queued, sounds 1, 2, 3 are Active, nothing is queued, and the pad of sound 4 is Idle. -/
theorem keys_in_one_place_witness :
    ReachableOwnPresets presetApplied ∧
    playingKeys presetApplied Cat.sound =
      ["sounds.1.1.wav", "sounds.1.2.wav", "sounds.1.3.wav"] ∧
    (playingKeys presetApplied Cat.sound).Nodup ∧
    Active presetApplied (soundPad 1) ∧ Idle presetApplied (soundPad 4) :=
  ⟨presetApplied_reachableOwnPresets, by decide,
    (keys_in_one_place presetApplied presetApplied_reachableOwnPresets).1 Cat.sound,
    (((keys_in_one_place presetApplied presetApplied_reachableOwnPresets).2.2.2.2.2.2
      (soundPad 1) (by decide)).2.2.1).mpr (by decide),
    (((keys_in_one_place presetApplied presetApplied_reachableOwnPresets).2.2.2.2.2.2
      (soundPad 4) (by decide)).2.2.2.2.1).mpr ⟨by decide, by decide⟩⟩

/-! ## Claim C25: tracked playbacks belong to Active entries -/

theorem stopSource_trackedKeys (s : State) (k0 k : Key) :
    k ∈ trackedKeys (stopSource s k0) ↔ k ∈ trackedKeys s ∧ k ≠ k0 := by
  simp only [trackedKeys, stopSource_activeSources, List.mem_map, List.mem_filter]
  constructor
  · rintro ⟨e, ⟨he, hne⟩, rfl⟩
    exact ⟨⟨e, he, rfl⟩, by simpa using hne⟩
  · rintro ⟨⟨e, he, rfl⟩, hne⟩
    exact ⟨e, ⟨he, by simpa using hne⟩, rfl⟩

theorem sourcesActive_of_no_sources {s : State} (h : trackedKeys s = []) : SourcesActive s := by
  intro k hk
  rw [h] at hk
  exact absurd hk (List.not_mem_nil k)

theorem no_sources_of_silent {s : State} (hs : SourcesActive s) (h : ∀ c, s.playing c = []) :
    trackedKeys s = [] := by
  rw [List.eq_nil_iff_forall_not_mem]
  intro k hk
  obtain ⟨⟨c, hc⟩, -⟩ := hs k hk
  simp [playingKeys, h c] at hc

theorem sourcesActive_scheduleCycle {s : State} (hs : SourcesActive s) (startTime : ℚ) :
    SourcesActive (scheduleCycle s startTime) := by
  intro k hk
  obtain ⟨b1, -, -, -, -, -, -, -, -, b10⟩ := scheduleCycle_frame s startTime
  rw [b1]
  rw [(scheduleCycle_sources s startTime).1] at hk
  rcases hk with hk | ⟨⟨c, hc⟩, -, hb⟩
  · obtain ⟨⟨c, hc⟩, hb⟩ := hs k hk
    exact ⟨⟨c, by rw [b10]; exact hc⟩, hb⟩
  · exact ⟨⟨c, by rw [b10]; exact hc⟩, hb⟩

theorem sourcesActive_startNewCycle (s : State) (initial : List Info) (now : ℚ)
    (h : trackedKeys s = []) : SourcesActive (startNewCycle s initial now) := by
  intro k hk
  exact sourcesActive_scheduleCycle
    (sourcesActive_of_no_sources
      (s := replaceCycleSets
        { s with
          cycleDuration :=
            if falsy s.cycleDuration then
              (if falsy (inferDuration s.buffers initial) then some 4
               else inferDuration s.buffers initial)
            else s.cycleDuration
          lastCycleStart := some (now + 0.05) } initial) h) (now + 0.05) k hk

theorem sourcesActive_stop_click {s : State} (hs : SourcesActive s) (pad : Pad) (now : ℚ)
    (h : s.playingClass pad.key = true) : SourcesActive (onPadClick s pad now) := by
  rw [onPadClick_stop s pad now h]
  intro k hk
  have hk' : k ∈ trackedKeys (stopSource s pad.key) := hk
  rw [stopSource_trackedKeys] at hk'
  obtain ⟨⟨c, hc⟩, hb⟩ := hs k hk'.1
  refine ⟨⟨c, ?_⟩, by simpa using hb⟩
  by_cases hcc : c = pad.category
  · subst hcc
    simp only [playingKeys, Function.update_same]
    rw [keys_filter_ne]
    exact List.mem_filter.mpr ⟨hc, by simpa using hk'.2⟩
  · simpa only [playingKeys, Function.update_noteq hcc] using hc

theorem sourcesActive_click {s : State} (hs : SourcesActive s) (pad : Pad) (now : ℚ) :
    SourcesActive (onPadClick s pad now) := by
  by_cases h1 : s.playingClass pad.key = true
  · exact sourcesActive_stop_click hs pad now h1
  · have h1 : s.playingClass pad.key = false := by simpa using h1
    by_cases h2 : s.queuedClass pad.key = true
    · rw [onPadClick_cancel s pad now h1 h2]
      exact hs
    · have h2 : s.queuedClass pad.key = false := by simpa using h2
      by_cases h3 : anyPlaying s = true
      · obtain ⟨hp, hb, -, -, -, ha, -⟩ := onPadClick_enqueue s pad now h1 h2 h3
        intro k hk
        simp only [trackedKeys, ha] at hk
        obtain ⟨⟨c, hc⟩, hbk⟩ := hs k hk
        exact ⟨⟨c, by simpa only [playingKeys, hp] using hc⟩, by rw [hb]; exact hbk⟩
      · have h3 : anyPlaying s = false := by simpa using h3
        rw [onPadClick_start s pad now h1 h2 h3]
        exact sourcesActive_startNewCycle s _ now
          (no_sources_of_silent hs ((anyPlaying_eq_false s).mp h3))

theorem commitEntry_sources (cat : Cat) (s : State) (add : Info) :
    trackedKeys (commitEntry cat s add) =
      if limits cat ≤ (s.playing cat).length then
        match s.playing cat with
        | [] => trackedKeys s
        | r :: _ => (s.activeSources.filter (fun e => e.1 != r.key)).map Prod.fst
      else trackedKeys s := by
  unfold commitEntry
  by_cases h : limits cat ≤ (s.playing cat).length
  · cases hp : s.playing cat with
    | nil =>
      have h0 : limits cat ≤ 0 := by simpa [hp] using h
      simp only [ge_iff_le, List.length_nil, h0, if_true]
      rfl
    | cons r rest =>
      have h1 : limits cat ≤ rest.length + 1 := by simpa [hp] using h
      have hs := stopSource_activeSources
        { s with playing := Function.update s.playing cat rest } r.key
      simp only [ge_iff_le, List.length_cons, h1, if_true]
      by_cases hq : hasPad r.key = true
      · simp only [hq, if_true]
        show (stopSource _ r.key).activeSources.map Prod.fst = _
        rw [hs]
      · simp only [hq]
        show (stopSource _ r.key).activeSources.map Prod.fst = _
        rw [hs]
  · simp only [ge_iff_le, h, if_false]
    rfl

theorem commitEntry_trackedKeys (cat : Cat) (s : State) (add : Info) (k : Key)
    (hk : k ∈ trackedKeys (commitEntry cat s add)) :
    k ∈ trackedKeys s ∧
      (limits cat ≤ (s.playing cat).length →
        ∀ r rest, s.playing cat = r :: rest → k ≠ r.key) := by
  rw [commitEntry_sources] at hk
  by_cases hfull : limits cat ≤ (s.playing cat).length
  · rw [if_pos hfull] at hk
    cases hp : s.playing cat with
    | nil =>
      rw [hp] at hfull
      have := limits_pos cat
      simp only [List.length_nil] at hfull
      omega
    | cons r rest =>
      rw [hp] at hk
      simp only [List.mem_map, List.mem_filter] at hk
      obtain ⟨e, ⟨he, hne⟩, rfl⟩ := hk
      refine ⟨List.mem_map.mpr ⟨e, he, rfl⟩, ?_⟩
      intro _ r' rest' heq
      cases heq
      simpa using hne
  · rw [if_neg hfull] at hk
    exact ⟨hk, fun h => absurd h hfull⟩

theorem sourcesActive_commitEntry {s : State} (hs : SourcesActive s) (cat : Cat) (add : Info) :
    SourcesActive (commitEntry cat s add) := by
  intro k hk
  obtain ⟨h1, h2⟩ := commitEntry_trackedKeys cat s add k hk
  obtain ⟨⟨c, hc⟩, hb⟩ := hs k h1
  rw [(commitEntry_frame cat s add).2.1]
  refine ⟨⟨c, ?_⟩, hb⟩
  simp only [playingKeys, commitEntry_playing]
  by_cases hcc : c = cat
  · subst hcc
    simp only [Function.update_same, List.map_append, List.mem_append]
    left
    by_cases hfull : limits c ≤ (s.playing c).length
    · rw [if_pos hfull]
      cases hp : s.playing c with
      | nil => simp [playingKeys, hp] at hc
      | cons r rest =>
        simp only [playingKeys, hp, List.map_cons, List.mem_cons] at hc
        rcases hc with hc | hc
        · exact absurd hc (h2 hfull r rest hp)
        · simpa using hc
    · rw [if_neg hfull]
      exact hc
  · simpa only [Function.update_noteq hcc] using hc

theorem sourcesActive_commitFold (cat : Cat) (l : List Info) {s : State} (hs : SourcesActive s) :
    SourcesActive (l.foldl (commitEntry cat) s) := by
  induction l generalizing s with
  | nil => exact hs
  | cons add rest ih => exact ih (sourcesActive_commitEntry hs cat add)

theorem sourcesActive_commitCat {s : State} (hs : SourcesActive s) (cat : Cat) :
    SourcesActive (commitCat s cat) := by
  unfold commitCat
  split
  · exact hs
  · exact sourcesActive_commitFold cat (s.pending cat) hs

theorem sourcesActive_commitCats (l : List Cat) {s : State} (hs : SourcesActive s) :
    SourcesActive (l.foldl commitCat s) := by
  induction l generalizing s with
  | nil => exact hs
  | cons c rest ih => exact ih (sourcesActive_commitCat hs c)

theorem sourcesActive_commit_schedule {s1 : State} (hs : SourcesActive s1) (nextStart : ℚ) :
    SourcesActive (scheduleCycle { cats.foldl commitCat s1 with lastCycleStart := some nextStart }
      nextStart) := by
  have h1 := sourcesActive_commitCats cats hs
  have h2 : SourcesActive
      { cats.foldl commitCat s1 with lastCycleStart := some nextStart } :=
    fun k hk => h1 k hk
  exact sourcesActive_scheduleCycle h2 nextStart

theorem sourcesActive_advanceCycle {s : State} (hs : SourcesActive s)
    (hd : s.disabledAtNext = []) (nextStart : ℚ) : SourcesActive (advanceCycle s nextStart) := by
  unfold advanceCycle
  apply sourcesActive_commit_schedule
  intro k hk
  obtain ⟨⟨c, hc⟩, hb⟩ := hs k hk
  refine ⟨⟨c, ?_⟩, hb⟩
  show k ∈ (cats.foldl
    (fun (pl : Cat → List PlayingEntry) (cat : Cat) =>
      Function.update pl cat ((pl cat).filter (fun o => !decide (o.key ∈ s.disabledAtNext))))
    s.playing c).map PlayingEntry.key
  rw [filterCats_playing, hd, filter_not_disabled_nil]
  exact hc

theorem sourcesActive_applyPreset (s : State) (p : Preset) (now : ℚ) :
    SourcesActive (applyPreset s p now) := by
  unfold applyPreset
  cases p.activePads with
  | none => exact sourcesActive_of_no_sources rfl
  | some activePads =>
    simp only []
    split
    · exact sourcesActive_startNewCycle _ _ now rfl
    · exact sourcesActive_of_no_sources rfl

theorem reachable_sourcesActive {s : State} (h : Reachable s) : SourcesActive s := by
  induction h with
  | init buffers cycleDuration => exact sourcesActive_of_no_sources rfl
  | click pad now _ _ ih => exact sourcesActive_click ih pad now
  | advance nextStart hs ih =>
    exact sourcesActive_advanceCycle ih (reachable_coherent hs).disabled nextStart
  | stop _ _ => exact sourcesActive_of_no_sources rfl
  | preset p now _ _ => exact sourcesActive_applyPreset _ p now

/-- Claim C25: in every state reachable by clicks on pads of the grid, cycle commits, `stopAll`
and `applyPreset` of presets that `getCurrentState` produced, every key that has a tracked
playback in `activeSources` is the key of a pad whose key is in `playing` of its category (the pad
is Active and has the class `playing`), and its buffer is decoded. -/
theorem tracked_sources_are_active (s : State) (h : ReachableOwnPresets s) :
    ∀ k src, (k, src) ∈ s.activeSources →
      ∃ pad, pad ∈ grid ∧ pad.key = k ∧ pad.key ∈ playingKeys s pad.category ∧ Active s pad ∧
        s.playingClass k = true ∧ ∃ d, s.buffers k = some d := by
  intro k src hk
  have hr := reachableOwnPresets_reachable h
  have hc := reachable_coherent hr
  have hd := reachableOwnPresets_distinct h
  obtain ⟨⟨c, hkc⟩, hb⟩ := reachable_sourcesActive hr k
    (List.mem_map.mpr ⟨(k, src), hk, rfl⟩)
  have hg := hd.onGrid c k hkc
  refine ⟨Pad.mk k c, hg, rfl, hkc, Or.inr ⟨hc, hg, hkc⟩,
    hc.mem_playingClass (Pad.mk k c) hg hkc, ?_⟩
  cases hbk : s.buffers k with
  | none => exact absurd hbk hb
  | some d => exact ⟨d, rfl⟩

/-- Witness of C25: sounds 1, 2, 3 were Active and sound 2 was stopped by a click; the tracked
keys are those of sounds 1 and 3, which are the keys of `playing.sound`. -/
theorem tracked_sources_are_active_witness :
    ReachableOwnPresets soundTwoStopped ∧
    trackedKeys soundTwoStopped = ["sounds.1.1.wav", "sounds.1.3.wav"] ∧
    playingKeys soundTwoStopped Cat.sound = ["sounds.1.1.wav", "sounds.1.3.wav"] ∧
    (∀ k src, (k, src) ∈ soundTwoStopped.activeSources →
      ∃ pad, pad ∈ grid ∧ pad.key = k ∧ pad.key ∈ playingKeys soundTwoStopped pad.category ∧
        Active soundTwoStopped pad ∧ soundTwoStopped.playingClass k = true ∧
        ∃ d, soundTwoStopped.buffers k = some d) :=
  ⟨ReachableOwnPresets.click (soundPad 2) 5 threeSounds_reachableOwnPresets (by decide),
    by decide, by decide,
    tracked_sources_are_active soundTwoStopped
      (ReachableOwnPresets.click (soundPad 2) 5 threeSounds_reachableOwnPresets (by decide))⟩

/-! ## Claim C22: the cycle duration after `loadAllBuffers` -/

theorem startNewCycle_buffers (s : State) (initial : List Info) (now : ℚ) :
    (startNewCycle s initial now).buffers = s.buffers := by
  unfold startNewCycle launchCycleLoop
  show (scheduleCycle _ _).buffers = _
  rw [(scheduleCycle_frame _ _).1]
  rfl

theorem advanceCycle_buffers (s : State) (nextStart : ℚ) :
    (advanceCycle s nextStart).buffers = s.buffers := by
  unfold advanceCycle
  rw [(scheduleCycle_frame _ _).1]
  exact (commitCats_frame _).1

theorem onPadClick_buffers (s : State) (pad : Pad) (now : ℚ) :
    (onPadClick s pad now).buffers = s.buffers := by
  by_cases h1 : s.playingClass pad.key = true
  · rw [onPadClick_stop s pad now h1]
    simp
  · have h1 : s.playingClass pad.key = false := by simpa using h1
    by_cases h2 : s.queuedClass pad.key = true
    · rw [onPadClick_cancel s pad now h1 h2]
    · have h2 : s.queuedClass pad.key = false := by simpa using h2
      by_cases h3 : anyPlaying s = true
      · exact (onPadClick_enqueue s pad now h1 h2 h3).2.1
      · have h3 : anyPlaying s = false := by simpa using h3
        rw [onPadClick_start s pad now h1 h2 h3, startNewCycle_buffers]

theorem step_buffers (s : State) (e : Event) : (step s e).buffers = s.buffers := by
  cases e with
  | click pad now => exact onPadClick_buffers s pad now
  | advance nextStart => exact advanceCycle_buffers s nextStart
  | stopAll => rfl

theorem run_buffers (events : List Event) (s : State) : (run s events).buffers = s.buffers := by
  induction events generalizing s with
  | nil => rfl
  | cons e rest ih =>
    show (run (step s e) rest).buffers = _
    rw [ih, step_buffers]

theorem loadBuffer_cycleDuration_of_set (s : State) (name : Key) (outcome : Option ℚ)
    (h : falsy s.cycleDuration = false) :
    (loadBuffer s name outcome).cycleDuration = s.cycleDuration := by
  cases outcome with
  | none => rfl
  | some d => simp [loadBuffer, h]

theorem loadBuffer_cycleDuration_of_null (s : State) (name : Key) (d : ℚ)
    (h : s.cycleDuration = none) :
    (loadBuffer s name (some d)).cycleDuration = some d := by
  simp [loadBuffer, h, falsy]

theorem loadBuffer_buffers (s : State) (name : Key) (outcome : Option ℚ) (k : Key) :
    (loadBuffer s name outcome).buffers k =
      if k = name ∧ outcome ≠ none then outcome else s.buffers k := by
  cases outcome with
  | none => simp [loadBuffer]
  | some d =>
    by_cases hk : k = name
    · subst hk
      simp only [loadBuffer]
      split <;> simp
    · simp only [loadBuffer]
      split <;> simp [Function.update_noteq hk, hk]

theorem loadLoop_cycleDuration_of_set (outcome : Key → Option ℚ) (during : Key → List Event)
    (names : List Key) (s : State) (h : falsy s.cycleDuration = false) :
    (names.foldl
      (fun (st : State) (name : Key) => loadBuffer (run st (during name)) name (outcome name))
      s).cycleDuration = s.cycleDuration := by
  induction names generalizing s with
  | nil => rfl
  | cons name rest ih =>
    have h1 := run_cycleDuration_of_set (during name) s h
    have h2 := loadBuffer_cycleDuration_of_set (run s (during name)) name (outcome name)
      (by rw [h1]; exact h)
    simp only [List.foldl_cons]
    rw [ih _ (by rw [h2, h1]; exact h), h2, h1]

theorem loadLoop_buffers_kept (outcome : Key → Option ℚ) (during : Key → List Event)
    (names : List Key) (s : State) (k : Key)
    (h : outcome k = none ∨ s.buffers k = outcome k) :
    (names.foldl
      (fun (st : State) (name : Key) => loadBuffer (run st (during name)) name (outcome name))
      s).buffers k = s.buffers k := by
  induction names generalizing s with
  | nil => rfl
  | cons name rest ih =>
    have h1 : (loadBuffer (run s (during name)) name (outcome name)).buffers k = s.buffers k := by
      rw [loadBuffer_buffers, run_buffers]
      by_cases hk : k = name ∧ outcome name ≠ none
      · rw [if_pos hk]
        obtain ⟨rfl, hne⟩ := hk
        rcases h with h | h
        · exact absurd h hne
        · exact h.symm
      · rw [if_neg hk]
    simp only [List.foldl_cons]
    rw [ih _ (by rw [h1]; exact h), h1]

theorem loadLoop_buffers_stored (outcome : Key → Option ℚ) (during : Key → List Event)
    (names : List Key) (s : State) (k : Key) (hk : k ∈ names) (hne : outcome k ≠ none) :
    (names.foldl
      (fun (st : State) (name : Key) => loadBuffer (run st (during name)) name (outcome name))
      s).buffers k = outcome k := by
  induction names generalizing s with
  | nil => simp at hk
  | cons name rest ih =>
    simp only [List.foldl_cons]
    by_cases hkn : k = name
    · subst hkn
      have h1 : (loadBuffer (run s (during k)) k (outcome k)).buffers k = outcome k := by
        rw [loadBuffer_buffers, if_pos ⟨rfl, hne⟩]
      rw [loadLoop_buffers_kept outcome during rest _ k (Or.inr h1), h1]
    · have hk' : k ∈ rest := by
        rcases List.mem_cons.mp hk with h | h
        · exact absurd h hkn
        · exact h
      exact ih _ hk'

theorem beforeFirstLoad_fresh : BeforeFirstLoad fresh where
  reachable := Reachable.init _ _
  buffers := fun _ => rfl
  silent := fun _ => ⟨fun _ => rfl, fun _ => rfl⟩
  duration := Or.inl rfl

theorem beforeFirstLoad_click {s : State} (hs : BeforeFirstLoad s) (pad : Pad) (now : ℚ)
    (hpad : pad ∈ grid) :
    BeforeFirstLoad (onPadClick s pad now) ∧ (onPadClick s pad now).cycleDuration = some 4 := by
  have hcd : (onPadClick s pad now).cycleDuration = some 4 := by
    rcases hs.duration with hd | hd
    · obtain ⟨hp, hq⟩ := hs.silent hd
      have hc := reachable_coherent hs.reachable
      have h1 : s.playingClass pad.key = false := by
        rw [← Bool.not_eq_true]
        intro h
        obtain ⟨c, hk⟩ := hc.playingClass_mem pad.key h
        simp [playingKeys, hp c] at hk
      have h2 : s.queuedClass pad.key = false := by
        rw [← Bool.not_eq_true]
        intro h
        have hk := (hc.queued_iff pad hpad).mp h
        simp [pendingKeys, hq pad.category] at hk
      have h3 : anyPlaying s = false := (anyPlaying_eq_false s).mpr hp
      rw [onPadClick_start s pad now h1 h2 h3, startNewCycle_cycleDuration, hd,
        inferDuration_eq_none _ _ (fun it _ => hs.buffers it.key)]
      simp [falsy]
    · rw [onPadClick_cycleDuration_of_set s pad now (by rw [hd]; decide), hd]
  refine ⟨⟨Reachable.click pad now hs.reachable hpad, ?_, ?_, Or.inr hcd⟩, hcd⟩
  · intro k
    rw [onPadClick_buffers]
    exact hs.buffers k
  · intro h
    rw [hcd] at h
    exact absurd h (by simp)

theorem beforeFirstLoad_advanceCycle {s : State} (hs : BeforeFirstLoad s) (nextStart : ℚ) :
    BeforeFirstLoad (advanceCycle s nextStart) := by
  have hcd := (advanceCycle_clock s nextStart).2.1
  refine ⟨Reachable.advance nextStart hs.reachable, ?_, ?_, by rw [hcd]; exact hs.duration⟩
  · intro k
    rw [advanceCycle_buffers]
    exact hs.buffers k
  · intro h
    rw [hcd] at h
    obtain ⟨hp, hq⟩ := hs.silent h
    refine ⟨fun c => ?_, fun c => advanceCycle_pending s nextStart c⟩
    apply playing_nil_of_keys
    rw [advanceCycle_playing_keys, hq c, hp c]
    rfl

theorem beforeFirstLoad_stopAll {s : State} (hs : BeforeFirstLoad s) :
    BeforeFirstLoad (stopAll s) :=
  ⟨Reachable.stop hs.reachable, hs.buffers, fun _ => ⟨fun _ => rfl, fun _ => rfl⟩, hs.duration⟩

theorem beforeFirstLoad_run (events : List Event) {s : State} (hs : BeforeFirstLoad s)
    (hg : ∀ pad now, Event.click pad now ∈ events → pad ∈ grid) :
    BeforeFirstLoad (run s events) ∧
    (events.all (fun e => !e.isClick) = true →
      (run s events).cycleDuration = s.cycleDuration) ∧
    (events.all (fun e => !e.isClick) = false → (run s events).cycleDuration = some 4) := by
  induction events generalizing s with
  | nil => exact ⟨hs, fun _ => rfl, fun h => by simp at h⟩
  | cons e rest ih =>
    have hg' : ∀ pad now, Event.click pad now ∈ rest → pad ∈ grid :=
      fun pad now h => hg pad now (List.mem_cons_of_mem _ h)
    show BeforeFirstLoad (run (step s e) rest) ∧
      (_ → (run (step s e) rest).cycleDuration = _) ∧
      (_ → (run (step s e) rest).cycleDuration = _)
    cases e with
    | click pad now =>
      obtain ⟨h1, h2⟩ := beforeFirstLoad_click hs pad now (hg pad now (List.mem_cons_self _ _))
      have h3 : (run (onPadClick s pad now) rest).cycleDuration = some 4 := by
        rw [run_cycleDuration_of_set rest _ (by rw [h2]; decide), h2]
      exact ⟨(ih h1 hg').1, fun h => by simp [Event.isClick] at h, fun _ => h3⟩
    | advance nextStart =>
      have h1 := beforeFirstLoad_advanceCycle hs nextStart
      obtain ⟨i1, i2, i3⟩ := ih h1 hg'
      have hcd : (step s (Event.advance nextStart)).cycleDuration = s.cycleDuration :=
        (advanceCycle_clock s nextStart).2.1
      refine ⟨i1, fun h => ?_, fun h => ?_⟩
      · rw [← hcd]
        exact i2 (by simpa [Event.isClick] using h)
      · exact i3 (by simpa [Event.isClick] using h)
    | stopAll =>
      have h1 := beforeFirstLoad_stopAll hs
      obtain ⟨i1, i2, i3⟩ := ih h1 hg'
      refine ⟨i1, fun h => ?_, fun h => ?_⟩
      · exact i2 (by simpa [Event.isClick] using h)
      · exact i3 (by simpa [Event.isClick] using h)

theorem loadLoop_cycleDuration (outcome : Key → Option ℚ) (during : Key → List Event)
    (hpos : ∀ k d, outcome k = some d → 0 < d)
    (hgrid : ∀ name pad now, Event.click pad now ∈ during name → pad ∈ grid)
    (names : List Key) (s : State) (hs : BeforeFirstLoad s) (hcd : s.cycleDuration = none) :
    (quietUntilLoaded outcome during names = true →
      (names.foldl
        (fun (st : State) (name : Key) => loadBuffer (run st (during name)) name (outcome name))
        s).cycleDuration = firstLoaded outcome names) ∧
    (quietUntilLoaded outcome during names = false →
      (names.foldl
        (fun (st : State) (name : Key) => loadBuffer (run st (during name)) name (outcome name))
        s).cycleDuration = some 4) := by
  induction names generalizing s with
  | nil => exact ⟨fun _ => hcd, fun h => by simp [quietUntilLoaded] at h⟩
  | cons name rest ih =>
    obtain ⟨r1, r2, r3⟩ := beforeFirstLoad_run (during name) hs (hgrid name)
    simp only [List.foldl_cons]
    by_cases hq : (during name).all (fun e => !e.isClick) = true
    · have hrun : (run s (during name)).cycleDuration = none := by rw [r2 hq, hcd]
      cases ho : outcome name with
      | none =>
        have hload : loadBuffer (run s (during name)) name none = run s (during name) := rfl
        rw [hload]
        obtain ⟨i1, i2⟩ := ih (run s (during name)) r1 hrun
        simp only [quietUntilLoaded, firstLoaded, hq, ho, Bool.true_and]
        exact ⟨i1, i2⟩
      | some d =>
        have hd := loadBuffer_cycleDuration_of_null (run s (during name)) name d hrun
        have hset : falsy (loadBuffer (run s (during name)) name (some d)).cycleDuration =
            false := by
          rw [hd]
          exact falsy_some_of_ne d (ne_of_gt (hpos name d ho))
        rw [loadLoop_cycleDuration_of_set outcome during rest _ hset, hd]
        simp [quietUntilLoaded, firstLoaded, hq, ho]
    · have hq : (during name).all (fun e => !e.isClick) = false := by simpa using hq
      have hrun : (run s (during name)).cycleDuration = some 4 := r3 hq
      have hl := loadBuffer_cycleDuration_of_set (run s (during name)) name (outcome name)
        (by rw [hrun]; decide)
      have hset : falsy (loadBuffer (run s (during name)) name (outcome name)).cycleDuration =
          false := by
        rw [hl, hrun]; decide
      rw [loadLoop_cycleDuration_of_set outcome during rest _ hset, hl, hrun]
      simp [quietUntilLoaded, hq]

theorem firstLoaded_pos (outcome : Key → Option ℚ) (hpos : ∀ k d, outcome k = some d → 0 < d)
    (names : List Key) (d : ℚ) (h : firstLoaded outcome names = some d) : 0 < d := by
  induction names with
  | nil => simp [firstLoaded] at h
  | cons name rest ih =>
    cases ho : outcome name with
    | none =>
      simp only [firstLoaded, ho] at h
      exact ih h
    | some d' =>
      simp only [firstLoaded, ho, Option.some.injEq] at h
      rw [← h]
      exact hpos name d' ho

/-- The failing run of C22: every sample loads and each buffer lasts 8 seconds, and the pad of
drum 1 is clicked while the first sample is awaited: the click starts a cycle with the fallback
duration 4, which the loads do not replace, so that `cycleDuration` is 4 when `loadAllBuffers` has
finished, not the duration 8 of the first sample; it is still 4 after `stopAll` and after a new
direct start of the loaded drum 1. -/
theorem click_before_first_load :
    firstLoaded allLoaded allSampleNames = some 8 ∧
    (loadAllBuffers allLoaded clickBeforeLoad fresh).buffers "drum.1.1.wav" = some 8 ∧
    (loadAllBuffers allLoaded clickBeforeLoad fresh).cycleDuration = some 4 ∧
    (loadAllBuffers allLoaded clickBeforeLoad fresh).cycleDuration ≠
      firstLoaded allLoaded allSampleNames ∧
    (stopAll (loadAllBuffers allLoaded clickBeforeLoad fresh)).cycleDuration = some 4 ∧
    (onPadClick (stopAll (loadAllBuffers allLoaded clickBeforeLoad fresh))
      (drumPad 1) 9).cycleDuration = some 4 := by
  set_option maxRecDepth 20000 in
  exact ⟨by decide, by decide, by decide, by decide, by decide, by decide⟩

/-- What `loadAllBuffers` leaves in `cycleDuration` (claim C22): for every outcome of the 36
loads (the durations of the buffers being positive) and every interleaving of events of the page
with the loading (clicks on pads of the grid, cycle commits, `stopAll`), once `loadAllBuffers` has
finished every sample that loaded is in `buffers`, whatever failed before it; `cycleDuration` is
the duration of the first sample that loaded (in the order drum 1 to 10, bass 1 to 10, sound 1 to
16), or 4 if none loaded, as the comments of lines 422 and 427 say, when no pad was clicked before
that sample was stored; and it is 4, against these comments, when a pad was clicked before. -/
theorem loadAllBuffers_cycleDuration (outcome : Key → Option ℚ) (during : Key → List Event)
    (hpos : ∀ k d, outcome k = some d → 0 < d)
    (hgrid : ∀ name pad now, Event.click pad now ∈ during name → pad ∈ grid) :
    (∀ name, name ∈ allSampleNames →
      (loadAllBuffers outcome during fresh).buffers name = outcome name) ∧
    (quietUntilLoaded outcome during allSampleNames = true →
      (loadAllBuffers outcome during fresh).cycleDuration =
        some ((firstLoaded outcome allSampleNames).getD 4)) ∧
    (quietUntilLoaded outcome during allSampleNames = false →
      (loadAllBuffers outcome during fresh).cycleDuration = some 4) := by
  obtain ⟨l1, l2⟩ := loadLoop_cycleDuration outcome during hpos hgrid allSampleNames fresh
    beforeFirstLoad_fresh rfl
  refine ⟨?_, ?_, ?_⟩
  · intro name hname
    have hb : (loadAllBuffers outcome during fresh).buffers name =
        (allSampleNames.foldl
          (fun (st : State) (name : Key) =>
            loadBuffer (run st (during name)) name (outcome name)) fresh).buffers name := by
      unfold loadAllBuffers
      simp only []
      split <;> rfl
    rw [hb]
    cases ho : outcome name with
    | none =>
      rw [loadLoop_buffers_kept outcome during allSampleNames fresh name (Or.inl ho)]
      rfl
    | some d =>
      rw [loadLoop_buffers_stored outcome during allSampleNames fresh name hname
        (by rw [ho]; simp), ho]
  · intro hq
    have h1 := l1 hq
    unfold loadAllBuffers
    simp only []
    cases hf : firstLoaded outcome allSampleNames with
    | none =>
      rw [hf] at h1
      simp [h1, falsy]
    | some d =>
      rw [hf] at h1
      have hd := firstLoaded_pos outcome hpos allSampleNames d hf
      simp [h1, falsy, ne_of_gt hd]
  · intro hq
    have h1 := l2 hq
    unfold loadAllBuffers
    simp only []
    rw [h1]
    simp [falsy, h1]

/-- A run of C22 on which the comments hold: the load of drum 1 fails, the other samples load
with 8 seconds each, and sound 1 is clicked while bass 1 is awaited, after drum 2 was stored:
`cycleDuration` is 8 when the loading has finished, and drum 2 is in `buffers`. -/
theorem loadAllBuffers_cycleDuration_witness :
    (∀ k d, firstFails k = some d → 0 < d) ∧
    (∀ name pad now, Event.click pad now ∈ clickAfterLoad name → pad ∈ grid) ∧
    quietUntilLoaded firstFails clickAfterLoad allSampleNames = true ∧
    firstLoaded firstFails allSampleNames = some 8 ∧
    (loadAllBuffers firstFails clickAfterLoad fresh).cycleDuration =
      some ((firstLoaded firstFails allSampleNames).getD 4) ∧
    (loadAllBuffers firstFails clickAfterLoad fresh).buffers "drum.1.2.wav" =
      firstFails "drum.1.2.wav" :=
  have hpos : ∀ k d, firstFails k = some d → 0 < d := by
    intro k d h
    unfold firstFails at h
    split at h
    · simp at h
    · simp only [Option.some.injEq] at h
      rw [← h]
      norm_num
  have hgrid : ∀ name pad now, Event.click pad now ∈ clickAfterLoad name → pad ∈ grid := by
    intro name pad now h
    unfold clickAfterLoad at h
    split at h
    · simp only [List.mem_singleton, Event.click.injEq] at h
      rw [h.1]
      decide
    · simp at h
  ⟨hpos, hgrid, by decide, by decide,
    (loadAllBuffers_cycleDuration firstFails clickAfterLoad hpos hgrid).2.1 (by decide),
    (loadAllBuffers_cycleDuration firstFails clickAfterLoad hpos hgrid).1 "drum.1.2.wav"
      (by decide)⟩

/-! ## Claim C17: the two runs agree -/

theorem inferDuration_falsy (buffers : Key → Option ℚ) (l : List Info)
    (hb : ∀ k d, buffers k = some d → d = 0) : falsy (inferDuration buffers l) = true := by
  induction l with
  | nil => rfl
  | cons it rest ih =>
    cases h : buffers it.key with
    | none => simpa [inferDuration, h] using ih
    | some d => simp [inferDuration, h, falsy, hb it.key d h]

theorem onPadClick_cycleDuration_unstored (s : State) (pad : Pad) (now : ℚ)
    (hb : ∀ k d, s.buffers k = some d → d = 0) :
    (onPadClick s pad now).cycleDuration =
      if takesDirectStart s pad && falsy s.cycleDuration then some 4 else s.cycleDuration := by
  by_cases h1 : s.playingClass pad.key = true
  · rw [onPadClick_stop s pad now h1]
    simp [takesDirectStart, h1]
  · have h1 : s.playingClass pad.key = false := by simpa using h1
    by_cases h2 : s.queuedClass pad.key = true
    · rw [onPadClick_cancel s pad now h1 h2]
      simp [takesDirectStart, h2]
    · have h2 : s.queuedClass pad.key = false := by simpa using h2
      by_cases h3 : anyPlaying s = true
      · rw [(onPadClick_enqueue s pad now h1 h2 h3).2.2.2.1]
        simp [takesDirectStart, h3]
      · have h3 : anyPlaying s = false := by simpa using h3
        rw [onPadClick_start s pad now h1 h2 h3, startNewCycle_cycleDuration,
          inferDuration_falsy _ _ hb]
        simp [takesDirectStart, h1, h2, h3]

theorem takesDirectStart_agree {s t : State} (h : SlotsAgree s t) (pad : Pad) :
    takesDirectStart t pad = takesDirectStart s pad := by
  simp only [takesDirectStart, anyPlaying_agree h, h.playingClass, h.queuedClass]

theorem step_cycleDuration_agree {s t : State} (h : SlotsAgree s t)
    (hcd : t.cycleDuration = s.cycleDuration)
    (hs : ∀ k d, s.buffers k = some d → d = 0) (ht : ∀ k d, t.buffers k = some d → d = 0)
    (e : Event) : (step t e).cycleDuration = (step s e).cycleDuration := by
  cases e with
  | click pad now =>
    show (onPadClick t pad now).cycleDuration = (onPadClick s pad now).cycleDuration
    rw [onPadClick_cycleDuration_unstored t pad now ht,
      onPadClick_cycleDuration_unstored s pad now hs, takesDirectStart_agree h, hcd]
  | advance nextStart =>
    show (advanceCycle t nextStart).cycleDuration = (advanceCycle s nextStart).cycleDuration
    rw [(advanceCycle_clock t nextStart).2.1, (advanceCycle_clock s nextStart).2.1, hcd]
  | stopAll => exact hcd

theorem run_cycleDuration_agree (events : List Event) {s t : State} (h : SlotsAgree s t)
    (hcd : t.cycleDuration = s.cycleDuration)
    (hs : ∀ k d, s.buffers k = some d → d = 0) (ht : ∀ k d, t.buffers k = some d → d = 0) :
    (run t events).cycleDuration = (run s events).cycleDuration := by
  induction events generalizing s t with
  | nil => exact hcd
  | cons e rest ih =>
    show (run (step t e) rest).cycleDuration = (run (step s e) rest).cycleDuration
    exact ih (step_agree h e) (step_cycleDuration_agree h hcd hs ht e)
      (fun k d hk => hs k d (by rw [← step_buffers s e]; exact hk))
      (fun k d hk => ht k d (by rw [← step_buffers t e]; exact hk))

/-- Claim C17: the slot bookkeeping does not depend on which samples are loaded: from the same
state with any two buffer maps, the same sequence of clicks, commits and `stopAll` gives the same
keys in `playing` and in `pending` of every category, so that a key without a buffer takes and
loses its slot like a loaded one; the classes of the buttons, `disabledAtNext`, the cycle start,
the timer and the effect parameters are the same too. `cycleDuration` is the same in both runs in
every state of the page, where a stored buffer of a duration other than 0 comes with a
`cycleDuration` (lines 421 and 422 store both in one turn): so only the tracked playbacks (the
sources, the start and stop logs, the counters `startedCycle`) differ. -/
theorem slots_independent_of_buffers (s : State) (b1 b2 : Key → Option ℚ)
    (events : List Event) :
    (∀ c, playingKeys (run { s with buffers := b1 } events) c =
      playingKeys (run { s with buffers := b2 } events) c) ∧
    (∀ c, pendingKeys (run { s with buffers := b1 } events) c =
      pendingKeys (run { s with buffers := b2 } events) c) ∧
    (run { s with buffers := b1 } events).pending =
      (run { s with buffers := b2 } events).pending ∧
    (run { s with buffers := b1 } events).playingClass =
      (run { s with buffers := b2 } events).playingClass ∧
    (run { s with buffers := b1 } events).queuedClass =
      (run { s with buffers := b2 } events).queuedClass ∧
    (run { s with buffers := b1 } events).disabledAtNext =
      (run { s with buffers := b2 } events).disabledAtNext ∧
    (run { s with buffers := b1 } events).lastCycleStart =
      (run { s with buffers := b2 } events).lastCycleStart ∧
    (run { s with buffers := b1 } events).cycleTimer =
      (run { s with buffers := b2 } events).cycleTimer ∧
    (run { s with buffers := b1 } events).effectParams =
      (run { s with buffers := b2 } events).effectParams ∧
    (falsy s.cycleDuration = false →
      (run { s with buffers := b1 } events).cycleDuration =
        (run { s with buffers := b2 } events).cycleDuration) ∧
    ((falsy s.cycleDuration = true → ∀ k d, b1 k = some d ∨ b2 k = some d → d = 0) →
      (run { s with buffers := b1 } events).cycleDuration =
        (run { s with buffers := b2 } events).cycleDuration) := by
  have h0 : SlotsAgree { s with buffers := b2 } { s with buffers := b1 } :=
    ⟨fun _ => rfl, rfl, rfl, rfl, rfl, rfl, rfl, rfl⟩
  have h := run_agree events h0
  have hset : falsy s.cycleDuration = false →
      (run { s with buffers := b1 } events).cycleDuration =
        (run { s with buffers := b2 } events).cycleDuration := by
    intro hf
    rw [run_cycleDuration_of_set events { s with buffers := b1 } hf,
      run_cycleDuration_of_set events { s with buffers := b2 } hf]
  refine ⟨h.keys, fun c => by simp only [pendingKeys, h.pending], h.pending, h.playingClass,
    h.queuedClass, h.disabled, h.lastCycleStart, h.cycleTimer, h.effectParams, hset, ?_⟩
  intro hpage
  by_cases hf : falsy s.cycleDuration = true
  · exact run_cycleDuration_agree events h0 rfl
      (fun k d hk => hpage hf k d (Or.inr hk)) (fun k d hk => hpage hf k d (Or.inl hk))
  · exact hset (by simpa using hf)

/-- Witness of C17: on the loaded page, where `cycleDuration` is 4, the runs with the buffers of
the page and with no buffer keep the same `cycleDuration`, and without a buffer sounds 1 and 2
take their slots. -/
theorem slots_independent_of_buffers_witness :
    falsy loaded.cycleDuration = false ∧
    (run { loaded with buffers := loaded.buffers }
        [Event.click (soundPad 1) 0, Event.click (soundPad 2) 1, Event.advance 4]).cycleDuration =
      (run { loaded with buffers := fun _ => none }
        [Event.click (soundPad 1) 0, Event.click (soundPad 2) 1, Event.advance 4]).cycleDuration ∧
    playingKeys (run { loaded with buffers := fun _ => none }
        [Event.click (soundPad 1) 0, Event.click (soundPad 2) 1, Event.advance 4]) Cat.sound =
      ["sounds.1.1.wav", "sounds.1.2.wav"] :=
  ⟨by decide,
    (slots_independent_of_buffers loaded loaded.buffers (fun _ => none)
      [Event.click (soundPad 1) 0, Event.click (soundPad 2) 1,
        Event.advance 4]).2.2.2.2.2.2.2.2.2.2
      (fun h => absurd h (by decide)),
    by decide⟩

end AdventureMachine
